import Mathlib

/-!
# Mark and sweep of the Kotlin/Native concurrent mark-and-sweep collector

A shallow embedding of `gc/common/cpp/MarkAndSweepUtils.hpp`, of the traits, the
marking entry points and the GC thread of `gc/cms/cpp/ConcurrentMarkAndSweep.cpp`
and of `gc/common/cpp/GCStatistics.cpp`.

* An object pointer (`ObjHeader*`) is its address, a natural number.
* The object graph (classification of an object, its reference fields, its
  extra-object data, its allocated size, its finalizers) is a record of
  functions of the address; the collector only reads it while it marks.
* The colour of every node (`ObjectData`) is a function of the address; the
  mark queue is a list whose head is the front of the queue.
* Loops over an intrusive list become recursion over a Lean list; the drain
  loop of `Mark`, whose number of iterations is not bounded by its argument,
  takes a fuel argument and returns `none` when the fuel is used up.
* The `size_t` and `uint64_t` counters are natural numbers: they count distinct
  live allocations, bytes of those allocations and root-set entries. A `KLong`
  is an integer.
* Logging, time measurement, locks and `RuntimeAssert` have no effect on the
  state modelled here.
* The statistics (`last`, `current`) are a state that every `GCHandle` member
  function transforms; the clock value that a function reads is an argument.
  An epoch is a natural number: it counts collections.
* The calls that `GCInfo::build` makes on the builder, the calls that the GC
  thread makes and the events of the marking entry points are lists in the
  order they are made.
* The epoch state (`GCState.hpp`) is not among the sources and is modelled from
  its specification; threads that use it concurrently are interleavings of
  atomic steps, its operations being thread-safe.
-/

namespace kotlin

/-- Address held by an `ObjHeader*`. -/
abbrev ObjHeader := Nat

/-- Modelled from the spec: the helper `isNullOrMarker` of `Memory.h`, which is
used by the collector and declared elsewhere. The null pointer is address 0
and the marker sentinel is address 1; every other address is a reference. -/
def isNullOrMarker (obj : ObjHeader) : Bool := decide (obj ≤ 1)

namespace mm

/-- Modelled from the spec: the side record `mm::ExtraObjectData` ("an
associated native object, a weak-reference counter object, and a
FLAGS_IN_FINALIZER_QUEUE flag"), together with the base object it belongs
to. -/
structure ExtraObjectData where
  baseObject : ObjHeader
  weakReferenceCounter : ObjHeader
  associatedObject : Option Nat
  flagInFinalizerQueue : Bool
deriving DecidableEq, Repr

namespace ExtraObjectData

/-- Modelled from the spec: `GetBaseObject()`, the base object of the record. -/
def GetBaseObject (e : ExtraObjectData) : ObjHeader := e.baseObject

/-- Modelled from the spec: `GetWeakReferenceCounter()`, the weak-reference
counter object of the record. -/
def GetWeakReferenceCounter (e : ExtraObjectData) : ObjHeader := e.weakReferenceCounter

/-- Modelled from the spec: `getFlag(FLAGS_IN_FINALIZER_QUEUE)`. -/
def getFlagInFinalizerQueue (e : ExtraObjectData) : Bool := e.flagInFinalizerQueue

/-- Modelled from the spec: `setFlag(FLAGS_IN_FINALIZER_QUEUE)`. -/
def setFlagInFinalizerQueue (e : ExtraObjectData) : ExtraObjectData :=
  { e with flagInFinalizerQueue := true }

/-- Modelled from the spec: `ClearWeakReferenceCounter()` ("clear weak
counter"): the counter pointer becomes null. -/
def ClearWeakReferenceCounter (e : ExtraObjectData) : ExtraObjectData :=
  { e with weakReferenceCounter := 0 }

/-- Modelled from the spec: `HasAssociatedObject()`, whether the record holds an
associated native object. -/
def HasAssociatedObject (e : ExtraObjectData) : Bool := e.associatedObject.isSome

/-- Modelled from the spec: `DetachAssociatedObject()` ("detach it"): the
record no longer holds the associated native object. -/
def DetachAssociatedObject (e : ExtraObjectData) : ExtraObjectData :=
  { e with associatedObject := none }

end ExtraObjectData

/-- Source of an entry of `mm::ThreadRootSet`. -/
inductive ThreadRootSource where
  | kStack
  | kTLS
deriving DecidableEq, Repr

/-- Source of an entry of `mm::GlobalRootSet`. -/
inductive GlobalRootSource where
  | kGlobal
  | kStableRef
deriving DecidableEq, Repr

/-- An entry of `mm::ThreadRootSet`. -/
structure ThreadRootValue where
  object : ObjHeader
  source : ThreadRootSource
deriving DecidableEq, Repr

/-- An entry of `mm::GlobalRootSet`. -/
structure GlobalRootValue where
  object : ObjHeader
  source : GlobalRootSource
deriving DecidableEq, Repr

/-- What the collector reads of a `mm::ThreadData`: its id, the entries that
`mm::ThreadRootSet(thread)` enumerates, and the `marking_` flag of its
collector data. -/
structure ThreadData where
  threadId : Int
  rootSet : List ThreadRootValue
  marking : Bool
deriving DecidableEq, Repr

end mm

/-- What the collector reads of the heap while it runs: the object graph. -/
structure ObjectGraph where
  /-- Embeds `object->heap()`. -/
  heap : ObjHeader → Bool
  /-- The pointers that `traverseReferredObjects(object, f)` passes to `f`, in order. -/
  fields : ObjHeader → List ObjHeader
  /-- Embeds `mm::ExtraObjectData::Get(object)`. -/
  extraObjectData : ObjHeader → Option mm.ExtraObjectData
  /-- Embeds `mm::GetAllocatedHeapSize(object)`. -/
  allocatedHeapSize : ObjHeader → Nat
  /-- Embeds `HasFinalizers(object)`. -/
  hasFinalizers : ObjHeader → Bool

namespace gc

/-- Embeds `ConcurrentMarkAndSweep::ObjectData::Color`. -/
inductive Color where
  | kWhite
  | kBlack
deriving DecidableEq, Repr

/-- The colour stored in the `ObjectData` of the node of every object. -/
abbrev Colors := ObjHeader → Color

/-- Embeds `ConcurrentMarkAndSweep::MarkQueue`; the head of the list is the front. -/
abbrev MarkQueue := List ObjHeader

/-- Modelled from the spec: `ObjectData::atomicSetToBlack` ("a single atomic
compare-exchange": the transition White to Black, reporting whether it
succeeded; an object that is already Black is left alone). -/
def atomicSetToBlack (color : Colors) (object : ObjHeader) : Bool × Colors :=
  if color object = Color.kWhite then (true, Function.update color object Color.kBlack)
  else (false, color)

/-! ## GCStatistics.cpp: the records of the last and the current collection -/

/-- Embeds `KLong`. -/
abbrev KLong := Int

/-- Embeds `MemoryUsage`. -/
structure MemoryUsage where
  objectsCount : KLong
  totalObjectsSize : KLong
deriving DecidableEq, Repr

/-- Embeds `MemoryUsageMap`. -/
structure MemoryUsageMap where
  heap : Option MemoryUsage := none
  metaPool : Option MemoryUsage := none
deriving DecidableEq, Repr

/-- Embeds `RootSetStatistics`. -/
structure RootSetStatistics where
  threadLocalReferences : KLong
  stackReferences : KLong
  globalReferences : KLong
  stableReferences : KLong
deriving DecidableEq, Repr

/-- Embeds `RootSetStatistics::total()`. -/
def RootSetStatistics.total (r : RootSetStatistics) : KLong :=
  r.threadLocalReferences + r.stableReferences + r.globalReferences + r.stableReferences

/-- Embeds `GCInfo`; a default-constructed record has no populated field. -/
structure GCInfo where
  epoch : Option Nat := none
  startTime : Option KLong := none
  endTime : Option KLong := none
  pauseStartTime : Option KLong := none
  pauseEndTime : Option KLong := none
  finalizersDoneTime : Option KLong := none
  rootSet : Option RootSetStatistics := none
  memoryUsageBefore : MemoryUsageMap := {}
  memoryUsageAfter : MemoryUsageMap := {}
deriving DecidableEq, Repr

/-- The two file-level records `last` and `current` of GCStatistics.cpp. -/
structure GCStatistics where
  last : GCInfo := {}
  current : GCInfo := {}
deriving DecidableEq, Repr

/-- The record a `GCInfo*` returned by `statByEpoch` points to. -/
inductive StatRef where
  | current
  | last
deriving DecidableEq, Repr

/-- Embeds `statByEpoch(epoch)`; `none` is the null pointer. -/
def statByEpoch (st : GCStatistics) (epoch : Nat) : Option StatRef :=
  if st.current.epoch = some epoch then some StatRef.current
  else if st.last.epoch = some epoch then some StatRef.last
  else none

/-- Read through a `GCInfo*`. -/
def GCStatistics.get (st : GCStatistics) : StatRef → GCInfo
  | StatRef.current => st.current
  | StatRef.last => st.last

/-- Write through a `GCInfo*`. -/
def GCStatistics.set (st : GCStatistics) (r : StatRef) (info : GCInfo) : GCStatistics :=
  match r with
  | StatRef.current => { st with current := info }
  | StatRef.last => { st with last := info }

/-- Embeds `GCHandle`. -/
structure GCHandle where
  epoch : Nat
deriving DecidableEq, Repr

/-- Embeds `GCHandle::getByEpoch`. -/
def GCHandle.getByEpoch (epoch : Nat) : GCHandle := { epoch := epoch }

/-- The record `*stat->rootSet` after `if (!stat->rootSet) stat->rootSet = RootSetStatistics{0, 0, 0, 0}`. -/
def GCInfo.rootSetOrZero (info : GCInfo) : RootSetStatistics :=
  match info.rootSet with
  | some r => r
  | none => { threadLocalReferences := 0, stackReferences := 0, globalReferences := 0, stableReferences := 0 }

/-- Embeds `GCHandle::threadRootSet`. -/
def GCHandle.threadRootSet (h : GCHandle) (_thread_id : Int) (threadLocalReferences stackReferences : Nat)
    (st : GCStatistics) : GCStatistics :=
  match statByEpoch st h.epoch with
  | some ref =>
    let stat := st.get ref
    let r := stat.rootSetOrZero
    st.set ref { stat with rootSet := some { r with
      stackReferences := r.stackReferences + (stackReferences : Int),
      threadLocalReferences := r.threadLocalReferences + (threadLocalReferences : Int) } }
  | none => st

/-- Embeds `GCHandle::globalRootSet`. -/
def GCHandle.globalRootSet (h : GCHandle) (globalReferences stableReferences : Nat)
    (st : GCStatistics) : GCStatistics :=
  match statByEpoch st h.epoch with
  | some ref =>
    let stat := st.get ref
    let r := stat.rootSetOrZero
    st.set ref { stat with rootSet := some { r with
      globalReferences := r.globalReferences + (globalReferences : Int),
      stableReferences := r.stableReferences + (stableReferences : Int) } }
  | none => st

/-- Embeds `GCHandle::create`; `now` is what `konan::getTimeNanos()` returns. -/
def GCHandle.create (epoch : Nat) (now : KLong) (st : GCStatistics) : GCHandle × GCStatistics :=
  (GCHandle.getByEpoch epoch,
    { st with current := { st.current with epoch := some epoch, startTime := some now } })

/-- Embeds `GCHandle::finish`; `now` is what `konan::getTimeNanos()` returns. -/
def GCHandle.finish (h : GCHandle) (now : KLong) (st : GCStatistics) : GCStatistics :=
  match statByEpoch st h.epoch with
  | some ref =>
    let st1 := st.set ref { st.get ref with endTime := some now }
    match ref with
    | StatRef.current => { last := st1.current, current := {} }
    | StatRef.last => st1
  | none => st

/-- The `current.endTime` and `current.startTime` that `GCHandle::finish` reads
for the duration it logs, after it has stored the end time in the record that
`statByEpoch` matched; `none` when it logs no duration, because no record
matched or the matched record has no start time. The source dereferences both
without a check. -/
def GCHandle.finishDurationOperands (h : GCHandle) (now : KLong) (st : GCStatistics) :
    Option (Option KLong × Option KLong) :=
  match statByEpoch st h.epoch with
  | some ref =>
    let st1 := st.set ref { st.get ref with endTime := some now }
    if (st1.get ref).startTime.isSome then some (st1.current.endTime, st1.current.startTime)
    else none
  | none => none

/-- Embeds `GCHandle::suspensionRequested`. -/
def GCHandle.suspensionRequested (h : GCHandle) (now : KLong) (st : GCStatistics) : GCStatistics :=
  match statByEpoch st h.epoch with
  | some ref => st.set ref { st.get ref with pauseStartTime := some now }
  | none => st

/-- Embeds `GCHandle::threadsAreSuspended`, which only logs. -/
def GCHandle.threadsAreSuspended (_h : GCHandle) (_now : KLong) (st : GCStatistics) : GCStatistics :=
  st

/-- Embeds `GCHandle::threadsAreResumed`. -/
def GCHandle.threadsAreResumed (h : GCHandle) (now : KLong) (st : GCStatistics) : GCStatistics :=
  match statByEpoch st h.epoch with
  | some ref => st.set ref { st.get ref with pauseEndTime := some now }
  | none => st

/-- Embeds `GCHandle::finalizersDone`. -/
def GCHandle.finalizersDone (h : GCHandle) (now : KLong) (st : GCStatistics) : GCStatistics :=
  match statByEpoch st h.epoch with
  | some ref => st.set ref { st.get ref with finalizersDoneTime := some now }
  | none => st

/-- Embeds `GCHandle::finalizersScheduled`, which only logs. -/
def GCHandle.finalizersScheduled (_h : GCHandle) (_finalizersCount : Nat) (st : GCStatistics) :
    GCStatistics :=
  st

/-- Embeds `GCHandle::heapUsageBefore`. -/
def GCHandle.heapUsageBefore (h : GCHandle) (objectsCount totalObjectsSize : Nat)
    (st : GCStatistics) : GCStatistics :=
  match statByEpoch st h.epoch with
  | some ref =>
    let stat := st.get ref
    st.set ref { stat with memoryUsageBefore := { stat.memoryUsageBefore with
      heap := some { objectsCount := (objectsCount : Int), totalObjectsSize := (totalObjectsSize : Int) } } }
  | none => st

/-- Embeds `GCHandle::heapUsageAfter`. -/
def GCHandle.heapUsageAfter (h : GCHandle) (objectsCount totalObjectsSize : Nat)
    (st : GCStatistics) : GCStatistics :=
  match statByEpoch st h.epoch with
  | some ref =>
    let stat := st.get ref
    st.set ref { stat with memoryUsageAfter := { stat.memoryUsageAfter with
      heap := some { objectsCount := (objectsCount : Int), totalObjectsSize := (totalObjectsSize : Int) } } }
  | none => st

/-- Embeds `GCHandle::extraObjectsUsageBefore`. -/
def GCHandle.extraObjectsUsageBefore (h : GCHandle) (objectsCount totalObjectsSize : Nat)
    (st : GCStatistics) : GCStatistics :=
  match statByEpoch st h.epoch with
  | some ref =>
    let stat := st.get ref
    st.set ref { stat with memoryUsageBefore := { stat.memoryUsageBefore with
      metaPool := some { objectsCount := (objectsCount : Int), totalObjectsSize := (totalObjectsSize : Int) } } }
  | none => st

/-- Embeds `GCHandle::extraObjectsUsageAfter`. -/
def GCHandle.extraObjectsUsageAfter (h : GCHandle) (objectsCount totalObjectsSize : Nat)
    (st : GCStatistics) : GCStatistics :=
  match statByEpoch st h.epoch with
  | some ref =>
    let stat := st.get ref
    st.set ref { stat with memoryUsageAfter := { stat.memoryUsageAfter with
      metaPool := some { objectsCount := (objectsCount : Int), totalObjectsSize := (totalObjectsSize : Int) } } }
  | none => st

/-- The calls on a `GCHandle` that update a record without ending its epoch:
every member function but `finish`, with its arguments and, where the
function reads the clock, the time it reads. -/
inductive GCHandleUpdate where
  | suspensionRequested (now : KLong)
  | threadsAreSuspended (now : KLong)
  | threadsAreResumed (now : KLong)
  | finalizersDone (now : KLong)
  | finalizersScheduled (finalizersCount : Nat)
  | threadRootSet (thread_id : Int) (threadLocalReferences stackReferences : Nat)
  | globalRootSet (globalReferences stableReferences : Nat)
  | heapUsageBefore (objectsCount totalObjectsSize : Nat)
  | heapUsageAfter (objectsCount totalObjectsSize : Nat)
  | extraObjectsUsageBefore (objectsCount totalObjectsSize : Nat)
  | extraObjectsUsageAfter (objectsCount totalObjectsSize : Nat)
deriving DecidableEq, Repr

/-- The effect of an update call on the handle `h`. -/
def GCHandle.update (h : GCHandle) (call : GCHandleUpdate) (st : GCStatistics) : GCStatistics :=
  match call with
  | GCHandleUpdate.suspensionRequested now => h.suspensionRequested now st
  | GCHandleUpdate.threadsAreSuspended now => h.threadsAreSuspended now st
  | GCHandleUpdate.threadsAreResumed now => h.threadsAreResumed now st
  | GCHandleUpdate.finalizersDone now => h.finalizersDone now st
  | GCHandleUpdate.finalizersScheduled n => h.finalizersScheduled n st
  | GCHandleUpdate.threadRootSet id tls stack => h.threadRootSet id tls stack st
  | GCHandleUpdate.globalRootSet g stable => h.globalRootSet g stable st
  | GCHandleUpdate.heapUsageBefore n size => h.heapUsageBefore n size st
  | GCHandleUpdate.heapUsageAfter n size => h.heapUsageAfter n size st
  | GCHandleUpdate.extraObjectsUsageBefore n size => h.extraObjectsUsageBefore n size st
  | GCHandleUpdate.extraObjectsUsageAfter n size => h.extraObjectsUsageAfter n size st

/-- A call of the statistics interface that does not end an epoch:
`GCHandle::create(epoch)` or an update on the handle of `epoch`. -/
inductive StatisticsCall where
  | create (epoch : Nat) (now : KLong)
  | update (epoch : Nat) (call : GCHandleUpdate)
deriving DecidableEq, Repr

/-- The epoch a call is made for. -/
def StatisticsCall.epoch : StatisticsCall → Nat
  | StatisticsCall.create epoch _ => epoch
  | StatisticsCall.update epoch _ => epoch

/-- The effect of a call of the statistics interface. -/
def StatisticsCall.run (call : StatisticsCall) (st : GCStatistics) : GCStatistics :=
  match call with
  | StatisticsCall.create epoch now => (GCHandle.create epoch now st).2
  | StatisticsCall.update epoch c => (GCHandle.getByEpoch epoch).update c st

/-- A call of a builder setter `Kotlin_Internal_GC_GCInfoBuilder_set...` with
its arguments; the pool name is the string the pointer argument points to. -/
inductive BuilderCall where
  | setEpoch (value : KLong)
  | setStartTime (value : KLong)
  | setEndTime (value : KLong)
  | setPauseStartTime (value : KLong)
  | setPauseEndTime (value : KLong)
  | setFinalizersDoneTime (value : KLong)
  | setRootSet (threadLocalReferences stackReferences globalReferences stableReferences : KLong)
  | setMemoryUsageBefore (name : String) (objectsCount totalObjectsSize : KLong)
  | setMemoryUsageAfter (name : String) (objectsCount totalObjectsSize : KLong)
deriving DecidableEq, Repr

/-- The setter call made for a populated optional field, none otherwise. -/
def callIfPopulated {α : Type} (field : Option α) (call : α → BuilderCall) : List BuilderCall :=
  match field with
  | some value => [call value]
  | none => []

/-- Embeds `MemoryUsageMap::build`: the calls of `add` it makes, in order. -/
def MemoryUsageMap.build (m : MemoryUsageMap) (add : String → KLong → KLong → BuilderCall) :
    List BuilderCall :=
  callIfPopulated m.heap (fun u => add "heap" u.objectsCount u.totalObjectsSize) ++
  callIfPopulated m.metaPool (fun u => add "meta" u.objectsCount u.totalObjectsSize)

/-- Embeds `GCInfo::build`: the setter calls it makes on the builder, in order. -/
def GCInfo.build (info : GCInfo) : List BuilderCall :=
  match info.epoch with
  | none => []
  | some epoch =>
    [BuilderCall.setEpoch (epoch : Int)] ++
    callIfPopulated info.startTime BuilderCall.setStartTime ++
    callIfPopulated info.endTime BuilderCall.setEndTime ++
    callIfPopulated info.pauseStartTime BuilderCall.setPauseStartTime ++
    callIfPopulated info.pauseEndTime BuilderCall.setPauseEndTime ++
    callIfPopulated info.finalizersDoneTime BuilderCall.setFinalizersDoneTime ++
    callIfPopulated info.rootSet (fun r => BuilderCall.setRootSet r.threadLocalReferences
      r.stackReferences r.globalReferences r.stableReferences) ++
    info.memoryUsageBefore.build BuilderCall.setMemoryUsageBefore ++
    info.memoryUsageAfter.build BuilderCall.setMemoryUsageAfter

/-- Embeds `Kotlin_Internal_GC_GCInfoBuilder_Fill`: the setter calls made on the
builder. -/
def Kotlin_Internal_GC_GCInfoBuilder_Fill (st : GCStatistics) (id : Int) : List BuilderCall :=
  if id = 0 then st.last.build
  else if id = 1 then st.current.build
  else []

/-! ## MarkAndSweepUtils.hpp and the traits of ConcurrentMarkAndSweep.cpp -/

/-- Embeds `MarkStats`. -/
structure MarkStats where
  aliveHeapSet : Nat := 0
  aliveHeapSetBytes : Nat := 0
deriving DecidableEq, Repr

/-- Embeds `MarkStats::merge`. -/
def MarkStats.merge (self other : MarkStats) : MarkStats :=
  { aliveHeapSet := self.aliveHeapSet + other.aliveHeapSet,
    aliveHeapSetBytes := self.aliveHeapSetBytes + other.aliveHeapSetBytes }

/-- The state that marking reads and writes: the mark queue it is handed and
the colour of every node. -/
structure MarkState where
  markQueue : MarkQueue
  color : Colors

/-- The state that root-set collection reads and writes: the marking state and
the statistics records its handle reports to. -/
structure RuntimeState extends MarkState where
  gcInfo : GCStatistics := {}

namespace MarkTraits

/-- Embeds `MarkTraits::isEmpty`. -/
def isEmpty (queue : MarkQueue) : Bool := queue.isEmpty

/-- Embeds `MarkTraits::clear`. -/
def clear (_queue : MarkQueue) : MarkQueue := []

/-- Embeds `MarkTraits::dequeue`: the front of the queue and the queue without it
(`none` on an empty queue, where the source has no defined result; `Mark`
calls it on a queue that is not empty). -/
def dequeue : MarkQueue → Option (ObjHeader × MarkQueue)
  | [] => none
  | top :: rest => some (top, rest)

/-- Embeds `MarkTraits::enqueue`. -/
def enqueue (s : MarkState) (object : ObjHeader) : MarkState :=
  match atomicSetToBlack s.color object with
  | (false, _) => s
  | (true, color) => { s with markQueue := object :: s.markQueue, color := color }

end MarkTraits

/-- The callback that the root loops hand to `traverseReferredObjects` for a
non-heap root: `if (field->heap() && !isNullOrMarker(field)) enqueue`. -/
def enqueueHeapFieldOfRoot (G : ObjectGraph) (s : MarkState) (field : ObjHeader) : MarkState :=
  if G.heap field && !isNullOrMarker field then MarkTraits.enqueue s field else s

/-- The `if (object->heap()) ... else ...` that both root loops run on a root
that is neither null nor the marker. -/
def enqueueRootObject (G : ObjectGraph) (s : MarkState) (object : ObjHeader) : MarkState :=
  if G.heap object then MarkTraits.enqueue s object
  else (G.fields object).foldl (enqueueHeapFieldOfRoot G) s

/-- The local variables of `collectRootSetForThread` next to the state. -/
structure ThreadRootScan where
  state : MarkState
  stackRoots : Nat := 0
  threadLocalRoots : Nat := 0

/-- One iteration of the loop of `collectRootSetForThread`. -/
def collectThreadRootValue (G : ObjectGraph) (acc : ThreadRootScan) (value : mm.ThreadRootValue) :
    ThreadRootScan :=
  let object := value.object
  if !isNullOrMarker object then
    let state := enqueueRootObject G acc.state object
    match value.source with
    | mm.ThreadRootSource.kStack => { acc with state := state, stackRoots := acc.stackRoots + 1 }
    | mm.ThreadRootSource.kTLS => { acc with state := state, threadLocalRoots := acc.threadLocalRoots + 1 }
  else acc

/-- Embeds `collectRootSetForThread<MarkTraits>(handle, markQueue, thread)`. The call
`thread.gc().OnStoppedForGC()` belongs to the scheduler and touches nothing
modelled here. -/
def collectRootSetForThread (G : ObjectGraph) (handle : GCHandle) (s : RuntimeState)
    (thread : mm.ThreadData) : RuntimeState :=
  let scan := thread.rootSet.foldl (collectThreadRootValue G) { state := s.toMarkState }
  { toMarkState := scan.state,
    gcInfo := handle.threadRootSet thread.threadId scan.threadLocalRoots scan.stackRoots s.gcInfo }

/-- The local variables of `collectRootSetGlobals` next to the state. -/
structure GlobalRootScan where
  state : MarkState
  globalRoots : Nat := 0
  stableRoots : Nat := 0

/-- One iteration of the loop of `collectRootSetGlobals`. -/
def collectGlobalRootValue (G : ObjectGraph) (acc : GlobalRootScan) (value : mm.GlobalRootValue) :
    GlobalRootScan :=
  let object := value.object
  if !isNullOrMarker object then
    let state := enqueueRootObject G acc.state object
    match value.source with
    | mm.GlobalRootSource.kGlobal => { acc with state := state, globalRoots := acc.globalRoots + 1 }
    | mm.GlobalRootSource.kStableRef => { acc with state := state, stableRoots := acc.stableRoots + 1 }
  else acc

/-- Embeds `collectRootSetGlobals<MarkTraits>(gcHandle, markQueue)`; `globals` is what
`mm::GlobalRootSet()` enumerates once `StableRefRegistry::ProcessDeletions()`
has run. -/
def collectRootSetGlobals (G : ObjectGraph) (gcHandle : GCHandle) (s : RuntimeState)
    (globals : List mm.GlobalRootValue) : RuntimeState :=
  let scan := globals.foldl (collectGlobalRootValue G) { state := s.toMarkState }
  { toMarkState := scan.state,
    gcInfo := gcHandle.globalRootSet scan.globalRoots scan.stableRoots s.gcInfo }

/-- Embeds `collectRootSet<MarkTraits>(handle, markQueue, filter)`; `threads` is the
thread registry in iteration order. `thread.Publish()` hands the thread's own
allocations to the object factory; the factory of this development is the
published one, so the call changes nothing here. -/
def collectRootSet (G : ObjectGraph) (handle : GCHandle) (s : RuntimeState)
    (filter : mm.ThreadData → Bool) (threads : List mm.ThreadData)
    (globals : List mm.GlobalRootValue) : RuntimeState :=
  let cleared : RuntimeState := { s with markQueue := MarkTraits.clear s.markQueue }
  let afterThreads := threads.foldl
    (fun state thread => if !filter thread then state else collectRootSetForThread G handle state thread)
    cleared
  collectRootSetGlobals G handle afterThreads globals

/-- The callback that `Mark` hands to `traverseReferredObjects`:
`if (!isNullOrMarker(field) && field->heap()) enqueue`. -/
def enqueueHeapField (G : ObjectGraph) (s : MarkState) (field : ObjHeader) : MarkState :=
  if !isNullOrMarker field && G.heap field then MarkTraits.enqueue s field else s

/-- The weak-counter part of one iteration of `Mark`. -/
def enqueueWeakCounter (G : ObjectGraph) (s : MarkState) (top : ObjHeader) : MarkState :=
  match G.extraObjectData top with
  | some extraObjectData =>
    let weakCounter := extraObjectData.GetWeakReferenceCounter
    if !isNullOrMarker weakCounter then MarkTraits.enqueue s weakCounter else s
  | none => s

/-- What one iteration of `Mark` does to the state once `top` has left the queue. -/
def markObject (G : ObjectGraph) (s : MarkState) (top : ObjHeader) : MarkState :=
  enqueueWeakCounter G ((G.fields top).foldl (enqueueHeapField G) s) top

/-- The `while (!isEmpty(markQueue))` loop of `Mark` with its local `stats`;
`none` when the fuel does not cover the iterations. -/
def markLoop (G : ObjectGraph) : Nat → MarkStats → MarkState → Option (MarkStats × MarkState)
  | 0, _, _ => none
  | fuel + 1, stats, s =>
    if MarkTraits.isEmpty s.markQueue then some (stats, s)
    else
      match MarkTraits.dequeue s.markQueue with
      | none => none
      | some (top, rest) =>
        markLoop G fuel
          { aliveHeapSet := stats.aliveHeapSet + 1,
            aliveHeapSetBytes := stats.aliveHeapSetBytes + G.allocatedHeapSize top }
          (markObject G { s with markQueue := rest } top)

/-- Embeds `Mark<MarkTraits>(markQueue)`. -/
def Mark (G : ObjectGraph) (fuel : Nat) (s : MarkState) : Option (MarkStats × MarkState) :=
  markLoop G fuel {} s

/-- The `while (!isEmpty(markQueue))` loop of the template `Mark<Traits>` with
`Traits::dequeue` left as the parameter `dequeue`: the element it removes from
the queue and the queue that remains. The rest of the loop is that of
`markLoop`. -/
def markLoopWith (dequeue : MarkQueue → Option (ObjHeader × MarkQueue)) (G : ObjectGraph) :
    Nat → MarkStats → MarkState → Option (MarkStats × MarkState)
  | 0, _, _ => none
  | fuel + 1, stats, s =>
    if MarkTraits.isEmpty s.markQueue then some (stats, s)
    else
      match dequeue s.markQueue with
      | none => none
      | some (top, rest) =>
        markLoopWith dequeue G fuel
          { aliveHeapSet := stats.aliveHeapSet + 1,
            aliveHeapSetBytes := stats.aliveHeapSetBytes + G.allocatedHeapSize top }
          (markObject G { s with markQueue := rest } top)

/-- Embeds `Mark<Traits>(markQueue)` for a `Traits` whose `dequeue` is the
parameter. -/
def MarkWith (dequeue : MarkQueue → Option (ObjHeader × MarkQueue)) (G : ObjectGraph)
    (fuel : Nat) (s : MarkState) : Option (MarkStats × MarkState) :=
  markLoopWith dequeue G fuel {} s

/-- The conditions of the `RuntimeAssert`s that one iteration of `Mark` checks
for the dequeued object `top`: it is neither null nor the marker, it is a heap
object, and its weak counter, when the iteration enqueues it, is a heap
object. -/
def markAssertions (G : ObjectGraph) (top : ObjHeader) : Bool :=
  !isNullOrMarker top && G.heap top &&
    (match G.extraObjectData top with
     | some extraObjectData =>
       if !isNullOrMarker extraObjectData.GetWeakReferenceCounter then
         G.heap extraObjectData.GetWeakReferenceCounter
       else true
     | none => true)

/-- The objects that the loop of `Mark` dequeues in its first `fuel`
iterations, in order. -/
def markDequeued (G : ObjectGraph) : Nat → MarkState → List ObjHeader
  | 0, _ => []
  | fuel + 1, s =>
    if MarkTraits.isEmpty s.markQueue then []
    else
      match MarkTraits.dequeue s.markQueue with
      | none => []
      | some (top, rest) => top :: markDequeued G fuel (markObject G { s with markQueue := rest } top)

namespace SweepTraits

/-- Embeds `SweepTraits::IsMarkedByExtraObject`. -/
def IsMarkedByExtraObject (G : ObjectGraph) (color : Colors) (object : mm.ExtraObjectData) : Bool :=
  let baseObject := object.GetBaseObject
  if !G.heap baseObject then true
  else decide (color baseObject = Color.kBlack)

/-- Embeds `SweepTraits::TryResetMark`. -/
def TryResetMark (color : Colors) (node : ObjHeader) : Bool × Colors :=
  if color node = Color.kWhite then (false, color)
  else (true, Function.update color node Color.kWhite)

end SweepTraits

/-- The extra-object factory: its records in iteration order. -/
abbrev ExtraObjectsFactory := List mm.ExtraObjectData

/-- The loop of `SweepExtraObjects` over the records from the iterator on.
`Uninstall()` takes the record off the header of its base object, which the
loop does not read again, and the record itself is erased. -/
def sweepExtraObjectsLoop (G : ObjectGraph) (color : Colors) : ExtraObjectsFactory → ExtraObjectsFactory
  | [] => []
  | extraObject :: rest =>
    if !extraObject.getFlagInFinalizerQueue && !SweepTraits.IsMarkedByExtraObject G color extraObject then
      let cleared := extraObject.ClearWeakReferenceCounter
      if cleared.HasAssociatedObject then
        cleared.DetachAssociatedObject.setFlagInFinalizerQueue :: sweepExtraObjectsLoop G color rest
      else
        sweepExtraObjectsLoop G color rest
    else
      extraObject :: sweepExtraObjectsLoop G color rest

/-- Embeds `SweepExtraObjects<SweepTraits>(objectFactory)`. `ProcessDeletions` stands
for `objectFactory.ProcessDeletions()`, which is defined with the factory. -/
def SweepExtraObjects (ProcessDeletions : ExtraObjectsFactory → ExtraObjectsFactory)
    (G : ObjectGraph) (color : Colors) (objectFactory : ExtraObjectsFactory) : ExtraObjectsFactory :=
  sweepExtraObjectsLoop G color (ProcessDeletions objectFactory)

/-- The base objects of the records on which the loop of `SweepExtraObjects`
calls `Uninstall()`, in order: the same loop as `sweepExtraObjectsLoop`, read
for the records it uninstalls and erases. -/
def sweepExtraObjectsUninstalls (G : ObjectGraph) (color : Colors) : ExtraObjectsFactory → List ObjHeader
  | [] => []
  | extraObject :: rest =>
    if !extraObject.getFlagInFinalizerQueue && !SweepTraits.IsMarkedByExtraObject G color extraObject then
      let cleared := extraObject.ClearWeakReferenceCounter
      if cleared.HasAssociatedObject then
        sweepExtraObjectsUninstalls G color rest
      else
        cleared.GetBaseObject :: sweepExtraObjectsUninstalls G color rest
    else
      sweepExtraObjectsUninstalls G color rest

/-- What `Sweep` leaves behind: the nodes still in the object factory, the
finalizer queue it returns, and the colours. -/
structure SweepResult where
  objectFactory : List ObjHeader
  finalizerQueue : List ObjHeader
  color : Colors

/-- Embeds `Sweep<SweepTraits>(objectFactoryIter)` over the nodes from the iterator
on. A node is named by the address of its object (`GetObjHeader()`); the
finalizer queue receives the moved nodes in the order they are met. -/
def Sweep (G : ObjectGraph) : List ObjHeader → Colors → SweepResult
  | [], color => { objectFactory := [], finalizerQueue := [], color := color }
  | node :: rest, color =>
    match SweepTraits.TryResetMark color node with
    | (true, color1) =>
      let r := Sweep G rest color1
      { r with objectFactory := node :: r.objectFactory }
    | (false, color1) =>
      let r := Sweep G rest color1
      if G.hasFinalizers node then { r with finalizerQueue := node :: r.finalizerQueue }
      else r

/-- The marking data of the collector object (`markQueue_`, which is the
queue of the runtime state, and `lastGCMarkStats_`) with the state shared by
all marking threads. -/
structure CollectorState extends RuntimeState where
  lastGCMarkStats : MarkStats := {}

/-- Embeds `ConcurrentMarkAndSweep::MergeMarkStats`. -/
def MergeMarkStats (c : CollectorState) (stats : MarkStats) : CollectorState :=
  { c with lastGCMarkStats := c.lastGCMarkStats.merge stats }

/-- Embeds `ConcurrentMarkAndSweep::CollectRootSetAndStartMarking`: the root
sets of the threads that have not raised `marking_`, and the global root set,
go to `markQueue_`. Clearing `markingRequested` and notifying the waiting
threads is what lets the calls of `OnSuspendForGC` below proceed. -/
def CollectRootSetAndStartMarking (G : ObjectGraph) (gcHandle : GCHandle) (c : CollectorState)
    (threads : List mm.ThreadData) (globals : List mm.GlobalRootValue) : CollectorState :=
  { c with toRuntimeState :=
      collectRootSet G gcHandle c.toRuntimeState (fun thread => !thread.marking) threads globals }

/-- Embeds `ConcurrentMarkAndSweep::ThreadData::OnSuspendForGC` from the
moment the thread is released: a thread has raised `marking_` exactly when it
found `markingRequested` set, and then it collects its own root set into a
private queue, marks from it and merges its statistics; otherwise it returns
at once. The colours and the statistics records are shared with the other
threads; `markQueue_` is not touched. -/
def OnSuspendForGC (G : ObjectGraph) (fuel : Nat) (epoch : Nat) (c : CollectorState)
    (thread : mm.ThreadData) : Option CollectorState :=
  if !thread.marking then some c
  else
    let own : RuntimeState := { markQueue := [], color := c.color, gcInfo := c.gcInfo }
    let collected := collectRootSetForThread G (GCHandle.getByEpoch epoch) own thread
    match Mark G fuel collected.toMarkState with
    | none => none
    | some (stats, m) =>
      some (MergeMarkStats { c with color := m.color, gcInfo := collected.gcInfo } stats)

/-- The marking steps of `ConcurrentMarkAndSweep::PerformFullGC`
(`lastGCMarkStats_ = MarkStats()`, `CollectRootSetAndStartMarking`,
`Mark(markQueue_)`, `MergeMarkStats`) in one sequential order with the threads
that mark their own root set: the threads of `before` run `OnSuspendForGC`
before the collector thread drains its queue, the threads of `after` after
it. -/
def performMarking (G : ObjectGraph) (fuel : Nat) (epoch : Nat) (c : CollectorState)
    (threads : List mm.ThreadData) (globals : List mm.GlobalRootValue)
    (before after : List mm.ThreadData) : Option CollectorState :=
  let reset : CollectorState := { c with lastGCMarkStats := {} }
  let collected := CollectRootSetAndStartMarking G (GCHandle.getByEpoch epoch) reset threads globals
  match before.foldlM (OnSuspendForGC G fuel epoch) collected with
  | none => none
  | some c1 =>
    match Mark G fuel c1.toMarkState with
    | none => none
    | some (markStats, m) =>
      after.foldlM (OnSuspendForGC G fuel epoch)
        (MergeMarkStats { c1 with markQueue := m.markQueue, color := m.color } markStats)

/-- What the marking entry points do to the marking flags, the mark queue and
the root sets, as events in the order they happen. -/
inductive MarkingEvent where
  | storeMarkingRequested (value : Bool)
  | clear
  | Publish (threadId : Int)
  | collectRootSetForThread (threadId : Int)
  | collectRootSetGlobals
  | notify_all
deriving DecidableEq, Repr

/-- Embeds `collectRootSet<MarkTraits>(handle, markQueue, filter)` as the events
it produces: `Traits::clear(markQueue)`, then for each thread of the registry
that passes the filter `thread.Publish()` and `collectRootSetForThread`, then
`collectRootSetGlobals`. -/
def collectRootSet.events (filter : mm.ThreadData → Bool) (threads : List mm.ThreadData) :
    List MarkingEvent :=
  [MarkingEvent.clear] ++
  threads.flatMap (fun thread =>
    if !filter thread then []
    else [MarkingEvent.Publish thread.threadId,
          MarkingEvent.collectRootSetForThread thread.threadId]) ++
  [MarkingEvent.collectRootSetGlobals]

/-- Embeds `ConcurrentMarkAndSweep::CollectRootSetAndStartMarking` as the events
it produces: `markingRequested = false`, the events of `collectRootSet` with the
filter `!marking_`, and `markingCondVar.notify_all()`. -/
def CollectRootSetAndStartMarking.events (threads : List mm.ThreadData) : List MarkingEvent :=
  [MarkingEvent.storeMarkingRequested false] ++
  collectRootSet.events (fun thread => !thread.marking) threads ++
  [MarkingEvent.notify_all]

/-- Embeds `ConcurrentMarkAndSweep::ThreadData::OnSuspendForGC` from the moment
the thread is released as the events it produces: a thread that has raised
`marking_` collects its own root set, any other thread has returned at once. -/
def OnSuspendForGC.events (thread : mm.ThreadData) : List MarkingEvent :=
  if !thread.marking then []
  else [MarkingEvent.collectRootSetForThread thread.threadId]

/-! ## ConcurrentMarkAndSweep.cpp: the GC thread -/

/-- A call made by the GC thread: `state_.waitScheduled()` with the value it
returned, or one of the calls in the body of `PerformFullGC`. -/
inductive DriverCall where
  | waitScheduled (result : Option Nat)
  | handleCreate (epoch : Nat)
  | SetMarkingRequested (epoch : Nat)
  | RequestThreadsSuspension
  | suspensionRequested
  | WaitForThreadsReadyToMark
  | threadsAreSuspended
  | resetLastGCMarkStats
  | OnPerformFullGC
  | stateStart (epoch : Nat)
  | CollectRootSetAndStartMarking
  | Mark
  | MergeMarkStats
  | WaitForThreadsSuspension
  | heapUsageBefore
  | extraObjectsUsageBefore
  | UpdateAliveSetBytes
  | SweepExtraObjects
  | LockForIter
  | heapUsageAfter
  | extraObjectsUsageAfter
  | ResumeThreads
  | threadsAreResumed
  | Sweep
  | stateFinish (epoch : Nat)
  | finalizersScheduled
  | handleFinish
  | ScheduleTasks (epoch : Nat)
deriving DecidableEq, Repr

/-- Embeds the body of `ConcurrentMarkAndSweep::PerformFullGC(epoch)` as the
sequence of calls it makes, in source order, in a run in which every call
returns. -/
def PerformFullGC.calls (epoch : Nat) : List DriverCall :=
  [ DriverCall.handleCreate epoch,
    DriverCall.SetMarkingRequested epoch,
    DriverCall.RequestThreadsSuspension,
    DriverCall.suspensionRequested,
    DriverCall.WaitForThreadsReadyToMark,
    DriverCall.threadsAreSuspended,
    DriverCall.resetLastGCMarkStats,
    DriverCall.OnPerformFullGC,
    DriverCall.stateStart epoch,
    DriverCall.CollectRootSetAndStartMarking,
    DriverCall.Mark,
    DriverCall.MergeMarkStats,
    DriverCall.WaitForThreadsSuspension,
    DriverCall.heapUsageBefore,
    DriverCall.extraObjectsUsageBefore,
    DriverCall.UpdateAliveSetBytes,
    DriverCall.SweepExtraObjects,
    DriverCall.LockForIter,
    DriverCall.heapUsageAfter,
    DriverCall.extraObjectsUsageAfter,
    DriverCall.ResumeThreads,
    DriverCall.threadsAreResumed,
    DriverCall.Sweep,
    DriverCall.stateFinish epoch,
    DriverCall.finalizersScheduled,
    DriverCall.handleFinish,
    DriverCall.ScheduleTasks epoch ]

/-- Embeds the loop of the GC thread started by the constructor of
`ConcurrentMarkAndSweep`: `scheduled` lists the values that the successive
calls of `state_.waitScheduled()` return. An epoch runs `PerformFullGC`, an
absent value breaks out of the loop, and when the list is used up the thread
is waiting in `waitScheduled`. -/
def gcThread : List (Option Nat) → List DriverCall
  | [] => []
  | none :: _ => [DriverCall.waitScheduled none]
  | some epoch :: rest =>
    DriverCall.waitScheduled (some epoch) :: (PerformFullGC.calls epoch ++ gcThread rest)

/-! ## GCState.hpp: the epoch state machine, which is not among the sources -/

/-- Modelled from the spec: the epoch state `GCStateHolder`, whose source is
missing. It holds the epoch counter, the pending collection, the epochs that
last reached the milestones started, finished and finalized, and the shutdown
request. A collection is pending from the `schedule` that allocates its epoch
until its `finish`. -/
structure GCStateHolder where
  epoch : Nat := 0
  pending : Option Nat := none
  startedEpoch : Nat := 0
  finishedEpoch : Nat := 0
  finalizedEpoch : Nat := 0
  shutdownRequested : Bool := false
deriving DecidableEq, Repr

namespace GCStateHolder

/-- Modelled from the spec: `schedule()`, missing with `GCStateHolder`. If no
collection is pending it allocates the next epoch, otherwise it returns the
pending epoch. -/
def schedule (state : GCStateHolder) : Nat × GCStateHolder :=
  match state.pending with
  | some epoch => (epoch, state)
  | none =>
    (state.epoch + 1, { state with epoch := state.epoch + 1, pending := some (state.epoch + 1) })

/-- Modelled from the spec: `waitScheduled()`, missing with `GCStateHolder`. It
returns an absent value on shutdown and the scheduled epoch when there is one;
the result is `none` in a state in which the call blocks. -/
def waitScheduled (state : GCStateHolder) : Option (Option Nat) :=
  if state.shutdownRequested then some none
  else
    match state.pending with
    | some epoch => some (some epoch)
    | none => none

/-- Modelled from the spec: `start(epoch)`, missing with `GCStateHolder`. -/
def start (state : GCStateHolder) (epoch : Nat) : GCStateHolder :=
  { state with startedEpoch := epoch }

/-- Modelled from the spec: `finish(epoch)`, missing with `GCStateHolder`. The
epoch reaches the milestone finished and its collection is no longer
pending. -/
def finish (state : GCStateHolder) (epoch : Nat) : GCStateHolder :=
  { state with finishedEpoch := epoch,
               pending := if state.pending = some epoch then none else state.pending }

/-- Modelled from the spec: `finalized(epoch)`, missing with `GCStateHolder`. -/
def finalized (state : GCStateHolder) (epoch : Nat) : GCStateHolder :=
  { state with finalizedEpoch := epoch }

/-- Modelled from the spec: `shutdown()`, missing with `GCStateHolder`. -/
def shutdown (state : GCStateHolder) : GCStateHolder :=
  { state with shutdownRequested := true }

/-- Modelled from the spec: `waitEpochFinished(epoch)`, missing with
`GCStateHolder`. It blocks until the given or a later epoch has finished; the
result says whether the call returns in this state. -/
def waitEpochFinished (state : GCStateHolder) (epoch : Nat) : Bool :=
  decide (epoch ≤ state.finishedEpoch)

/-- Modelled from the spec: `waitEpochFinalized(epoch)`, missing with
`GCStateHolder`. The result says whether the call returns in this state. -/
def waitEpochFinalized (state : GCStateHolder) (epoch : Nat) : Bool :=
  decide (epoch ≤ state.finalizedEpoch)

end GCStateHolder

/-- A call on the GC state by the GC thread, the finalizer worker or the
destructor of the collector. -/
inductive StateCall where
  | waitScheduled
  | start (epoch : Nat)
  | finish (epoch : Nat)
  | finalized (epoch : Nat)
  | shutdown
deriving DecidableEq, Repr

/-- One atomic step of the threads that use the GC state: the two statements of
`ThreadData::ScheduleAndWaitFullGC` run by the mutator `caller`, or a call by
another thread. -/
inductive StateStep where
  | callerSchedules (caller : Nat)
  | callerReturns (caller : Nat)
  | other (call : StateCall)
deriving DecidableEq, Repr

/-- The GC state together with the local variable `scheduled_epoch` of each
mutator inside `ScheduleAndWaitFullGC`. -/
structure StateUsers where
  state : GCStateHolder
  scheduled_epoch : Nat → Option Nat

/-- The effect of a call by another thread; `none` when the call blocks. -/
def StateCall.run (call : StateCall) (state : GCStateHolder) : Option GCStateHolder :=
  match call with
  | StateCall.waitScheduled =>
    match state.waitScheduled with
    | some _ => some state
    | none => none
  | StateCall.start epoch => some (state.start epoch)
  | StateCall.finish epoch => some (state.finish epoch)
  | StateCall.finalized epoch => some (state.finalized epoch)
  | StateCall.shutdown => some state.shutdown

/-- Embeds `ThreadData::ScheduleAndWaitFullGC` as its two steps:
`scheduled_epoch = gc_.state_.schedule()`, and the return of
`gc_.state_.waitEpochFinished(scheduled_epoch)`, which happens only in a state
in which that call returns. The steps of other threads come in between. The
result is `none` when the step cannot be taken. -/
def StateUsers.step (users : StateUsers) : StateStep → Option StateUsers
  | StateStep.callerSchedules caller =>
    some { state := users.state.schedule.2,
           scheduled_epoch := Function.update users.scheduled_epoch caller
             (some users.state.schedule.1) }
  | StateStep.callerReturns caller =>
    match users.scheduled_epoch caller with
    | some epoch => if users.state.waitEpochFinished epoch then some users else none
    | none => none
  | StateStep.other call =>
    match call.run users.state with
    | some state => some { users with state := state }
    | none => none

/-- Any interleaving of steps, taken one after the other. -/
def StateUsers.run (users : StateUsers) (steps : List StateStep) : Option StateUsers :=
  steps.foldlM StateUsers.step users

/-! ## Notions used to state the properties -/

/-- The objects that a list of `enqueue` calls is made on are enqueued first to last. -/
def enqueueAll (s : MarkState) (objects : List ObjHeader) : MarkState :=
  objects.foldl MarkTraits.enqueue s

/-- The objects that the root loops call `enqueue` on for one root: the root
itself when it is a heap object, the heap objects among the fields of a
non-heap root, nothing for a null or marker root. -/
def rootTargets (G : ObjectGraph) (object : ObjHeader) : List ObjHeader :=
  if isNullOrMarker object then []
  else if G.heap object then [object]
  else (G.fields object).filter (fun field => G.heap field && !isNullOrMarker field)

/-- The objects that one iteration of `Mark` calls `enqueue` on for the
dequeued object `top`: its heap fields, then its weak counter. -/
def markTargets (G : ObjectGraph) (top : ObjHeader) : List ObjHeader :=
  (G.fields top).filter (fun field => !isNullOrMarker field && G.heap field) ++
    (match G.extraObjectData top with
     | some extraObjectData =>
       if !isNullOrMarker extraObjectData.GetWeakReferenceCounter then
         [extraObjectData.GetWeakReferenceCounter]
       else []
     | none => [])

/-- The root objects of one thread. -/
def threadRootObjects (thread : mm.ThreadData) : List ObjHeader :=
  thread.rootSet.map (fun value => value.object)

/-- The root objects that `collectRootSet` reads: those of the threads that
pass the filter, then the global ones. -/
def rootObjects (filter : mm.ThreadData → Bool) (threads : List mm.ThreadData)
    (globals : List mm.GlobalRootValue) : List ObjHeader :=
  (threads.filter filter).flatMap threadRootObjects ++ globals.map (fun value => value.object)

/-- Object `o` holds a reference to `p`: `p` is one of its reference fields, or
`o` is a heap object and `p` is the weak-reference counter of its extra-object
data. Null and the marker are not references. -/
inductive Refers (G : ObjectGraph) : ObjHeader → ObjHeader → Prop where
  | field {o p : ObjHeader} : p ∈ G.fields o → isNullOrMarker p = false → Refers G o p
  | weakCounter {o p : ObjHeader} {e : mm.ExtraObjectData} : G.heap o = true →
      G.extraObjectData o = some e → e.weakReferenceCounter = p → isNullOrMarker p = false →
      Refers G o p

/-- Object `o` is reachable from a root through references. -/
def Reachable (G : ObjectGraph) (roots : List ObjHeader) (o : ObjHeader) : Prop :=
  ∃ r ∈ roots, isNullOrMarker r = false ∧ Relation.ReflTransGen (Refers G) r o

/-- A reference from a heap object `o` that marking follows: to a heap object
in one of its fields, or to its weak-reference counter. -/
inductive HeapRefers (G : ObjectGraph) : ObjHeader → ObjHeader → Prop where
  | field {o p : ObjHeader} : G.heap o = true → p ∈ G.fields o → isNullOrMarker p = false →
      G.heap p = true → HeapRefers G o p
  | weakCounter {o p : ObjHeader} {e : mm.ExtraObjectData} : G.heap o = true →
      G.extraObjectData o = some e → e.weakReferenceCounter = p → isNullOrMarker p = false →
      HeapRefers G o p

/-- The heap objects that the roots hand to marking: a root that is a heap
object, and a heap object in a field of a root that is not a heap object. -/
inductive HeapRoot (G : ObjectGraph) (roots : List ObjHeader) : ObjHeader → Prop where
  | root {r : ObjHeader} : r ∈ roots → isNullOrMarker r = false → G.heap r = true →
      HeapRoot G roots r
  | fieldOfRoot {r p : ObjHeader} : r ∈ roots → isNullOrMarker r = false → G.heap r = false →
      p ∈ G.fields r → isNullOrMarker p = false → G.heap p = true → HeapRoot G roots p

/-- Object `o` is reachable from the roots along heap objects only: from a
heap root, or from a heap field of a non-heap root, through the fields and
weak counters of heap objects. The fields of a non-heap object count only when
that object is itself a root. -/
def HeapReachable (G : ObjectGraph) (roots : List ObjHeader) (o : ObjHeader) : Prop :=
  ∃ t, HeapRoot G roots t ∧ Relation.ReflTransGen (HeapRefers G) t o

/-- Every weak-reference counter of a heap object that is neither null nor the
marker is a heap object (what `Mark` asserts before it enqueues a counter). -/
def WeakCountersOnHeap (G : ObjectGraph) : Prop :=
  ∀ o e, G.heap o = true → G.extraObjectData o = some e →
    isNullOrMarker e.weakReferenceCounter = false → G.heap e.weakReferenceCounter = true

/-! ## Notions and examples used by the proofs -/

/-- The records that stay in the extra-object factory: the base object is not
a heap object, or it is Black, or the record is already in the finalizer queue,
or the record holds an associated native object. -/
def extraObjectKept (G : ObjectGraph) (color : Colors) (e : mm.ExtraObjectData) : Bool :=
  !G.heap e.GetBaseObject || decide (color e.GetBaseObject = Color.kBlack)
    || e.getFlagInFinalizerQueue || e.HasAssociatedObject

/-- A heap with the single heap object 2. -/
def loneObjectGraph : ObjectGraph where
  heap := fun o => o == 2
  fields := fun _ => []
  extraObjectData := fun _ => none
  allocatedHeapSize := fun _ => 16
  hasFinalizers := fun _ => false

/-- An extra-object record of object 2 that holds an associated native object
and is not in the finalizer queue. -/
def recordWithAssociatedObject : mm.ExtraObjectData :=
  { baseObject := 2, weakReferenceCounter := 0, associatedObject := some 7, flagInFinalizerQueue := false }

/-- Bookkeeping of the objects turned Black since the colouring `c0`: they are
the objects of `D` (already dequeued), of the mark queue of `m`, and of `P`
(waiting in another queue), each listed once. -/
structure Tracked (c0 : Colors) (D P : List ObjHeader) (m : MarkState) : Prop where
  nodup : (D ++ m.markQueue ++ P).Nodup
  mem_iff : ∀ o, o ∈ D ++ m.markQueue ++ P ↔ (c0 o = Color.kWhite ∧ m.color o = Color.kBlack)
  mono : ∀ o, c0 o = Color.kBlack → m.color o = Color.kBlack

/-- Every object turned Black since `c0` is reachable along heap objects. -/
structure Sound (G : ObjectGraph) (roots : List ObjHeader) (c0 : Colors) (D P : List ObjHeader)
    (m : MarkState) : Prop where
  tracked : Tracked c0 D P m
  reach : ∀ o, o ∈ D ++ m.markQueue ++ P → HeapReachable G roots o

/-- Every object that `Mark` enqueues for a dequeued object of `D` is Black. -/
def Closed (G : ObjectGraph) (D : List ObjHeader) (m : MarkState) : Prop :=
  ∀ o, o ∈ D → ∀ p, p ∈ markTargets G o → m.color p = Color.kBlack

/-- A heap of six objects 10..15 and a permanent object 2. -/
def exampleGraph : ObjectGraph where
  heap := fun o => decide (10 ≤ o ∧ o ≤ 15)
  fields := fun o =>
    if o = 2 then [10, 0, 1, 3] else if o = 10 then [11, 12] else if o = 11 then [10, 12]
    else if o = 13 then [10] else []
  extraObjectData := fun o =>
    if o = 12 then
      some { baseObject := 12, weakReferenceCounter := 14, associatedObject := none,
             flagInFinalizerQueue := false }
    else none
  allocatedHeapSize := fun o => o
  hasFinalizers := fun o => decide (o = 13)

/-- The object factory of the example heap. -/
def exampleFactory : List ObjHeader := [10, 11, 12, 13, 14, 15]

/-- A thread whose stack holds the permanent object 2 and whose thread-local
storage holds a null reference. -/
def exampleThread : mm.ThreadData :=
  { threadId := 1,
    rootSet := [{ object := 2, source := mm.ThreadRootSource.kStack },
                { object := 0, source := mm.ThreadRootSource.kTLS }],
    marking := false }

/-- A global that holds the heap object 11. -/
def exampleGlobals : List mm.GlobalRootValue :=
  [{ object := 11, source := mm.GlobalRootSource.kGlobal }]

/-- A colouring of the example heap in which the objects 10 and 12 are Black. -/
def exampleColors : Colors := fun o => if o = 10 ∨ o = 12 then Color.kBlack else Color.kWhite

/-- The state before a collection: an empty queue, every node White. -/
def allWhite : RuntimeState := { markQueue := [], color := fun _ => Color.kWhite }

/-- A stack object 2 that refers to a permanent object 3 that refers to the
only heap object 4. -/
def chainGraph : ObjectGraph where
  heap := fun o => decide (o = 4)
  fields := fun o => if o = 2 then [3] else if o = 3 then [4] else []
  extraObjectData := fun _ => none
  allocatedHeapSize := fun _ => 16
  hasFinalizers := fun _ => false

/-- A thread whose stack holds the stack object 2. -/
def chainThread : mm.ThreadData :=
  { threadId := 1, rootSet := [{ object := 2, source := mm.ThreadRootSource.kStack }],
    marking := false }

/-- A heap object 10 whose field holds a permanent object 3 whose field holds
the heap object 11. -/
def detourGraph : ObjectGraph where
  heap := fun o => decide (o = 10 ∨ o = 11)
  fields := fun o => if o = 10 then [3] else if o = 3 then [11] else []
  extraObjectData := fun _ => none
  allocatedHeapSize := fun _ => 16
  hasFinalizers := fun _ => false

/-- A global that holds the heap object 10. -/
def detourGlobals : List mm.GlobalRootValue :=
  [{ object := 10, source := mm.GlobalRootSource.kGlobal }]

/-- A thread that marks its own root set, the heap object 13 on its stack. -/
def exampleMutator : mm.ThreadData :=
  { threadId := 2, rootSet := [{ object := 13, source := mm.ThreadRootSource.kStack }],
    marking := true }

/-- The invariant of the marking steps of a collection: the objects `D` have
been dequeued by some thread, the collector's own queue is waiting, the heap
objects handed over by the roots `done` are Black, and the merged statistics
count `D`. -/
structure MarkingInv (G : ObjectGraph) (roots : List ObjHeader) (c0 : Colors)
    (D done : List ObjHeader) (c : CollectorState) : Prop where
  sound : Sound G roots c0 D c.markQueue { markQueue := [], color := c.color }
  closed : Closed G D { markQueue := [], color := c.color }
  rootsBlack : ∀ t, t ∈ done.flatMap (rootTargets G) → c.color t = Color.kBlack
  alive : c.lastGCMarkStats.aliveHeapSet = D.length
  bytes : c.lastGCMarkStats.aliveHeapSetBytes = (D.map G.allocatedHeapSize).sum

/-- The thread registry in which no thread marks its own root set. -/
def withoutOwnMarking (threads : List mm.ThreadData) : List mm.ThreadData :=
  threads.map (fun thread => { thread with marking := false })

/-- The collector before a collection: an empty queue, every node White. -/
def exampleCollector : CollectorState := { markQueue := [], color := fun _ => Color.kWhite }

/-- The number of roots of a thread root set that are neither null nor the
marker and come from `source`. -/
def countThreadRoots (source : mm.ThreadRootSource) (values : List mm.ThreadRootValue) : Nat :=
  values.countP (fun value => !isNullOrMarker value.object && decide (value.source = source))

/-- The number of roots of the global root set that are neither null nor the
marker and come from `source`. -/
def countGlobalRoots (source : mm.GlobalRootSource) (values : List mm.GlobalRootValue) : Nat :=
  values.countP (fun value => !isNullOrMarker value.object && decide (value.source = source))

/-- A second thread, with two stack roots and a thread-local root. -/
def exampleWorker : mm.ThreadData :=
  { threadId := 3,
    rootSet := [{ object := 13, source := mm.ThreadRootSource.kStack },
                { object := 1, source := mm.ThreadRootSource.kStack },
                { object := 10, source := mm.ThreadRootSource.kStack },
                { object := 15, source := mm.ThreadRootSource.kTLS }],
    marking := false }

/-- The two milestone calls on the GC state: `state_.start(epoch)` and
`state_.finish(epoch)`. -/
inductive Milestone where
  | started (epoch : Nat)
  | finished (epoch : Nat)
deriving DecidableEq, Repr

/-- The milestone that a call of the GC thread is, if it is one. -/
def DriverCall.milestone : DriverCall → Option Milestone
  | DriverCall.stateStart epoch => some (Milestone.started epoch)
  | DriverCall.stateFinish epoch => some (Milestone.finished epoch)
  | _ => none

/-- The milestone calls of a sequence of calls, in order. -/
def milestones (calls : List DriverCall) : List Milestone :=
  calls.filterMap DriverCall.milestone

/-- The epochs that are started and not yet finished after the milestones
`ms`, given those in `open0` before them. -/
def inFlightFrom (open0 : List Nat) (ms : List Milestone) : List Nat :=
  ms.foldl
    (fun acc m =>
      match m with
      | Milestone.started epoch => acc ++ [epoch]
      | Milestone.finished epoch => acc.erase epoch)
    open0

/-- The epochs between started and finished after the milestones `ms`. -/
def inFlight (ms : List Milestone) : List Nat := inFlightFrom [] ms

/-- The epochs that `waitScheduled` returned before its first absent value. -/
def scheduledEpochs : List (Option Nat) → List Nat
  | some epoch :: rest => epoch :: scheduledEpochs rest
  | _ => []

/-- A queue discipline: on a queue that is not empty `dequeue` removes one
element, whichever it chooses, and leaves the others. -/
def DequeueDiscipline (dequeue : MarkQueue → Option (ObjHeader × MarkQueue)) : Prop :=
  ∀ queue : MarkQueue, queue ≠ [] →
    ∃ top rest, dequeue queue = some (top, rest) ∧ queue.Perm (top :: rest)

/-- The first-in-first-out discipline: `enqueue` pushes at the front, so the
element that has waited longest is at the back, and this `dequeue` removes
it. -/
def dequeueBack : MarkQueue → Option (ObjHeader × MarkQueue)
  | [] => none
  | top :: rest => some ((top :: rest).getLast (List.cons_ne_nil top rest), (top :: rest).dropLast)

/-- The object `o` is reached from an element of the queue `Q0` by a chain of
one or more `Mark` steps, each to an object that is White in `c0`. -/
def WhiteReach (G : ObjectGraph) (c0 : Colors) (Q0 : List ObjHeader) (o : ObjHeader) : Prop :=
  ∃ q, q ∈ Q0 ∧ Relation.TransGen (fun a b => b ∈ markTargets G a ∧ c0 b = Color.kWhite) q o

/-- Bookkeeping of a run of `Mark` from the queue `Q0` and the colouring `c0`,
whatever `dequeue` removes: the dequeued objects `D` and the queue hold the
elements of `Q0` and the objects `N` turned Black since, which are listed once
and are reached from `Q0` through White objects. -/
structure Pushed (G : ObjectGraph) (c0 : Colors) (Q0 D N : List ObjHeader) (m : MarkState) :
    Prop where
  perm : (D ++ m.markQueue).Perm (Q0 ++ N)
  nodup : N.Nodup
  mem_iff : ∀ o, o ∈ N ↔ (c0 o = Color.kWhite ∧ m.color o = Color.kBlack)
  mono : ∀ o, c0 o = Color.kBlack → m.color o = Color.kBlack
  reach : ∀ o, o ∈ N → WhiteReach G c0 Q0 o

/-- The invariant of the loop of `Mark` under any queue discipline. -/
def PushedClosed (G : ObjectGraph) (c0 : Colors) (Q0 : List ObjHeader) (D : List ObjHeader)
    (m : MarkState) : Prop :=
  ∃ N, Pushed G c0 Q0 D N m ∧ Closed G D m

/-- A marking state of the example heap: the objects 13 and 11 are in the queue
and every node is White. -/
def exampleQueued : MarkState := { markQueue := [13, 11], color := fun _ => Color.kWhite }

/-- An extra-object record of the example heap with the weak counter 14 and a
clear finalizer-queue flag. -/
def exampleRecord (baseObject : ObjHeader) (associatedObject : Option Nat) : mm.ExtraObjectData :=
  { baseObject := baseObject, weakReferenceCounter := 14, associatedObject := associatedObject,
    flagInFinalizerQueue := false }

/-- The GC state at start-up, with no mutator inside `ScheduleAndWaitFullGC`. -/
def StateUsers.initial : StateUsers := { state := {}, scheduled_epoch := fun _ => none }

/-- The epoch counter and the pending collection are those of the state
`before`, or no collection was pending in `before` and the next epoch has been
allocated since and is pending. -/
def SameRequest (before state : GCStateHolder) : Prop :=
  (state.epoch = before.epoch ∧ state.pending = before.pending) ∨
  (before.pending = none ∧ state.epoch = before.epoch + 1 ∧
    state.pending = some (before.epoch + 1))

/-- What holds of the GC state after the steps `done` from start-up: the epoch
that last finished is 0 or that of a `finish` among the steps, and the pending
epoch and the epochs the callers hold are at least 1. -/
def FinishRecorded (done : List StateStep) (users : StateUsers) : Prop :=
  (users.state.finishedEpoch = 0 ∨
    StateStep.other (StateCall.finish users.state.finishedEpoch) ∈ done) ∧
  (∀ e, users.state.pending = some e → 1 ≤ e) ∧
  (∀ c e, users.scheduled_epoch c = some e → 1 ≤ e)

/-- The thread whose root set an event collects, if it collects one. -/
def MarkingEvent.collectedThread : MarkingEvent → Option Int
  | MarkingEvent.collectRootSetForThread threadId => some threadId
  | _ => none

/-- The call of `GCHandle::threadRootSet` that `collectRootSetForThread` makes
for a thread. -/
def reportThreadRootSet (h : GCHandle) (st : GCStatistics) (thread : mm.ThreadData) :
    GCStatistics :=
  h.threadRootSet thread.threadId (countThreadRoots mm.ThreadRootSource.kTLS thread.rootSet)
    (countThreadRoots mm.ThreadRootSource.kStack thread.rootSet) st

/-- The example collector after `GCHandle::create(1)` at time 0. -/
def exampleStarted : CollectorState :=
  { exampleCollector with gcInfo := (GCHandle.create 1 0 {}).2 }

/-! ## Properties -/

theorem enqueue_of_white (s : MarkState) (o : ObjHeader) (h : s.color o = Color.kWhite) :
    MarkTraits.enqueue s o =
      { s with markQueue := o :: s.markQueue, color := Function.update s.color o Color.kBlack } := by
  simp [MarkTraits.enqueue, atomicSetToBlack, h]

theorem enqueue_of_black (s : MarkState) (o : ObjHeader) (h : s.color o = Color.kBlack) :
    MarkTraits.enqueue s o = s := by
  simp [MarkTraits.enqueue, atomicSetToBlack, h]

theorem color_cases (c : Color) : c = Color.kWhite ∨ c = Color.kBlack := by
  cases c <;> simp

theorem enqueue_color_self (s : MarkState) (o : ObjHeader) :
    (MarkTraits.enqueue s o).color o = Color.kBlack := by
  rcases color_cases (s.color o) with h | h
  · rw [enqueue_of_white s o h]; simp
  · rw [enqueue_of_black s o h]; exact h

theorem enqueue_color_of_ne (s : MarkState) (o x : ObjHeader) (hx : x ≠ o) :
    (MarkTraits.enqueue s o).color x = s.color x := by
  rcases color_cases (s.color o) with h | h
  · rw [enqueue_of_white s o h]; simp [Function.update_noteq hx]
  · rw [enqueue_of_black s o h]

theorem enqueue_color_black_iff (s : MarkState) (o x : ObjHeader) :
    (MarkTraits.enqueue s o).color x = Color.kBlack ↔ s.color x = Color.kBlack ∨ x = o := by
  by_cases hx : x = o
  · subst hx; simp [enqueue_color_self]
  · simp [enqueue_color_of_ne s o x hx, hx]

theorem enqueue_idem (s : MarkState) (o : ObjHeader) :
    MarkTraits.enqueue (MarkTraits.enqueue s o) o = MarkTraits.enqueue s o :=
  enqueue_of_black _ _ (enqueue_color_self s o)

/-- Claim C9: `MarkTraits::enqueue` on a White object makes it Black, pushes it
on the front of the queue (one more occurrence of it in the queue) and leaves
every other colour alone; on a Black object it changes nothing, neither queue
nor colours; so enqueueing twice equals enqueueing once; and if every object
in the queue is Black before the call, every object in the queue is Black
after it. -/
theorem enqueue_contract (s : MarkState) (object : ObjHeader) :
    (s.color object = Color.kWhite →
      (MarkTraits.enqueue s object).color object = Color.kBlack ∧
      (MarkTraits.enqueue s object).markQueue = object :: s.markQueue ∧
      (MarkTraits.enqueue s object).markQueue.count object = s.markQueue.count object + 1 ∧
      ∀ x, x ≠ object → (MarkTraits.enqueue s object).color x = s.color x) ∧
    (s.color object = Color.kBlack → MarkTraits.enqueue s object = s) ∧
    MarkTraits.enqueue (MarkTraits.enqueue s object) object = MarkTraits.enqueue s object ∧
    ((∀ x ∈ s.markQueue, s.color x = Color.kBlack) →
      ∀ x ∈ (MarkTraits.enqueue s object).markQueue,
        (MarkTraits.enqueue s object).color x = Color.kBlack) := by
  refine ⟨?_, enqueue_of_black s object, enqueue_idem s object, ?_⟩
  · intro h
    refine ⟨enqueue_color_self s object, ?_, ?_, fun x hx => enqueue_color_of_ne s object x hx⟩
    · rw [enqueue_of_white s object h]
    · rw [enqueue_of_white s object h]; simp
  · intro hq x hx
    rcases color_cases (s.color object) with h | h
    · rw [enqueue_of_white s object h] at hx
      simp only [List.mem_cons] at hx
      rcases hx with rfl | hx
      · exact enqueue_color_self s x
      · exact (enqueue_color_black_iff s object x).2 (Or.inl (hq x hx))
    · rw [enqueue_of_black s object h] at hx ⊢
      exact hq x hx

theorem tryResetMark_fst (color : Colors) (node : ObjHeader) :
    (SweepTraits.TryResetMark color node).1 = decide (color node = Color.kBlack) := by
  unfold SweepTraits.TryResetMark
  cases h : color node <;> simp

theorem tryResetMark_snd_self (color : Colors) (node : ObjHeader) :
    (SweepTraits.TryResetMark color node).2 node = Color.kWhite := by
  unfold SweepTraits.TryResetMark
  cases h : color node <;> simp [h]

theorem tryResetMark_snd_of_ne (color : Colors) (node x : ObjHeader) (hx : x ≠ node) :
    (SweepTraits.TryResetMark color node).2 x = color x := by
  unfold SweepTraits.TryResetMark
  cases h : color node <;> simp [Function.update_noteq hx]

theorem sweep_cons (G : ObjectGraph) (node : ObjHeader) (rest : List ObjHeader) (color : Colors) :
    Sweep G (node :: rest) color =
      (if (SweepTraits.TryResetMark color node).1 then
        { Sweep G rest (SweepTraits.TryResetMark color node).2 with
          objectFactory := node :: (Sweep G rest (SweepTraits.TryResetMark color node).2).objectFactory }
      else if G.hasFinalizers node then
        { Sweep G rest (SweepTraits.TryResetMark color node).2 with
          finalizerQueue := node :: (Sweep G rest (SweepTraits.TryResetMark color node).2).finalizerQueue }
      else Sweep G rest (SweepTraits.TryResetMark color node).2) := by
  rw [Sweep]
  rcases h : SweepTraits.TryResetMark color node with ⟨b, c⟩
  cases b <;> simp

theorem sweep_color (G : ObjectGraph) (factory : List ObjHeader) :
    ∀ (color : Colors) (x : ObjHeader),
      (Sweep G factory color).color x = if x ∈ factory then Color.kWhite else color x := by
  induction factory with
  | nil => intro color x; simp [Sweep]
  | cons node rest ih =>
    intro color x
    have hc : (Sweep G (node :: rest) color).color x
        = (Sweep G rest (SweepTraits.TryResetMark color node).2).color x := by
      rw [sweep_cons]; split_ifs <;> rfl
    rw [hc, ih]
    by_cases hx : x ∈ rest
    · simp [hx]
    · by_cases hxn : x = node
      · subst hxn; simp [tryResetMark_snd_self]
      · simp [hx, hxn, tryResetMark_snd_of_ne color node x hxn]

theorem sweep_objectFactory (G : ObjectGraph) (factory : List ObjHeader) :
    ∀ (color : Colors), factory.Nodup →
      (Sweep G factory color).objectFactory
        = factory.filter (fun o => decide (color o = Color.kBlack)) := by
  induction factory with
  | nil => intro color _; simp [Sweep]
  | cons node rest ih =>
    intro color hnd
    rw [List.nodup_cons] at hnd
    have hrest : ∀ x ∈ rest, (SweepTraits.TryResetMark color node).2 x = color x := by
      intro x hx
      exact tryResetMark_snd_of_ne color node x (fun h => hnd.1 (h ▸ hx))
    have hf : rest.filter (fun o => decide ((SweepTraits.TryResetMark color node).2 o = Color.kBlack))
        = rest.filter (fun o => decide (color o = Color.kBlack)) :=
      List.filter_congr (fun x hx => by rw [hrest x hx])
    rw [sweep_cons, tryResetMark_fst]
    by_cases hb : color node = Color.kBlack
    · simp [hb, ih _ hnd.2, hf]
    · by_cases hfin : G.hasFinalizers node = true
      · simp [hb, hfin, ih _ hnd.2, hf]
      · simp [hb, hfin, ih _ hnd.2, hf]

theorem sweep_finalizerQueue (G : ObjectGraph) (factory : List ObjHeader) :
    ∀ (color : Colors), factory.Nodup →
      (Sweep G factory color).finalizerQueue
        = factory.filter (fun o => decide (color o = Color.kWhite) && G.hasFinalizers o) := by
  induction factory with
  | nil => intro color _; simp [Sweep]
  | cons node rest ih =>
    intro color hnd
    rw [List.nodup_cons] at hnd
    have hrest : ∀ x ∈ rest, (SweepTraits.TryResetMark color node).2 x = color x := by
      intro x hx
      exact tryResetMark_snd_of_ne color node x (fun h => hnd.1 (h ▸ hx))
    have hf : rest.filter (fun o => decide ((SweepTraits.TryResetMark color node).2 o = Color.kWhite)
          && G.hasFinalizers o)
        = rest.filter (fun o => decide (color o = Color.kWhite) && G.hasFinalizers o) :=
      List.filter_congr (fun x hx => by rw [hrest x hx])
    rw [sweep_cons, tryResetMark_fst]
    rcases color_cases (color node) with hb | hb
    · by_cases hfin : G.hasFinalizers node = true
      · simp [hb, hfin, ih _ hnd.2, hf]
      · simp [hb, hfin, ih _ hnd.2, hf]
    · simp [hb, ih _ hnd.2, hf]

theorem sweep_objectFactory_subset (G : ObjectGraph) (factory : List ObjHeader) :
    ∀ (color : Colors) (x : ObjHeader), x ∈ (Sweep G factory color).objectFactory → x ∈ factory := by
  induction factory with
  | nil => intro color x hx; simp [Sweep] at hx
  | cons node rest ih =>
    intro color x hx
    rw [sweep_cons] at hx
    split_ifs at hx
    · simp only [List.mem_cons] at hx ⊢
      rcases hx with h | h
      · exact Or.inl h
      · exact Or.inr (ih _ x h)
    · exact List.mem_cons_of_mem _ (ih _ x hx)
    · exact List.mem_cons_of_mem _ (ih _ x hx)

/-- Claim C4: for a factory whose nodes are distinct and any colouring, after
`Sweep` the object factory holds exactly the nodes that were Black, in their
original order; the finalizer queue holds exactly the nodes that were White
and have finalizers, each once; and a White node without finalizers is in
neither. -/
theorem sweep_partitions_factory (G : ObjectGraph) (factory : List ObjHeader) (color : Colors)
    (hnodup : factory.Nodup) :
    (Sweep G factory color).objectFactory
        = factory.filter (fun o => decide (color o = Color.kBlack)) ∧
    (Sweep G factory color).finalizerQueue
        = factory.filter (fun o => decide (color o = Color.kWhite) && G.hasFinalizers o) ∧
    (∀ o, o ∈ factory → color o = Color.kWhite → G.hasFinalizers o = true →
        (Sweep G factory color).finalizerQueue.count o = 1 ∧
        o ∉ (Sweep G factory color).objectFactory) ∧
    (∀ o, o ∈ factory → color o = Color.kWhite → G.hasFinalizers o = false →
        o ∉ (Sweep G factory color).objectFactory ∧
        o ∉ (Sweep G factory color).finalizerQueue) := by
  rw [sweep_objectFactory G factory color hnodup, sweep_finalizerQueue G factory color hnodup]
  refine ⟨rfl, rfl, ?_, ?_⟩
  · intro o ho hw hfin
    refine ⟨List.count_eq_one_of_mem (hnodup.filter _) ?_, ?_⟩
    · simp [List.mem_filter, ho, hw, hfin]
    · simp [List.mem_filter, hw]
  · intro o ho hw hfin
    constructor
    · simp [List.mem_filter, hw]
    · simp [List.mem_filter, hfin]

/-- Claim C4 on the example factory, with the objects 10 and 12 Black. -/
theorem sweep_partitions_factory_witness :
    (Sweep exampleGraph exampleFactory exampleColors).objectFactory
        = exampleFactory.filter (fun o => decide (exampleColors o = Color.kBlack)) ∧
    (Sweep exampleGraph exampleFactory exampleColors).finalizerQueue
        = exampleFactory.filter
            (fun o => decide (exampleColors o = Color.kWhite) && exampleGraph.hasFinalizers o) ∧
    (∀ o, o ∈ exampleFactory → exampleColors o = Color.kWhite →
        exampleGraph.hasFinalizers o = true →
        (Sweep exampleGraph exampleFactory exampleColors).finalizerQueue.count o = 1 ∧
        o ∉ (Sweep exampleGraph exampleFactory exampleColors).objectFactory) ∧
    (∀ o, o ∈ exampleFactory → exampleColors o = Color.kWhite →
        exampleGraph.hasFinalizers o = false →
        o ∉ (Sweep exampleGraph exampleFactory exampleColors).objectFactory ∧
        o ∉ (Sweep exampleGraph exampleFactory exampleColors).finalizerQueue) :=
  sweep_partitions_factory exampleGraph exampleFactory exampleColors (by decide)

/-- Claim C5: `TryResetMark` returns true exactly when the node was Black, and
leaves the node White in both cases and every other colour alone; so after
`Sweep` every node still in the object factory is White. -/
theorem sweep_resets_colour (G : ObjectGraph) (factory : List ObjHeader) (color : Colors) :
    (∀ node, (SweepTraits.TryResetMark color node).1 = true ↔ color node = Color.kBlack) ∧
    (∀ node, (SweepTraits.TryResetMark color node).2 node = Color.kWhite) ∧
    (∀ node x, x ≠ node → (SweepTraits.TryResetMark color node).2 x = color x) ∧
    (∀ o, o ∈ (Sweep G factory color).objectFactory → (Sweep G factory color).color o = Color.kWhite) := by
  refine ⟨fun node => by simp [tryResetMark_fst], tryResetMark_snd_self color,
    fun node x hx => tryResetMark_snd_of_ne color node x hx, ?_⟩
  intro o ho
  rw [sweep_color]
  simp [sweep_objectFactory_subset G factory color o ho]

theorem sweepExtraObjectsLoop_baseObjects (G : ObjectGraph) (color : Colors)
    (records : ExtraObjectsFactory) :
    (sweepExtraObjectsLoop G color records).map mm.ExtraObjectData.GetBaseObject
      = (records.filter (extraObjectKept G color)).map mm.ExtraObjectData.GetBaseObject := by
  induction records with
  | nil => simp [sweepExtraObjectsLoop]
  | cons e rest ih =>
    rw [sweepExtraObjectsLoop]
    cases hflag : e.flagInFinalizerQueue <;> cases hheap : G.heap e.baseObject <;>
      cases hassoc : e.associatedObject <;> rcases color_cases (color e.baseObject) with hc | hc <;>
      simp [extraObjectKept, SweepTraits.IsMarkedByExtraObject, mm.ExtraObjectData.getFlagInFinalizerQueue,
        mm.ExtraObjectData.GetBaseObject, mm.ExtraObjectData.HasAssociatedObject,
        mm.ExtraObjectData.ClearWeakReferenceCounter, mm.ExtraObjectData.DetachAssociatedObject,
        mm.ExtraObjectData.setFlagInFinalizerQueue, hflag, hheap, hassoc, hc] <;>
      simpa [mm.ExtraObjectData.GetBaseObject] using ih

/-- Claim C8, as amended: the records still in the extra-object factory after
`SweepExtraObjects` are, in order, the records (identified by their base
object) left by `ProcessDeletions` whose base object is not a heap object, or
whose base object is Black, or that had FLAGS_IN_FINALIZER_QUEUE set before
the sweep, or that hold an associated native object. -/
theorem sweepExtraObjects_keeps (ProcessDeletions : ExtraObjectsFactory → ExtraObjectsFactory)
    (G : ObjectGraph) (color : Colors) (objectFactory : ExtraObjectsFactory) :
    (SweepExtraObjects ProcessDeletions G color objectFactory).map mm.ExtraObjectData.GetBaseObject
      = ((ProcessDeletions objectFactory).filter (extraObjectKept G color)).map
          mm.ExtraObjectData.GetBaseObject ∧
    ∀ base, base ∈ (SweepExtraObjects ProcessDeletions G color objectFactory).map
        mm.ExtraObjectData.GetBaseObject ↔
      ∃ e, e ∈ ProcessDeletions objectFactory ∧ e.GetBaseObject = base ∧
        (G.heap base = false ∨ color base = Color.kBlack ∨ e.getFlagInFinalizerQueue = true ∨
          e.HasAssociatedObject = true) := by
  have h := sweepExtraObjectsLoop_baseObjects G color (ProcessDeletions objectFactory)
  refine ⟨h, ?_⟩
  intro base
  unfold SweepExtraObjects
  rw [h, List.mem_map]
  constructor
  · rintro ⟨e, he, rfl⟩
    rw [List.mem_filter] at he
    refine ⟨e, he.1, rfl, ?_⟩
    have hk := he.2
    simp only [extraObjectKept, Bool.or_eq_true, Bool.not_eq_true', decide_eq_true_eq] at hk
    tauto
  · rintro ⟨e, he, rfl, hk⟩
    refine ⟨e, ?_, rfl⟩
    rw [List.mem_filter]
    refine ⟨he, ?_⟩
    simp only [extraObjectKept, Bool.or_eq_true, Bool.not_eq_true', decide_eq_true_eq]
    tauto

/-- Claim C8 fails for a record that holds an associated native object: the
record of `loneObjectGraph` has a heap base object that is White and has
FLAGS_IN_FINALIZER_QUEUE clear, yet it is still in the factory after
`SweepExtraObjects`, with the native object detached and the flag set. -/
theorem sweepExtraObjects_keeps_white_base_with_associated_object :
    loneObjectGraph.heap recordWithAssociatedObject.GetBaseObject = true ∧
    allWhite.color recordWithAssociatedObject.GetBaseObject = Color.kWhite ∧
    recordWithAssociatedObject.getFlagInFinalizerQueue = false ∧
    SweepExtraObjects id loneObjectGraph allWhite.color [recordWithAssociatedObject]
      = [{ baseObject := 2, weakReferenceCounter := 0, associatedObject := none,
           flagInFinalizerQueue := true }] := by
  decide

theorem enqueueAll_nil (s : MarkState) : enqueueAll s [] = s := rfl

theorem enqueueAll_cons (s : MarkState) (o : ObjHeader) (l : List ObjHeader) :
    enqueueAll s (o :: l) = enqueueAll (MarkTraits.enqueue s o) l := rfl

theorem enqueueAll_append (s : MarkState) (l₁ l₂ : List ObjHeader) :
    enqueueAll s (l₁ ++ l₂) = enqueueAll (enqueueAll s l₁) l₂ := by
  simp [enqueueAll, List.foldl_append]

theorem foldl_enqueueHeapFieldOfRoot (G : ObjectGraph) (l : List ObjHeader) :
    ∀ s : MarkState, l.foldl (enqueueHeapFieldOfRoot G) s
      = enqueueAll s (l.filter (fun field => G.heap field && !isNullOrMarker field)) := by
  induction l with
  | nil => intro s; rfl
  | cons f rest ih =>
    intro s
    rw [List.foldl_cons, ih]
    by_cases h : (G.heap f && !isNullOrMarker f) = true
    · rw [List.filter_cons, if_pos h, enqueueAll_cons]
      simp only [enqueueHeapFieldOfRoot, h, if_true]
    · rw [List.filter_cons, if_neg h]
      simp only [enqueueHeapFieldOfRoot, if_neg h]

theorem foldl_enqueueHeapField (G : ObjectGraph) (l : List ObjHeader) :
    ∀ s : MarkState, l.foldl (enqueueHeapField G) s
      = enqueueAll s (l.filter (fun field => !isNullOrMarker field && G.heap field)) := by
  induction l with
  | nil => intro s; rfl
  | cons f rest ih =>
    intro s
    rw [List.foldl_cons, ih]
    by_cases h : (!isNullOrMarker f && G.heap f) = true
    · rw [List.filter_cons, if_pos h, enqueueAll_cons]
      simp only [enqueueHeapField, h, if_true]
    · rw [List.filter_cons, if_neg h]
      simp only [enqueueHeapField, if_neg h]

theorem enqueueRootObject_eq (G : ObjectGraph) (s : MarkState) (object : ObjHeader)
    (h : isNullOrMarker object = false) :
    enqueueRootObject G s object = enqueueAll s (rootTargets G object) := by
  unfold enqueueRootObject rootTargets
  by_cases hh : G.heap object = true
  · simp [h, hh, enqueueAll]
  · simp [h, hh, foldl_enqueueHeapFieldOfRoot]

theorem collectThreadRootValue_state (G : ObjectGraph) (acc : ThreadRootScan)
    (value : mm.ThreadRootValue) :
    (collectThreadRootValue G acc value).state = enqueueAll acc.state (rootTargets G value.object) := by
  unfold collectThreadRootValue
  cases h : isNullOrMarker value.object
  · rw [← enqueueRootObject_eq G acc.state value.object h]
    simp only [h, Bool.not_false, if_true]
    cases value.source <;> rfl
  · simp [rootTargets, h, enqueueAll]

theorem collectGlobalRootValue_state (G : ObjectGraph) (acc : GlobalRootScan)
    (value : mm.GlobalRootValue) :
    (collectGlobalRootValue G acc value).state = enqueueAll acc.state (rootTargets G value.object) := by
  unfold collectGlobalRootValue
  cases h : isNullOrMarker value.object
  · rw [← enqueueRootObject_eq G acc.state value.object h]
    simp only [h, Bool.not_false, if_true]
    cases value.source <;> rfl
  · simp [rootTargets, h, enqueueAll]

theorem foldl_collectThreadRootValue_state (G : ObjectGraph) (values : List mm.ThreadRootValue) :
    ∀ acc : ThreadRootScan, (values.foldl (collectThreadRootValue G) acc).state
      = enqueueAll acc.state ((values.map (fun value => value.object)).flatMap (rootTargets G)) := by
  induction values with
  | nil => intro acc; rfl
  | cons v rest ih =>
    intro acc
    rw [List.foldl_cons, ih, collectThreadRootValue_state]
    simp [enqueueAll_append]

theorem foldl_collectGlobalRootValue_state (G : ObjectGraph) (values : List mm.GlobalRootValue) :
    ∀ acc : GlobalRootScan, (values.foldl (collectGlobalRootValue G) acc).state
      = enqueueAll acc.state ((values.map (fun value => value.object)).flatMap (rootTargets G)) := by
  induction values with
  | nil => intro acc; rfl
  | cons v rest ih =>
    intro acc
    rw [List.foldl_cons, ih, collectGlobalRootValue_state]
    simp [enqueueAll_append]

theorem collectRootSetForThread_toMarkState (G : ObjectGraph) (handle : GCHandle) (s : RuntimeState)
    (thread : mm.ThreadData) :
    (collectRootSetForThread G handle s thread).toMarkState
      = enqueueAll s.toMarkState ((threadRootObjects thread).flatMap (rootTargets G)) := by
  simp [collectRootSetForThread, foldl_collectThreadRootValue_state, threadRootObjects]

theorem collectRootSetGlobals_toMarkState (G : ObjectGraph) (handle : GCHandle) (s : RuntimeState)
    (globals : List mm.GlobalRootValue) :
    (collectRootSetGlobals G handle s globals).toMarkState
      = enqueueAll s.toMarkState ((globals.map (fun value => value.object)).flatMap (rootTargets G)) := by
  simp [collectRootSetGlobals, foldl_collectGlobalRootValue_state]

theorem foldl_collectRootSetForThread_toMarkState (G : ObjectGraph) (handle : GCHandle)
    (filter : mm.ThreadData → Bool) (threads : List mm.ThreadData) :
    ∀ s : RuntimeState,
      (threads.foldl (fun state thread =>
          if !filter thread then state else collectRootSetForThread G handle state thread) s).toMarkState
      = enqueueAll s.toMarkState
          (((threads.filter filter).flatMap threadRootObjects).flatMap (rootTargets G)) := by
  induction threads with
  | nil => intro s; rfl
  | cons t rest ih =>
    intro s
    rw [List.foldl_cons, ih]
    cases h : filter t
    · simp [h]
    · simp [h, collectRootSetForThread_toMarkState, enqueueAll_append]

theorem collectRootSet_toMarkState (G : ObjectGraph) (handle : GCHandle) (s : RuntimeState)
    (filter : mm.ThreadData → Bool) (threads : List mm.ThreadData)
    (globals : List mm.GlobalRootValue) :
    (collectRootSet G handle s filter threads globals).toMarkState
      = enqueueAll { markQueue := [], color := s.color }
          ((rootObjects filter threads globals).flatMap (rootTargets G)) := by
  unfold collectRootSet
  simp only []
  rw [collectRootSetGlobals_toMarkState, foldl_collectRootSetForThread_toMarkState]
  simp [rootObjects, enqueueAll_append, MarkTraits.clear]

theorem markObject_eq (G : ObjectGraph) (s : MarkState) (top : ObjHeader) :
    markObject G s top = enqueueAll s (markTargets G top) := by
  unfold markObject markTargets enqueueWeakCounter
  rw [foldl_enqueueHeapField, enqueueAll_append]
  cases h : G.extraObjectData top with
  | none => rfl
  | some e =>
    cases hn : isNullOrMarker e.GetWeakReferenceCounter <;> simp [hn, enqueueAll]

theorem enqueueAll_color_black_iff (l : List ObjHeader) :
    ∀ (m : MarkState) (x : ObjHeader),
      (enqueueAll m l).color x = Color.kBlack ↔ m.color x = Color.kBlack ∨ x ∈ l := by
  induction l with
  | nil => intro m x; simp [enqueueAll]
  | cons o rest ih =>
    intro m x
    rw [enqueueAll_cons, ih, enqueue_color_black_iff]
    simp only [List.mem_cons]
    tauto

theorem tracked_init (c0 : Colors) : Tracked c0 [] [] { markQueue := [], color := c0 } where
  nodup := by simp
  mem_iff := by
    intro o
    rcases color_cases (c0 o) with h | h <;> simp [h]
  mono := fun _ h => h

theorem tracked_enqueue {c0 : Colors} {D P : List ObjHeader} {m : MarkState}
    (h : Tracked c0 D P m) (o : ObjHeader) : Tracked c0 D P (MarkTraits.enqueue m o) := by
  rcases color_cases (m.color o) with hw | hb
  · have hc0 : c0 o = Color.kWhite := by
      rcases color_cases (c0 o) with h0 | h0
      · exact h0
      · have := h.mono o h0
        rw [hw] at this
        exact absurd this (by decide)
    have hnot : o ∉ D ++ m.markQueue ++ P := by
      intro hmem
      have := ((h.mem_iff o).1 hmem).2
      rw [hw] at this
      exact absurd this (by decide)
    have hperm : (D ++ (o :: m.markQueue) ++ P).Perm (o :: (D ++ m.markQueue ++ P)) := by
      simp [List.append_assoc]
    rw [enqueue_of_white m o hw]
    refine ⟨?_, ?_, ?_⟩
    · exact hperm.nodup_iff.2 (List.nodup_cons.2 ⟨hnot, h.nodup⟩)
    · intro x
      show x ∈ D ++ (o :: m.markQueue) ++ P ↔ _
      rw [hperm.mem_iff, List.mem_cons, h.mem_iff]
      by_cases hx : x = o
      · subst hx; simp [hc0]
      · simp [hx, Function.update_noteq hx]
    · intro x hx
      by_cases hxo : x = o
      · subst hxo; simp
      · simpa [Function.update_noteq hxo] using h.mono x hx
  · rw [enqueue_of_black m o hb]; exact h

theorem tracked_enqueueAll {c0 : Colors} {D P : List ObjHeader} (l : List ObjHeader) :
    ∀ {m : MarkState}, Tracked c0 D P m → Tracked c0 D P (enqueueAll m l) := by
  induction l with
  | nil => intro m h; exact h
  | cons o rest ih => intro m h; exact ih (tracked_enqueue h o)

theorem tracked_dequeue {c0 : Colors} {D P : List ObjHeader} {top : ObjHeader}
    {rest : List ObjHeader} {c : Colors}
    (h : Tracked c0 D P { markQueue := top :: rest, color := c }) :
    Tracked c0 (D ++ [top]) P { markQueue := rest, color := c } := by
  have hl : D ++ [top] ++ rest ++ P = D ++ (top :: rest) ++ P := by simp
  refine ⟨?_, ?_, h.mono⟩
  · show (D ++ [top] ++ rest ++ P).Nodup
    rw [hl]; exact h.nodup
  · intro o
    show o ∈ D ++ [top] ++ rest ++ P ↔ _
    rw [hl]; exact h.mem_iff o

theorem tracked_color_black_iff {c0 : Colors} {D P : List ObjHeader} {m : MarkState}
    (h : Tracked c0 D P m) (o : ObjHeader) :
    m.color o = Color.kBlack ↔ c0 o = Color.kBlack ∨ o ∈ D ++ m.markQueue ++ P := by
  constructor
  · intro hb
    rcases color_cases (c0 o) with h0 | h0
    · exact Or.inr ((h.mem_iff o).2 ⟨h0, hb⟩)
    · exact Or.inl h0
  · rintro (h0 | hmem)
    · exact h.mono o h0
    · exact ((h.mem_iff o).1 hmem).2

theorem markLoop_invariant (G : ObjectGraph) (Inv : List ObjHeader → MarkState → Prop)
    (hstep : ∀ D top rest c, Inv D { markQueue := top :: rest, color := c } →
      Inv (D ++ [top]) (markObject G { markQueue := rest, color := c } top)) :
    ∀ (fuel : Nat) (stats : MarkStats) (m : MarkState) (D : List ObjHeader)
      (r : MarkStats × MarkState),
      Inv D m → markLoop G fuel stats m = some r →
      ∃ E, Inv (D ++ E) r.2 ∧ r.2.markQueue = [] ∧
        r.1.aliveHeapSet = stats.aliveHeapSet + E.length ∧
        r.1.aliveHeapSetBytes = stats.aliveHeapSetBytes + (E.map G.allocatedHeapSize).sum := by
  intro fuel
  induction fuel with
  | zero => intro stats m D r _ h; simp [markLoop] at h
  | succ n ih =>
    intro stats m D r hinv h
    rcases m with ⟨q, c⟩
    cases q with
    | nil =>
      simp only [markLoop, MarkTraits.isEmpty, List.isEmpty, if_true, Option.some.injEq] at h
      subst h
      exact ⟨[], by simpa using hinv, rfl, by simp, by simp⟩
    | cons top rest =>
      simp only [markLoop, MarkTraits.isEmpty, List.isEmpty, MarkTraits.dequeue,
        Bool.false_eq_true, if_false] at h
      obtain ⟨E, hE, hq, ha, hb⟩ := ih _ _ (D ++ [top]) r (hstep D top rest c hinv) h
      refine ⟨top :: E, by simpa using hE, hq, ?_, ?_⟩
      · rw [ha]; simp; omega
      · rw [hb]; simp; omega

theorem markLoop_terminates (G : ObjectGraph) (Inv : List ObjHeader → MarkState → Prop)
    (hstep : ∀ D top rest c, Inv D { markQueue := top :: rest, color := c } →
      Inv (D ++ [top]) (markObject G { markQueue := rest, color := c } top))
    (bound : Nat) (hbound : ∀ D m, Inv D m → (D ++ m.markQueue).length ≤ bound) :
    ∀ (fuel : Nat) (stats : MarkStats) (m : MarkState) (D : List ObjHeader),
      Inv D m → bound < fuel + D.length → ∃ r, markLoop G fuel stats m = some r := by
  intro fuel
  induction fuel with
  | zero =>
    intro stats m D hinv hlt
    have := hbound D m hinv
    simp at this hlt
    omega
  | succ n ih =>
    intro stats m D hinv hlt
    rcases m with ⟨q, c⟩
    cases q with
    | nil =>
      exact ⟨(stats, { markQueue := [], color := c }), by simp [markLoop, MarkTraits.isEmpty]⟩
    | cons top rest =>
      simp only [markLoop, MarkTraits.isEmpty, List.isEmpty, MarkTraits.dequeue,
        Bool.false_eq_true, if_false]
      apply ih _ _ (D ++ [top]) (hstep D top rest c hinv)
      simp; omega

theorem mem_markTargets_iff (G : ObjectGraph) (a p : ObjHeader) :
    p ∈ markTargets G a ↔
      (p ∈ G.fields a ∧ isNullOrMarker p = false ∧ G.heap p = true) ∨
      (∃ e, G.extraObjectData a = some e ∧ e.weakReferenceCounter = p ∧ isNullOrMarker p = false) := by
  unfold markTargets
  rw [List.mem_append, List.mem_filter]
  cases h : G.extraObjectData a with
  | none => simp
  | some e =>
    cases hn : isNullOrMarker e.GetWeakReferenceCounter
    · simp only [mm.ExtraObjectData.GetWeakReferenceCounter] at hn
      simp only [hn, mm.ExtraObjectData.GetWeakReferenceCounter, Bool.not_false, if_true,
        List.mem_singleton, Option.some.injEq, exists_eq_left', Bool.and_eq_true, Bool.not_eq_true']
      constructor
      · rintro (h1 | h1)
        · exact Or.inl h1
        · subst h1; exact Or.inr ⟨rfl, hn⟩
      · rintro (h1 | ⟨h1, _⟩)
        · exact Or.inl h1
        · exact Or.inr h1.symm
    · simp only [mm.ExtraObjectData.GetWeakReferenceCounter] at hn
      simp only [hn, mm.ExtraObjectData.GetWeakReferenceCounter, Bool.not_true, Bool.false_eq_true,
        if_false, List.not_mem_nil, or_false, Option.some.injEq, exists_eq_left', Bool.and_eq_true,
        Bool.not_eq_true']
      constructor
      · intro h1; exact Or.inl h1
      · rintro (h1 | ⟨h1, h2⟩)
        · exact h1
        · subst h1; rw [hn] at h2; exact absurd h2 (by decide)

theorem heapRefers_iff_mem_markTargets (G : ObjectGraph) (a p : ObjHeader) (ha : G.heap a = true) :
    HeapRefers G a p ↔ p ∈ markTargets G a := by
  rw [mem_markTargets_iff]
  constructor
  · intro h
    cases h with
    | field _ hf hn hh => exact Or.inl ⟨hf, hn, hh⟩
    | weakCounter _ he hw hn => exact Or.inr ⟨_, he, hw, hn⟩
  · rintro (⟨hf, hn, hh⟩ | ⟨e, he, hw, hn⟩)
    · exact HeapRefers.field ha hf hn hh
    · exact HeapRefers.weakCounter ha he hw hn

theorem heapRoot_iff_mem_rootTargets (G : ObjectGraph) (roots : List ObjHeader) (t : ObjHeader) :
    HeapRoot G roots t ↔ t ∈ roots.flatMap (rootTargets G) := by
  rw [List.mem_flatMap]
  constructor
  · intro h
    cases h with
    | root hr hn hh => exact ⟨t, hr, by simp [rootTargets, hn, hh]⟩
    | fieldOfRoot hr hn hh hf hpn hph =>
      exact ⟨_, hr, by simp [rootTargets, hn, hh, List.mem_filter, hf, hpn, hph]⟩
  · rintro ⟨r, hr, ht⟩
    unfold rootTargets at ht
    cases hn : isNullOrMarker r
    · cases hh : G.heap r
      · simp only [hn, hh, Bool.false_eq_true, if_false, List.mem_filter, Bool.and_eq_true,
          Bool.not_eq_true'] at ht
        exact HeapRoot.fieldOfRoot hr hn hh ht.1 ht.2.2 ht.2.1
      · simp only [hn, hh, Bool.false_eq_true, if_false, if_true, List.mem_singleton] at ht
        subst ht
        exact HeapRoot.root hr hn hh
    · simp [hn] at ht

theorem heapRoot_heap {G : ObjectGraph} {roots : List ObjHeader} {t : ObjHeader}
    (h : HeapRoot G roots t) : G.heap t = true := by
  cases h with
  | root _ _ hh => exact hh
  | fieldOfRoot _ _ _ _ _ hph => exact hph

theorem heapRefers_heap {G : ObjectGraph} (hweak : WeakCountersOnHeap G) {a p : ObjHeader}
    (h : HeapRefers G a p) : G.heap p = true := by
  cases h with
  | field _ _ _ hh => exact hh
  | weakCounter ha he hw hn => subst hw; exact hweak _ _ ha he hn

theorem heapReachable_heap {G : ObjectGraph} (hweak : WeakCountersOnHeap G)
    {roots : List ObjHeader} {o : ObjHeader} (h : HeapReachable G roots o) : G.heap o = true := by
  obtain ⟨t, ht, hpath⟩ := h
  induction hpath with
  | refl => exact heapRoot_heap ht
  | tail _ hstep _ => exact heapRefers_heap hweak hstep

theorem heapReachable_step {G : ObjectGraph} {roots : List ObjHeader} {a p : ObjHeader}
    (ha : HeapReachable G roots a) (h : HeapRefers G a p) : HeapReachable G roots p := by
  obtain ⟨t, ht, hpath⟩ := ha
  exact ⟨t, ht, hpath.tail h⟩

theorem heapReachable_mono {G : ObjectGraph} {roots roots' : List ObjHeader}
    (hsub : ∀ r, r ∈ roots → r ∈ roots') {o : ObjHeader} (h : HeapReachable G roots o) :
    HeapReachable G roots' o := by
  obtain ⟨t, ht, hpath⟩ := h
  refine ⟨t, ?_, hpath⟩
  cases ht with
  | root hr hn hh => exact HeapRoot.root (hsub _ hr) hn hh
  | fieldOfRoot hr hn hh hf hpn hph => exact HeapRoot.fieldOfRoot (hsub _ hr) hn hh hf hpn hph

theorem sound_enqueueAll {G : ObjectGraph} {roots : List ObjHeader} {c0 : Colors}
    {D P : List ObjHeader} {m : MarkState} (h : Sound G roots c0 D P m) (l : List ObjHeader)
    (hl : ∀ p, p ∈ l → HeapReachable G roots p) : Sound G roots c0 D P (enqueueAll m l) := by
  have ht := tracked_enqueueAll l h.tracked
  refine ⟨ht, ?_⟩
  intro o ho
  have hb := ((ht.mem_iff o).1 ho)
  rcases (enqueueAll_color_black_iff l m o).1 hb.2 with hold | hnew
  · exact h.reach o ((h.tracked.mem_iff o).2 ⟨hb.1, hold⟩)
  · exact hl o hnew

theorem sound_dequeue {G : ObjectGraph} {roots : List ObjHeader} {c0 : Colors}
    {D P : List ObjHeader} {top : ObjHeader} {rest : List ObjHeader} {c : Colors}
    (h : Sound G roots c0 D P { markQueue := top :: rest, color := c }) :
    Sound G roots c0 (D ++ [top]) P { markQueue := rest, color := c } := by
  refine ⟨tracked_dequeue h.tracked, ?_⟩
  intro o ho
  apply h.reach o
  have hl : D ++ [top] ++ rest ++ P = D ++ (top :: rest) ++ P := by simp
  show o ∈ D ++ (top :: rest) ++ P
  rw [← hl]; exact ho

theorem sound_closed_step {G : ObjectGraph} (hweak : WeakCountersOnHeap G)
    {roots : List ObjHeader} {c0 : Colors} {P : List ObjHeader}
    (D : List ObjHeader) (top : ObjHeader) (rest : List ObjHeader) (c : Colors)
    (h : Sound G roots c0 D P { markQueue := top :: rest, color := c } ∧
      Closed G D { markQueue := top :: rest, color := c }) :
    Sound G roots c0 (D ++ [top]) P (markObject G { markQueue := rest, color := c } top) ∧
      Closed G (D ++ [top]) (markObject G { markQueue := rest, color := c } top) := by
  rw [markObject_eq]
  have htop : HeapReachable G roots top := h.1.reach top (by simp)
  have hheap : G.heap top = true := heapReachable_heap hweak htop
  refine ⟨sound_enqueueAll (sound_dequeue h.1) _ ?_, ?_⟩
  · intro p hp
    exact heapReachable_step htop ((heapRefers_iff_mem_markTargets G top p hheap).2 hp)
  · intro o ho p hp
    rw [enqueueAll_color_black_iff]
    rw [List.mem_append, List.mem_singleton] at ho
    rcases ho with ho | ho
    · exact Or.inl (h.2 o ho p hp)
    · subst ho; exact Or.inr hp

theorem sound_length_le {G : ObjectGraph} (hweak : WeakCountersOnHeap G)
    {roots : List ObjHeader} {c0 : Colors} {D P : List ObjHeader} {m : MarkState}
    (h : Sound G roots c0 D P m) (factory : List ObjHeader)
    (hfactory : ∀ o, G.heap o = true → o ∈ factory) :
    (D ++ m.markQueue).length ≤ factory.length := by
  have hnd : (D ++ m.markQueue).Nodup := (List.nodup_append.1 h.tracked.nodup).1
  apply (List.subperm_of_subset hnd ?_).length_le
  intro o ho
  exact hfactory o (heapReachable_heap hweak (h.reach o (List.mem_append_left _ ho)))

/-- When the queues are empty and the heap roots are Black, the dequeued
objects are exactly the objects reachable along heap objects. -/
theorem sound_closed_final {G : ObjectGraph} (hweak : WeakCountersOnHeap G)
    {roots : List ObjHeader} {c0 : Colors} {D : List ObjHeader} {m : MarkState}
    (hwhite : ∀ o, G.heap o = true → c0 o = Color.kWhite)
    (h : Sound G roots c0 D [] m) (hc : Closed G D m) (hq : m.markQueue = [])
    (hroots : ∀ t, HeapRoot G roots t → m.color t = Color.kBlack) :
    ∀ o, o ∈ D ↔ HeapReachable G roots o := by
  have hD : ∀ o, G.heap o = true → m.color o = Color.kBlack → o ∈ D := by
    intro o hh hb
    have := (h.tracked.mem_iff o).2 ⟨hwhite o hh, hb⟩
    simpa [hq] using this
  intro o
  constructor
  · intro ho
    exact h.reach o (by simp [ho])
  · rintro ⟨t, ht, hpath⟩
    induction hpath with
    | refl => exact hD t (heapRoot_heap ht) (hroots t ht)
    | tail hab hstep ih =>
      rename_i b c
      have hb : G.heap b = true := heapReachable_heap hweak ⟨t, ht, hab⟩
      have hp := (heapRefers_iff_mem_markTargets G b c hb).1 hstep
      exact hD c (heapRefers_heap hweak hstep) (hc b ih c hp)

theorem enqueueAll_color_mono (l : List ObjHeader) (m : MarkState) (x : ObjHeader)
    (h : m.color x = Color.kBlack) : (enqueueAll m l).color x = Color.kBlack :=
  (enqueueAll_color_black_iff l m x).2 (Or.inl h)

/-- One run of `Mark` from a state that satisfies the invariants: with fuel
above the size of the factory it returns, its queue is empty, the invariants
hold for the objects `E` it dequeued, and its statistics count `E`. -/
theorem mark_run {G : ObjectGraph} (hweak : WeakCountersOnHeap G) {roots : List ObjHeader}
    {c0 : Colors} {D P : List ObjHeader} {m : MarkState} (factory : List ObjHeader)
    (hfactory : ∀ o, G.heap o = true → o ∈ factory) (fuel : Nat) (hfuel : factory.length < fuel)
    (h : Sound G roots c0 D P m) (hc : Closed G D m) :
    ∃ stats m' E, Mark G fuel m = some (stats, m') ∧ m'.markQueue = [] ∧
      Sound G roots c0 (D ++ E) P m' ∧ Closed G (D ++ E) m' ∧
      (∀ x, m.color x = Color.kBlack → m'.color x = Color.kBlack) ∧
      stats.aliveHeapSet = E.length ∧
      stats.aliveHeapSetBytes = (E.map G.allocatedHeapSize).sum := by
  let Inv : List ObjHeader → MarkState → Prop := fun D' m' =>
    (Sound G roots c0 D' P m' ∧ Closed G D' m') ∧
      ∀ x, m.color x = Color.kBlack → m'.color x = Color.kBlack
  have hstep : ∀ D' top rest c, Inv D' { markQueue := top :: rest, color := c } →
      Inv (D' ++ [top]) (markObject G { markQueue := rest, color := c } top) := by
    intro D' top rest c hi
    refine ⟨sound_closed_step hweak D' top rest c hi.1, ?_⟩
    intro x hx
    rw [markObject_eq]
    exact enqueueAll_color_mono _ _ x (hi.2 x hx)
  have hinit : Inv D m := ⟨⟨h, hc⟩, fun _ hx => hx⟩
  have hbound : ∀ D' m', Inv D' m' → (D' ++ m'.markQueue).length ≤ factory.length :=
    fun D' m' hi => sound_length_le hweak hi.1.1 factory hfactory
  obtain ⟨r, hr⟩ := markLoop_terminates G Inv hstep factory.length hbound fuel {} m D hinit
    (by omega)
  obtain ⟨E, hE, hq, ha, hb⟩ := markLoop_invariant G Inv hstep fuel {} m D r hinit hr
  refine ⟨r.1, r.2, E, hr, hq, hE.1.1, hE.1.2, hE.2, ?_, ?_⟩
  · simpa using ha
  · simpa using hb

/-- Root-set collection followed by one `Mark`, from a colouring in which the
heap objects are White. -/
theorem mark_after_collectRootSet (G : ObjectGraph) (handle : GCHandle) (s : RuntimeState)
    (filter : mm.ThreadData → Bool) (threads : List mm.ThreadData)
    (globals : List mm.GlobalRootValue) (factory : List ObjHeader) (fuel : Nat)
    (hwhite : ∀ o, G.heap o = true → s.color o = Color.kWhite)
    (hfactory : ∀ o, G.heap o = true → o ∈ factory)
    (hweak : WeakCountersOnHeap G) (hfuel : factory.length < fuel) :
    ∃ stats m D, Mark G fuel (collectRootSet G handle s filter threads globals).toMarkState
        = some (stats, m) ∧
      m.markQueue = [] ∧ Tracked s.color D [] m ∧ Closed G D m ∧
      (∀ o, o ∈ D ↔ HeapReachable G (rootObjects filter threads globals) o) ∧
      stats.aliveHeapSet = D.length ∧
      stats.aliveHeapSetBytes = (D.map G.allocatedHeapSize).sum := by
  rw [collectRootSet_toMarkState]
  have h0 : Sound G (rootObjects filter threads globals) s.color [] []
      { markQueue := [], color := s.color } := ⟨tracked_init s.color, by simp⟩
  have h1 := sound_enqueueAll h0 ((rootObjects filter threads globals).flatMap (rootTargets G))
    (fun p hp => ⟨p, (heapRoot_iff_mem_rootTargets G _ p).2 hp, Relation.ReflTransGen.refl⟩)
  obtain ⟨stats, m, E, hm, hq, hs, hc, hmono, ha, hb⟩ :=
    mark_run hweak factory hfactory fuel hfuel h1 (fun o ho => by simp at ho)
  simp only [List.nil_append] at hs hc
  refine ⟨stats, m, E, hm, hq, hs.tracked, hc, ?_, ha, hb⟩
  apply sound_closed_final hweak hwhite hs hc hq
  intro t ht
  apply hmono
  rw [enqueueAll_color_black_iff]
  exact Or.inr ((heapRoot_iff_mem_rootTargets G _ t).1 ht)

theorem heapReachable_reachable {G : ObjectGraph} {roots : List ObjHeader} {o : ObjHeader}
    (h : HeapReachable G roots o) : Reachable G roots o := by
  obtain ⟨t, ht, hpath⟩ := h
  have hrefers : ∀ a b, HeapRefers G a b → Refers G a b := by
    intro a b hab
    cases hab with
    | field _ hf hn _ => exact Refers.field hf hn
    | weakCounter ha he hw hn => exact Refers.weakCounter ha he hw hn
  have hpath' : Relation.ReflTransGen (Refers G) t o := hpath.mono hrefers
  cases ht with
  | root hr hn _ => exact ⟨t, hr, hn, hpath'⟩
  | fieldOfRoot hr hn _ hf hpn _ =>
    exact ⟨_, hr, hn, Relation.ReflTransGen.head (Refers.field hf hpn) hpath'⟩

theorem tracked_heap_black_iff {G : ObjectGraph} {c0 : Colors} {D : List ObjHeader}
    {m : MarkState} (hwhite : ∀ o, G.heap o = true → c0 o = Color.kWhite)
    (h : Tracked c0 D [] m) (hq : m.markQueue = []) (o : ObjHeader) (ho : G.heap o = true) :
    m.color o = Color.kBlack ↔ o ∈ D := by
  have := h.mem_iff o
  simp only [hq, List.append_nil] at this
  rw [this]
  simp [hwhite o ho]

theorem tracked_nodup {c0 : Colors} {D : List ObjHeader} {m : MarkState}
    (h : Tracked c0 D [] m) : D.Nodup := by
  have := h.nodup
  simp only [List.append_nil] at this
  exact (List.nodup_append.1 this).1

theorem example_white : ∀ o, exampleGraph.heap o = true → allWhite.color o = Color.kWhite :=
  fun _ _ => rfl

theorem nat_mem_example_range (o : Nat) :
    (10 ≤ o ∧ o ≤ 15) ↔ (o = 10 ∨ o = 11 ∨ o = 12 ∨ o = 13 ∨ o = 14 ∨ o = 15) := by
  omega

theorem example_factory : ∀ o, exampleGraph.heap o = true ↔ o ∈ exampleFactory := by
  intro o
  have h : exampleGraph.heap o = decide (10 ≤ o ∧ o ≤ 15) := rfl
  rw [h, decide_eq_true_eq]
  simp only [exampleFactory, List.mem_cons, List.mem_singleton, List.not_mem_nil, or_false]
  exact nat_mem_example_range o

theorem example_nodup : exampleFactory.Nodup := by decide

theorem example_weak : WeakCountersOnHeap exampleGraph := by
  intro o e _ he _
  simp only [exampleGraph] at he
  split at he
  · simp only [Option.some.injEq] at he
    subst he
    decide
  · exact absurd he (by simp)

/-- Claim C1, as amended: from a colouring in which every heap object is White,
with an object factory that holds exactly the heap objects, each once, and
every weak counter of a heap object on the heap, `Mark` on the queue that
`collectRootSet` produced returns once the fuel exceeds the size of the
factory, and every object reachable from a root along heap objects
(`HeapReachable`: a heap root, a heap field of a non-heap root, and from there
the heap fields and weak counters of heap objects) is Black; `Sweep` leaves it
in the object factory and does not move it to the finalizer queue. -/
theorem heap_reachable_objects_survive (G : ObjectGraph) (handle : GCHandle) (s : RuntimeState)
    (filter : mm.ThreadData → Bool) (threads : List mm.ThreadData)
    (globals : List mm.GlobalRootValue) (factory : List ObjHeader) (fuel : Nat)
    (hwhite : ∀ o, G.heap o = true → s.color o = Color.kWhite)
    (hfactory : ∀ o, G.heap o = true ↔ o ∈ factory) (hnodup : factory.Nodup)
    (hweak : WeakCountersOnHeap G) (hfuel : factory.length < fuel) :
    ∃ stats m, Mark G fuel (collectRootSet G handle s filter threads globals).toMarkState
        = some (stats, m) ∧
      ∀ o, HeapReachable G (rootObjects filter threads globals) o →
        m.color o = Color.kBlack ∧
        o ∈ (Sweep G factory m.color).objectFactory ∧
        o ∉ (Sweep G factory m.color).finalizerQueue := by
  obtain ⟨stats, m, D, hm, hq, ht, _, hD, _, _⟩ :=
    mark_after_collectRootSet G handle s filter threads globals factory fuel hwhite
      (fun o ho => (hfactory o).1 ho) hweak hfuel
  refine ⟨stats, m, hm, ?_⟩
  intro o ho
  have hheap : G.heap o = true := heapReachable_heap hweak ho
  have hb : m.color o = Color.kBlack :=
    (tracked_heap_black_iff hwhite ht hq o hheap).2 ((hD o).2 ho)
  rw [sweep_objectFactory G factory m.color hnodup, sweep_finalizerQueue G factory m.color hnodup]
  refine ⟨hb, ?_, ?_⟩
  · simp [List.mem_filter, (hfactory o).1 hheap, hb]
  · simp [List.mem_filter, hb]

/-- The amended claim C1 on the example heap. -/
theorem heap_reachable_objects_survive_witness :
    ∃ stats m, Mark exampleGraph 7
        (collectRootSet exampleGraph (GCHandle.getByEpoch 1) allWhite (fun _ => true)
          [exampleThread] exampleGlobals).toMarkState = some (stats, m) ∧
      ∀ o, HeapReachable exampleGraph (rootObjects (fun _ => true) [exampleThread] exampleGlobals) o →
        m.color o = Color.kBlack ∧
        o ∈ (Sweep exampleGraph exampleFactory m.color).objectFactory ∧
        o ∉ (Sweep exampleGraph exampleFactory m.color).finalizerQueue :=
  heap_reachable_objects_survive exampleGraph (GCHandle.getByEpoch 1) allWhite (fun _ => true)
    [exampleThread] exampleGlobals exampleFactory 7 example_white example_factory example_nodup
    example_weak (by decide)

/-- Claim C1 fails where a reference path leaves the heap: in `chainGraph`,
whose factory `[4]` holds exactly the heap objects and which has no weak
counter, the heap object 4 is White and is reachable from the stack root 2
through the permanent object 3, which has no entry of its own in the root set;
after `collectRootSet`, `Mark` and `Sweep` the object 4 is neither in the
object factory nor in the finalizer queue. -/
theorem reachable_through_non_heap_object_is_swept :
    (∀ o, chainGraph.heap o = true ↔ o ∈ [4]) ∧ WeakCountersOnHeap chainGraph ∧
    chainGraph.heap 4 = true ∧ allWhite.color 4 = Color.kWhite ∧
    Reachable chainGraph (rootObjects (fun _ => true) [chainThread] []) 4 ∧
    (Mark chainGraph 2
        (collectRootSet chainGraph (GCHandle.getByEpoch 1) allWhite (fun _ => true)
          [chainThread] []).toMarkState).map
      (fun r => ((Sweep chainGraph [4] r.2.color).objectFactory,
        (Sweep chainGraph [4] r.2.color).finalizerQueue)) = some ([], []) := by
  refine ⟨?_, ?_, by decide, rfl, ?_, by decide⟩
  · intro o
    have h : chainGraph.heap o = decide (o = 4) := rfl
    rw [h, decide_eq_true_eq, List.mem_singleton]
  · intro o e _ he
    exact absurd he (by simp [chainGraph])
  refine ⟨2, by decide, by decide, ?_⟩
  have h23 : Refers chainGraph 2 3 := Refers.field (by decide) (by decide)
  have h34 : Refers chainGraph 3 4 := Refers.field (by decide) (by decide)
  exact Relation.ReflTransGen.head h23 (Relation.ReflTransGen.head h34 Relation.ReflTransGen.refl)

/-- Claim C2: from a colouring in which every heap object is White, with an
object factory that holds exactly the heap objects, each once, and every weak
counter of a heap object on the heap, `Mark` on the queue that `collectRootSet`
produced returns once the fuel exceeds the size of the factory, and after
`Sweep` no object of the factory that is unreachable from the roots is left in
the object factory: it is in the finalizer queue, once, when it has
finalizers, and in neither list (erased) when it has none. -/
theorem unreachable_objects_are_collected (G : ObjectGraph) (handle : GCHandle) (s : RuntimeState)
    (filter : mm.ThreadData → Bool) (threads : List mm.ThreadData)
    (globals : List mm.GlobalRootValue) (factory : List ObjHeader) (fuel : Nat)
    (hwhite : ∀ o, G.heap o = true → s.color o = Color.kWhite)
    (hfactory : ∀ o, G.heap o = true ↔ o ∈ factory) (hnodup : factory.Nodup)
    (hweak : WeakCountersOnHeap G) (hfuel : factory.length < fuel) :
    ∃ stats m, Mark G fuel (collectRootSet G handle s filter threads globals).toMarkState
        = some (stats, m) ∧
      ∀ o, o ∈ factory → ¬ Reachable G (rootObjects filter threads globals) o →
        o ∉ (Sweep G factory m.color).objectFactory ∧
        (G.hasFinalizers o = true → (Sweep G factory m.color).finalizerQueue.count o = 1) ∧
        (G.hasFinalizers o = false → o ∉ (Sweep G factory m.color).finalizerQueue) := by
  obtain ⟨stats, m, D, hm, hq, ht, _, hD, _, _⟩ :=
    mark_after_collectRootSet G handle s filter threads globals factory fuel hwhite
      (fun o ho => (hfactory o).1 ho) hweak hfuel
  refine ⟨stats, m, hm, ?_⟩
  intro o ho hunreach
  have hheap : G.heap o = true := (hfactory o).2 ho
  have hw : m.color o = Color.kWhite := by
    rcases color_cases (m.color o) with h | h
    · exact h
    · exact absurd (heapReachable_reachable ((hD o).1
        ((tracked_heap_black_iff hwhite ht hq o hheap).1 h))) hunreach
  rw [sweep_objectFactory G factory m.color hnodup, sweep_finalizerQueue G factory m.color hnodup]
  refine ⟨?_, ?_, ?_⟩
  · simp [List.mem_filter, hw]
  · intro hfin
    apply List.count_eq_one_of_mem (hnodup.filter _)
    simp [List.mem_filter, ho, hw, hfin]
  · intro hfin
    simp [List.mem_filter, hfin]

/-- Claim C2 on the example heap. -/
theorem unreachable_objects_are_collected_witness :
    ∃ stats m, Mark exampleGraph 7
        (collectRootSet exampleGraph (GCHandle.getByEpoch 1) allWhite (fun _ => true)
          [exampleThread] exampleGlobals).toMarkState = some (stats, m) ∧
      ∀ o, o ∈ exampleFactory →
        ¬ Reachable exampleGraph (rootObjects (fun _ => true) [exampleThread] exampleGlobals) o →
        o ∉ (Sweep exampleGraph exampleFactory m.color).objectFactory ∧
        (exampleGraph.hasFinalizers o = true →
          (Sweep exampleGraph exampleFactory m.color).finalizerQueue.count o = 1) ∧
        (exampleGraph.hasFinalizers o = false →
          o ∉ (Sweep exampleGraph exampleFactory m.color).finalizerQueue) :=
  unreachable_objects_are_collected exampleGraph (GCHandle.getByEpoch 1) allWhite (fun _ => true)
    [exampleThread] exampleGlobals exampleFactory 7 example_white example_factory example_nodup
    example_weak (by decide)

theorem length_filter_black_eq {factory D : List ObjHeader} {m : MarkState}
    (hnodup : factory.Nodup) (hD : D.Nodup)
    (hmem : ∀ o, o ∈ D ↔ (o ∈ factory ∧ m.color o = Color.kBlack)) :
    D.Perm (factory.filter (fun o => decide (m.color o = Color.kBlack))) := by
  rw [List.perm_ext_iff_of_nodup hD (hnodup.filter _)]
  intro o
  rw [hmem o, List.mem_filter]
  simp

/-- Claim C3, as amended: from a colouring in which every heap object is White,
with an object factory that holds exactly the heap objects, each once, and
every weak counter of a heap object on the heap, there is a list `D` without
repetition of exactly the objects reachable from a root along heap objects
(`HeapReachable`), which are exactly the Black objects of the factory when
`Mark` returns; `aliveHeapSet` is the length of `D`, that is the number of
Black objects of the factory, and `aliveHeapSetBytes` is the sum of the
allocated sizes of the objects of `D`: every such object is counted once,
however many times `enqueue` was called on it. -/
theorem mark_stats_count_heap_reachable (G : ObjectGraph) (handle : GCHandle) (s : RuntimeState)
    (filter : mm.ThreadData → Bool) (threads : List mm.ThreadData)
    (globals : List mm.GlobalRootValue) (factory : List ObjHeader) (fuel : Nat)
    (hwhite : ∀ o, G.heap o = true → s.color o = Color.kWhite)
    (hfactory : ∀ o, G.heap o = true ↔ o ∈ factory) (hnodup : factory.Nodup)
    (hweak : WeakCountersOnHeap G) (hfuel : factory.length < fuel) :
    ∃ (stats : MarkStats) (m : MarkState) (D : List ObjHeader), Mark G fuel (collectRootSet G handle s filter threads globals).toMarkState
        = some (stats, m) ∧
      D.Nodup ∧
      (∀ o, o ∈ D ↔ HeapReachable G (rootObjects filter threads globals) o) ∧
      (∀ o, o ∈ D ↔ (o ∈ factory ∧ m.color o = Color.kBlack)) ∧
      stats.aliveHeapSet = D.length ∧
      stats.aliveHeapSetBytes = (D.map G.allocatedHeapSize).sum ∧
      stats.aliveHeapSet = (factory.filter (fun o => decide (m.color o = Color.kBlack))).length ∧
      stats.aliveHeapSetBytes
        = ((factory.filter (fun o => decide (m.color o = Color.kBlack))).map
            G.allocatedHeapSize).sum := by
  obtain ⟨stats, m, D, hm, hq, ht, _, hD, ha, hb⟩ :=
    mark_after_collectRootSet G handle s filter threads globals factory fuel hwhite
      (fun o ho => (hfactory o).1 ho) hweak hfuel
  have hmem : ∀ o, o ∈ D ↔ (o ∈ factory ∧ m.color o = Color.kBlack) := by
    intro o
    constructor
    · intro ho
      have hheap : G.heap o = true := heapReachable_heap hweak ((hD o).1 ho)
      exact ⟨(hfactory o).1 hheap, (tracked_heap_black_iff hwhite ht hq o hheap).2 ho⟩
    · rintro ⟨hf, hbl⟩
      exact (tracked_heap_black_iff hwhite ht hq o ((hfactory o).2 hf)).1 hbl
  have hperm := length_filter_black_eq hnodup (tracked_nodup ht) hmem
  refine ⟨stats, m, D, hm, tracked_nodup ht, hD, hmem, ha, hb, ?_, ?_⟩
  · rw [ha, hperm.length_eq]
  · rw [hb, (hperm.map G.allocatedHeapSize).sum_eq]

/-- The amended claim C3 on the example heap. -/
theorem mark_stats_count_heap_reachable_witness :
    ∃ (stats : MarkStats) (m : MarkState) (D : List ObjHeader), Mark exampleGraph 7
        (collectRootSet exampleGraph (GCHandle.getByEpoch 1) allWhite (fun _ => true)
          [exampleThread] exampleGlobals).toMarkState = some (stats, m) ∧
      D.Nodup ∧
      (∀ o, o ∈ D ↔
        HeapReachable exampleGraph (rootObjects (fun _ => true) [exampleThread] exampleGlobals) o) ∧
      (∀ o, o ∈ D ↔ (o ∈ exampleFactory ∧ m.color o = Color.kBlack)) ∧
      stats.aliveHeapSet = D.length ∧
      stats.aliveHeapSetBytes = (D.map exampleGraph.allocatedHeapSize).sum ∧
      stats.aliveHeapSet
        = (exampleFactory.filter (fun o => decide (m.color o = Color.kBlack))).length ∧
      stats.aliveHeapSetBytes
        = ((exampleFactory.filter (fun o => decide (m.color o = Color.kBlack))).map
            exampleGraph.allocatedHeapSize).sum :=
  mark_stats_count_heap_reachable exampleGraph (GCHandle.getByEpoch 1) allWhite (fun _ => true)
    [exampleThread] exampleGlobals exampleFactory 7 example_white example_factory example_nodup
    example_weak (by decide)

/-- Claim C3 fails where a reference path leaves the heap: in `detourGraph`,
whose heap objects are 10 and 11 and which has no weak counter, both heap
objects are reachable from the global root 10, the second through the
permanent object 3, but `Mark` returns `aliveHeapSet = 1` and leaves the
object 11 White. -/
theorem mark_stats_miss_object_behind_non_heap_object :
    (∀ o, detourGraph.heap o = true ↔ o ∈ [10, 11]) ∧ WeakCountersOnHeap detourGraph ∧
    detourGraph.heap 10 = true ∧ detourGraph.heap 11 = true ∧
    Reachable detourGraph (rootObjects (fun _ => true) [] detourGlobals) 10 ∧
    Reachable detourGraph (rootObjects (fun _ => true) [] detourGlobals) 11 ∧
    (Mark detourGraph 3
        (collectRootSet detourGraph (GCHandle.getByEpoch 1) allWhite (fun _ => true)
          [] detourGlobals).toMarkState).map
      (fun r => (r.1, [10, 11].map r.2.color))
      = some ({ aliveHeapSet := 1, aliveHeapSetBytes := 16 }, [Color.kBlack, Color.kWhite]) := by
  have h1 : Refers detourGraph 10 3 := Refers.field (by decide) (by decide)
  have h2 : Refers detourGraph 3 11 := Refers.field (by decide) (by decide)
  refine ⟨?_, ?_, by decide, by decide, ⟨10, by decide, by decide, Relation.ReflTransGen.refl⟩,
    ⟨10, by decide, by decide, ?_⟩, by decide⟩
  · intro o
    have h : detourGraph.heap o = decide (o = 10 ∨ o = 11) := rfl
    rw [h, decide_eq_true_eq]
    simp
  · intro o e _ he
    exact absurd he (by simp [detourGraph])
  exact Relation.ReflTransGen.head h1 (Relation.ReflTransGen.head h2 Relation.ReflTransGen.refl)

/-- Claim C7: from a colouring in which every heap object is White, with an
object factory that holds exactly the heap objects, each once, and every weak
counter of a heap object on the heap, when `Mark` returns every Black heap
object whose extra-object data has a weak-reference counter that is neither
null nor the marker has that counter Black, and the counter is still in the
object factory after `Sweep`. -/
theorem weak_counter_black_after_mark (G : ObjectGraph) (handle : GCHandle) (s : RuntimeState)
    (filter : mm.ThreadData → Bool) (threads : List mm.ThreadData)
    (globals : List mm.GlobalRootValue) (factory : List ObjHeader) (fuel : Nat)
    (hwhite : ∀ o, G.heap o = true → s.color o = Color.kWhite)
    (hfactory : ∀ o, G.heap o = true ↔ o ∈ factory) (hnodup : factory.Nodup)
    (hweak : WeakCountersOnHeap G) (hfuel : factory.length < fuel) :
    ∃ stats m, Mark G fuel (collectRootSet G handle s filter threads globals).toMarkState
        = some (stats, m) ∧
      ∀ o e, G.heap o = true → m.color o = Color.kBlack → G.extraObjectData o = some e →
        isNullOrMarker e.GetWeakReferenceCounter = false →
        m.color e.GetWeakReferenceCounter = Color.kBlack ∧
        e.GetWeakReferenceCounter ∈ (Sweep G factory m.color).objectFactory := by
  obtain ⟨stats, m, D, hm, hq, ht, hc, _, _, _⟩ :=
    mark_after_collectRootSet G handle s filter threads globals factory fuel hwhite
      (fun o ho => (hfactory o).1 ho) hweak hfuel
  refine ⟨stats, m, hm, ?_⟩
  intro o e hheap hb he hn
  have hoD : o ∈ D := (tracked_heap_black_iff hwhite ht hq o hheap).1 hb
  have hw : m.color e.GetWeakReferenceCounter = Color.kBlack := by
    apply hc o hoD
    rw [mem_markTargets_iff]
    exact Or.inr ⟨e, he, rfl, hn⟩
  refine ⟨hw, ?_⟩
  rw [sweep_objectFactory G factory m.color hnodup, List.mem_filter]
  exact ⟨(hfactory _).1 (hweak o e hheap he hn), by simp [hw]⟩

/-- Claim C7 on the example heap, where object 12 has the weak counter 14. -/
theorem weak_counter_black_after_mark_witness :
    ∃ stats m, Mark exampleGraph 7
        (collectRootSet exampleGraph (GCHandle.getByEpoch 1) allWhite (fun _ => true)
          [exampleThread] exampleGlobals).toMarkState = some (stats, m) ∧
      ∀ o e, exampleGraph.heap o = true → m.color o = Color.kBlack →
        exampleGraph.extraObjectData o = some e →
        isNullOrMarker e.GetWeakReferenceCounter = false →
        m.color e.GetWeakReferenceCounter = Color.kBlack ∧
        e.GetWeakReferenceCounter ∈ (Sweep exampleGraph exampleFactory m.color).objectFactory :=
  weak_counter_black_after_mark exampleGraph (GCHandle.getByEpoch 1) allWhite (fun _ => true)
    [exampleThread] exampleGlobals exampleFactory 7 example_white example_factory example_nodup
    example_weak (by decide)

theorem markLoop_color_mono (G : ObjectGraph) (fuel : Nat) (stats : MarkStats) (m : MarkState)
    (r : MarkStats × MarkState) (h : markLoop G fuel stats m = some r) (x : ObjHeader)
    (hx : m.color x = Color.kBlack) : r.2.color x = Color.kBlack := by
  obtain ⟨E, hE, _⟩ := markLoop_invariant G
    (fun (_ : List ObjHeader) (m' : MarkState) => m'.color x = Color.kBlack)
    (by
      intro D top rest c hi
      rw [markObject_eq]
      exact enqueueAll_color_mono _ _ x hi)
    fuel stats m [] r hx h
  exact hE

theorem markLoop_tracked (G : ObjectGraph) (c0 : Colors) (fuel : Nat) (stats : MarkStats)
    (m : MarkState) (D P : List ObjHeader) (r : MarkStats × MarkState)
    (ht : Tracked c0 D P m) (h : markLoop G fuel stats m = some r) :
    ∃ E, Tracked c0 (D ++ E) P r.2 ∧ r.2.markQueue = [] ∧
      r.1.aliveHeapSet = stats.aliveHeapSet + E.length ∧
      r.1.aliveHeapSetBytes = stats.aliveHeapSetBytes + (E.map G.allocatedHeapSize).sum := by
  apply markLoop_invariant G (fun D' m' => Tracked c0 D' P m') ?_ fuel stats m D r ht h
  intro D' top rest c hi
  rw [markObject_eq]
  exact tracked_enqueueAll _ (tracked_dequeue hi)

/-- Claim C6: for every object graph and colouring, a colour that `enqueue`
changes is the colour of its argument, which goes from White to Black as the
object is pushed; `collectRootSetForThread`, `collectRootSetGlobals` and one
iteration of `Mark` are sequences of `enqueue` calls and keep every Black
object Black, and so does `Mark` whenever it returns; and between the start of
`collectRootSet` and the return of `Mark` the objects whose colour changed
(from White to Black) are listed without repetition by a list whose length is
the number of objects dequeued, so no object changed colour twice. -/
theorem colour_only_turns_black (G : ObjectGraph) (handle : GCHandle) (s : RuntimeState) :
    (∀ object x, (MarkTraits.enqueue s.toMarkState object).color x ≠ s.color x →
      x = object ∧ s.color x = Color.kWhite ∧
      (MarkTraits.enqueue s.toMarkState object).color x = Color.kBlack ∧
      (MarkTraits.enqueue s.toMarkState object).markQueue = object :: s.markQueue) ∧
    (∀ thread,
      (collectRootSetForThread G handle s thread).toMarkState
        = enqueueAll s.toMarkState ((threadRootObjects thread).flatMap (rootTargets G)) ∧
      ∀ x, s.color x = Color.kBlack →
        (collectRootSetForThread G handle s thread).color x = Color.kBlack) ∧
    (∀ globals,
      (collectRootSetGlobals G handle s globals).toMarkState
        = enqueueAll s.toMarkState
            ((globals.map (fun value => value.object)).flatMap (rootTargets G)) ∧
      ∀ x, s.color x = Color.kBlack →
        (collectRootSetGlobals G handle s globals).color x = Color.kBlack) ∧
    (∀ top,
      markObject G s.toMarkState top = enqueueAll s.toMarkState (markTargets G top) ∧
      ∀ x, s.color x = Color.kBlack → (markObject G s.toMarkState top).color x = Color.kBlack) ∧
    (∀ fuel stats m, Mark G fuel s.toMarkState = some (stats, m) →
      ∀ x, s.color x = Color.kBlack → m.color x = Color.kBlack) ∧
    (∀ filter threads globals fuel stats m,
      Mark G fuel (collectRootSet G handle s filter threads globals).toMarkState = some (stats, m) →
      (∀ x, s.color x = Color.kBlack → m.color x = Color.kBlack) ∧
      ∃ changed : List ObjHeader, changed.Nodup ∧
        (∀ o, o ∈ changed ↔ (s.color o = Color.kWhite ∧ m.color o = Color.kBlack)) ∧
        stats.aliveHeapSet = changed.length) := by
  refine ⟨?_, ?_, ?_, ?_, ?_, ?_⟩
  · intro object x hne
    rcases color_cases (s.color object) with hw | hb
    · rw [enqueue_of_white _ _ hw] at hne ⊢
      by_cases hx : x = object
      · subst hx
        exact ⟨rfl, hw, by simp, rfl⟩
      · exact absurd (by simp [Function.update_noteq hx]) hne
    · rw [enqueue_of_black _ _ hb] at hne
      exact absurd rfl hne
  · intro thread
    refine ⟨collectRootSetForThread_toMarkState G handle s thread, fun x hx => ?_⟩
    show (collectRootSetForThread G handle s thread).toMarkState.color x = Color.kBlack
    rw [collectRootSetForThread_toMarkState]
    exact enqueueAll_color_mono _ _ x hx
  · intro globals
    refine ⟨collectRootSetGlobals_toMarkState G handle s globals, fun x hx => ?_⟩
    show (collectRootSetGlobals G handle s globals).toMarkState.color x = Color.kBlack
    rw [collectRootSetGlobals_toMarkState]
    exact enqueueAll_color_mono _ _ x hx
  · intro top
    refine ⟨markObject_eq G _ top, fun x hx => ?_⟩
    rw [markObject_eq]
    exact enqueueAll_color_mono _ _ x hx
  · intro fuel stats m h x hx
    exact markLoop_color_mono G fuel {} s.toMarkState (stats, m) h x hx
  · intro filter threads globals fuel stats m h
    rw [collectRootSet_toMarkState] at h
    have h1 : Tracked s.color [] []
        (enqueueAll { markQueue := [], color := s.color }
          ((rootObjects filter threads globals).flatMap (rootTargets G))) :=
      tracked_enqueueAll _ (tracked_init s.color)
    obtain ⟨E, hE, hq, ha, _⟩ := markLoop_tracked G s.color fuel {} _ [] [] (stats, m) h1 h
    simp only [List.nil_append] at hE
    refine ⟨fun x hx => hE.mono x hx, E, tracked_nodup hE, ?_, by simpa using ha⟩
    intro o
    have := hE.mem_iff o
    simp only [] at hq
    simpa [hq] using this

/-- Claim C6 on the example heap: `Mark` returns there, and the objects it and
the root collection turned Black are listed once each. -/
theorem colour_only_turns_black_witness :
    ∃ stats m, Mark exampleGraph 7
        (collectRootSet exampleGraph (GCHandle.getByEpoch 1) allWhite (fun _ => true)
          [exampleThread] exampleGlobals).toMarkState = some (stats, m) ∧
      (∀ x, allWhite.color x = Color.kBlack → m.color x = Color.kBlack) ∧
      ∃ changed : List ObjHeader, changed.Nodup ∧
        (∀ o, o ∈ changed ↔ (allWhite.color o = Color.kWhite ∧ m.color o = Color.kBlack)) ∧
        stats.aliveHeapSet = changed.length := by
  obtain ⟨stats, m, _, hm, _⟩ :=
    mark_after_collectRootSet exampleGraph (GCHandle.getByEpoch 1) allWhite (fun _ => true)
      [exampleThread] exampleGlobals exampleFactory 7 example_white
      (fun o ho => (example_factory o).1 ho) example_weak (by decide)
  exact ⟨stats, m, hm,
    (colour_only_turns_black exampleGraph (GCHandle.getByEpoch 1) allWhite).2.2.2.2.2
      (fun _ => true) [exampleThread] exampleGlobals 7 stats m hm⟩

theorem sound_queue_to_pending {G : ObjectGraph} {roots : List ObjHeader} {c0 : Colors}
    {D Q : List ObjHeader} {color : Colors}
    (h : Sound G roots c0 D [] { markQueue := Q, color := color }) :
    Sound G roots c0 D Q { markQueue := [], color := color } := by
  obtain ⟨⟨hn, hm, hmono⟩, hr⟩ := h
  simp only [List.append_nil] at hn hm hr
  exact ⟨⟨by simpa using hn, by simpa using hm, hmono⟩, by simpa using hr⟩

theorem sound_pending_to_queue {G : ObjectGraph} {roots : List ObjHeader} {c0 : Colors}
    {D Q : List ObjHeader} {color : Colors}
    (h : Sound G roots c0 D Q { markQueue := [], color := color }) :
    Sound G roots c0 D [] { markQueue := Q, color := color } := by
  obtain ⟨⟨hn, hm, hmono⟩, hr⟩ := h
  simp only [List.append_nil] at hn hm hr
  exact ⟨⟨by simpa using hn, by simpa using hm, hmono⟩, by simpa using hr⟩

theorem closed_mono {G : ObjectGraph} {D : List ObjHeader} {m m' : MarkState}
    (h : Closed G D m) (hmono : ∀ x, m.color x = Color.kBlack → m'.color x = Color.kBlack) :
    Closed G D m' :=
  fun o ho p hp => hmono p (h o ho p hp)

theorem heapReachable_of_mem_rootTargets {G : ObjectGraph} {roots : List ObjHeader}
    {r p : ObjHeader} (hr : r ∈ roots) (hp : p ∈ rootTargets G r) : HeapReachable G roots p :=
  ⟨p, (heapRoot_iff_mem_rootTargets G roots p).2 (List.mem_flatMap.2 ⟨r, hr, hp⟩),
    Relation.ReflTransGen.refl⟩

theorem onSuspendForGC_step {G : ObjectGraph} (hweak : WeakCountersOnHeap G)
    {roots : List ObjHeader} {c0 : Colors} (factory : List ObjHeader)
    (hfactory : ∀ o, G.heap o = true → o ∈ factory) (fuel : Nat) (hfuel : factory.length < fuel)
    (epoch : Nat) {D done : List ObjHeader} {c : CollectorState}
    (hinv : MarkingInv G roots c0 D done c) (thread : mm.ThreadData)
    (hmark : thread.marking = true) (hroots : ∀ r, r ∈ threadRootObjects thread → r ∈ roots) :
    ∃ c' E, OnSuspendForGC G fuel epoch c thread = some c' ∧ c'.markQueue = c.markQueue ∧
      MarkingInv G roots c0 (D ++ E) (done ++ threadRootObjects thread) c' := by
  have htargets : ∀ p, p ∈ (threadRootObjects thread).flatMap (rootTargets G) →
      HeapReachable G roots p := by
    intro p hp
    obtain ⟨r, hr, hpr⟩ := List.mem_flatMap.1 hp
    exact heapReachable_of_mem_rootTargets (hroots r hr) hpr
  have hs1 := sound_enqueueAll hinv.sound _ htargets
  have hc1 : Closed G D (enqueueAll { markQueue := [], color := c.color }
      ((threadRootObjects thread).flatMap (rootTargets G))) :=
    closed_mono hinv.closed (fun x hx => enqueueAll_color_mono _ _ x hx)
  obtain ⟨stats, m', E, hm, hq, hs, hc, hmono, ha, hb⟩ :=
    mark_run hweak factory hfactory fuel hfuel hs1 hc1
  have hm' : m' = { markQueue := [], color := m'.color } := by
    rcases m' with ⟨q, col⟩
    simp only [] at hq
    subst hq
    rfl
  have hrun : ∃ c', OnSuspendForGC G fuel epoch c thread = some c' ∧ c'.color = m'.color ∧
      c'.markQueue = c.markQueue ∧ c'.lastGCMarkStats = c.lastGCMarkStats.merge stats := by
    unfold OnSuspendForGC
    simp only [hmark, Bool.not_true, Bool.false_eq_true, if_false]
    rw [collectRootSetForThread_toMarkState]
    simp only []
    rw [hm]
    exact ⟨_, rfl, rfl, rfl, rfl⟩
  obtain ⟨c', hc', hcol, hqueue, hstats⟩ := hrun
  refine ⟨c', E, hc', hqueue, ?_⟩
  refine ⟨?_, ?_, ?_, ?_, ?_⟩
  · rw [hcol, hqueue, ← hm']; exact hs
  · rw [hcol, ← hm']; exact hc
  · intro t ht
    rw [hcol]
    apply hmono
    rw [enqueueAll_color_black_iff]
    rw [List.flatMap_append, List.mem_append] at ht
    rcases ht with ht | ht
    · exact Or.inl (hinv.rootsBlack t ht)
    · exact Or.inr ht
  · rw [hstats]
    show c.lastGCMarkStats.aliveHeapSet + stats.aliveHeapSet = (D ++ E).length
    rw [hinv.alive, ha, List.length_append]
  · rw [hstats]
    show c.lastGCMarkStats.aliveHeapSetBytes + stats.aliveHeapSetBytes
      = ((D ++ E).map G.allocatedHeapSize).sum
    rw [hinv.bytes, hb, List.map_append, List.sum_append]

theorem onSuspendForGC_foldlM {G : ObjectGraph} (hweak : WeakCountersOnHeap G)
    {roots : List ObjHeader} {c0 : Colors} (factory : List ObjHeader)
    (hfactory : ∀ o, G.heap o = true → o ∈ factory) (fuel : Nat) (hfuel : factory.length < fuel)
    (epoch : Nat) (mutators : List mm.ThreadData) :
    ∀ {D done : List ObjHeader} {c : CollectorState},
      MarkingInv G roots c0 D done c →
      (∀ thread, thread ∈ mutators → thread.marking = true) →
      (∀ thread, thread ∈ mutators → ∀ r, r ∈ threadRootObjects thread → r ∈ roots) →
      ∃ c' E, mutators.foldlM (OnSuspendForGC G fuel epoch) c = some c' ∧
        c'.markQueue = c.markQueue ∧
        MarkingInv G roots c0 (D ++ E) (done ++ mutators.flatMap threadRootObjects) c' := by
  induction mutators with
  | nil =>
    intro D done c hinv _ _
    exact ⟨c, [], rfl, rfl, by simpa using hinv⟩
  | cons t rest ih =>
    intro D done c hinv hmark hroots
    obtain ⟨c1, E1, h1, hq1, hinv1⟩ := onSuspendForGC_step hweak factory hfactory fuel hfuel epoch
      hinv t (hmark t (List.mem_cons_self _ _)) (hroots t (List.mem_cons_self _ _))
    obtain ⟨c2, E2, h2, hq2, hinv2⟩ := ih hinv1
      (fun th hth => hmark th (List.mem_cons_of_mem _ hth))
      (fun th hth => hroots th (List.mem_cons_of_mem _ hth))
    refine ⟨c2, E1 ++ E2, ?_, by rw [hq2, hq1], ?_⟩
    · rw [List.foldlM_cons, h1]
      exact h2
    · simpa [List.append_assoc] using hinv2

theorem collectorMark_step {G : ObjectGraph} (hweak : WeakCountersOnHeap G)
    {roots : List ObjHeader} {c0 : Colors} (factory : List ObjHeader)
    (hfactory : ∀ o, G.heap o = true → o ∈ factory) (fuel : Nat) (hfuel : factory.length < fuel)
    {D done : List ObjHeader} {c : CollectorState}
    (hinv : MarkingInv G roots c0 D done c) :
    ∃ markStats m E, Mark G fuel c.toMarkState = some (markStats, m) ∧ m.markQueue = [] ∧
      MarkingInv G roots c0 (D ++ E) done
        (MergeMarkStats { c with markQueue := m.markQueue, color := m.color } markStats) := by
  have hs0 : Sound G roots c0 D [] c.toMarkState := sound_pending_to_queue hinv.sound
  have hc0 : Closed G D c.toMarkState := closed_mono hinv.closed (fun _ hx => hx)
  obtain ⟨stats, m', E, hm, hq, hs, hc, hmono, ha, hb⟩ :=
    mark_run hweak factory hfactory fuel hfuel hs0 hc0
  have hm' : m' = { markQueue := [], color := m'.color } := by
    rcases m' with ⟨q, col⟩
    simp only [] at hq
    subst hq
    rfl
  refine ⟨stats, m', E, hm, hq, ?_, ?_, ?_, ?_, ?_⟩
  · show Sound G roots c0 (D ++ E) m'.markQueue { markQueue := [], color := m'.color }
    rw [hq, ← hm']; exact hs
  · show Closed G (D ++ E) { markQueue := [], color := m'.color }
    rw [← hm']; exact hc
  · intro t ht
    exact hmono t (hinv.rootsBlack t ht)
  · show c.lastGCMarkStats.aliveHeapSet + stats.aliveHeapSet = (D ++ E).length
    rw [hinv.alive, ha, List.length_append]
  · show c.lastGCMarkStats.aliveHeapSetBytes + stats.aliveHeapSetBytes
      = ((D ++ E).map G.allocatedHeapSize).sum
    rw [hinv.bytes, hb, List.map_append, List.sum_append]

theorem mem_rootObjects_true (threads : List mm.ThreadData) (globals : List mm.GlobalRootValue)
    (r : ObjHeader) :
    r ∈ rootObjects (fun _ => true) threads globals ↔
      (∃ thread, thread ∈ threads ∧ r ∈ threadRootObjects thread) ∨
      r ∈ globals.map (fun value => value.object) := by
  simp [rootObjects, List.mem_flatMap]

/-- The marking steps of a collection return, with an empty queue, the objects
reachable along heap objects turned Black and counted once each, whichever
threads mark their own root set and in whichever order they run. -/
theorem performMarking_spec (G : ObjectGraph) (fuel epoch : Nat) (c : CollectorState)
    (threads : List mm.ThreadData) (globals : List mm.GlobalRootValue)
    (before after : List mm.ThreadData) (factory : List ObjHeader)
    (hwhite : ∀ o, G.heap o = true → c.color o = Color.kWhite)
    (hfactory : ∀ o, G.heap o = true → o ∈ factory)
    (hweak : WeakCountersOnHeap G) (hfuel : factory.length < fuel)
    (hsched : (before ++ after).Perm (threads.filter (fun thread => thread.marking))) :
    ∃ (c' : CollectorState) (D : List ObjHeader),
      performMarking G fuel epoch c threads globals before after = some c' ∧
      c'.markQueue = [] ∧ D.Nodup ∧
      (∀ o, o ∈ D ↔ HeapReachable G (rootObjects (fun _ => true) threads globals) o) ∧
      (∀ o, c'.color o = Color.kBlack ↔ (c.color o = Color.kBlack ∨ o ∈ D)) ∧
      c'.lastGCMarkStats.aliveHeapSet = D.length ∧
      c'.lastGCMarkStats.aliveHeapSetBytes = (D.map G.allocatedHeapSize).sum := by
  have hmem_sched : ∀ thread, thread ∈ before ++ after ↔ (thread ∈ threads ∧ thread.marking = true) := by
    intro thread
    rw [hsched.mem_iff, List.mem_filter]
  have hmark_before : ∀ thread, thread ∈ before → thread.marking = true :=
    fun thread h => ((hmem_sched thread).1 (List.mem_append_left _ h)).2
  have hmark_after : ∀ thread, thread ∈ after → thread.marking = true :=
    fun thread h => ((hmem_sched thread).1 (List.mem_append_right _ h)).2
  have hroots_of : ∀ thread, thread ∈ before ++ after → ∀ r, r ∈ threadRootObjects thread →
      r ∈ rootObjects (fun _ => true) threads globals := by
    intro thread h r hr
    exact (mem_rootObjects_true threads globals r).2 (Or.inl ⟨thread, ((hmem_sched thread).1 h).1, hr⟩)
  -- the collector thread collects its share of the roots
  have hcollect : (collectRootSet G (GCHandle.getByEpoch epoch) c.toRuntimeState
        (fun thread => !thread.marking) threads globals).toMarkState
      = enqueueAll { markQueue := [], color := c.color }
          ((rootObjects (fun thread => !thread.marking) threads globals).flatMap (rootTargets G)) :=
    collectRootSet_toMarkState G _ _ _ threads globals
  have hsub : ∀ r, r ∈ rootObjects (fun thread => !thread.marking) threads globals →
      r ∈ rootObjects (fun _ => true) threads globals := by
    intro r hr
    rw [mem_rootObjects_true]
    simp only [rootObjects, List.mem_append, List.mem_flatMap, List.mem_filter] at hr
    rcases hr with ⟨thread, ⟨ht, _⟩, hr⟩ | hr
    · exact Or.inl ⟨thread, ht, hr⟩
    · exact Or.inr hr
  have hs1 : Sound G (rootObjects (fun _ => true) threads globals) c.color [] []
      (enqueueAll { markQueue := [], color := c.color }
        ((rootObjects (fun thread => !thread.marking) threads globals).flatMap (rootTargets G))) := by
    apply sound_enqueueAll ⟨tracked_init c.color, by simp⟩
    intro p hp
    obtain ⟨r, hr, hpr⟩ := List.mem_flatMap.1 hp
    exact heapReachable_of_mem_rootTargets (hsub r hr) hpr
  have hinv0 : MarkingInv G (rootObjects (fun _ => true) threads globals) c.color []
      (rootObjects (fun thread => !thread.marking) threads globals)
      (CollectRootSetAndStartMarking G (GCHandle.getByEpoch epoch)
        { c with lastGCMarkStats := {} } threads globals) := by
    refine ⟨?_, fun o ho => by simp at ho, ?_, rfl, rfl⟩
    · have hs2 : Sound G (rootObjects (fun _ => true) threads globals) c.color [] []
          (CollectRootSetAndStartMarking G (GCHandle.getByEpoch epoch)
            { c with lastGCMarkStats := {} } threads globals).toMarkState := by
        show Sound G (rootObjects (fun _ => true) threads globals) c.color [] []
          (collectRootSet G (GCHandle.getByEpoch epoch) c.toRuntimeState
            (fun thread => !thread.marking) threads globals).toMarkState
        rw [hcollect]
        exact hs1
      exact sound_queue_to_pending hs2
    · intro t ht
      show (collectRootSet G (GCHandle.getByEpoch epoch) c.toRuntimeState
          (fun thread => !thread.marking) threads globals).toMarkState.color t = Color.kBlack
      rw [hcollect, enqueueAll_color_black_iff]
      exact Or.inr ht
  -- the threads that run before the collector thread drains its queue
  obtain ⟨c1, E1, h1, _, hinv1⟩ := onSuspendForGC_foldlM hweak factory hfactory fuel hfuel epoch
    before hinv0 hmark_before (fun thread h => hroots_of thread (List.mem_append_left _ h))
  -- the collector thread drains its queue
  obtain ⟨markStats, m, E2, h2, hq2, hinv2⟩ := collectorMark_step hweak factory hfactory fuel hfuel hinv1
  -- the threads that run after it
  obtain ⟨c3, E3, h3, hq3, hinv3⟩ := onSuspendForGC_foldlM hweak factory hfactory fuel hfuel epoch
    after hinv2 hmark_after (fun thread h => hroots_of thread (List.mem_append_right _ h))
  have hqueue : c3.markQueue = [] := by rw [hq3]; exact hq2
  have hsound : Sound G (rootObjects (fun _ => true) threads globals) c.color
      ([] ++ E1 ++ E2 ++ E3) [] { markQueue := [], color := c3.color } := by
    have := hinv3.sound
    rw [hqueue] at this
    exact this
  have hrootsBlack : ∀ t, HeapRoot G (rootObjects (fun _ => true) threads globals) t →
      c3.color t = Color.kBlack := by
    intro t ht
    rw [heapRoot_iff_mem_rootTargets] at ht
    obtain ⟨r, hr, hpr⟩ := List.mem_flatMap.1 ht
    apply hinv3.rootsBlack t
    refine List.mem_flatMap.2 ⟨r, ?_, hpr⟩
    rw [mem_rootObjects_true] at hr
    simp only [List.mem_append, List.mem_flatMap]
    rcases hr with ⟨thread, hth, hr⟩ | hr
    · cases hmk : thread.marking
      · left; left
        simp only [rootObjects, List.mem_append, List.mem_flatMap, List.mem_filter]
        exact Or.inl ⟨thread, ⟨hth, by simp [hmk]⟩, hr⟩
      · rcases List.mem_append.1 ((hmem_sched thread).2 ⟨hth, hmk⟩) with hb | ha
        · left; right; exact ⟨thread, hb, hr⟩
        · right; exact ⟨thread, ha, hr⟩
    · left; left
      simp only [rootObjects, List.mem_append]
      exact Or.inr hr
  refine ⟨c3, [] ++ E1 ++ E2 ++ E3, ?_, hqueue, tracked_nodup hsound.tracked, ?_, ?_,
    hinv3.alive, hinv3.bytes⟩
  · unfold performMarking
    simp only [h1, h2]
    exact h3
  · exact sound_closed_final hweak hwhite hsound hinv3.closed rfl hrootsBlack
  · intro o
    have := tracked_color_black_iff hsound.tracked o
    simpa using this

theorem rootObjects_withoutOwnMarking (threads : List mm.ThreadData)
    (globals : List mm.GlobalRootValue) (r : ObjHeader) :
    r ∈ rootObjects (fun _ => true) (withoutOwnMarking threads) globals ↔
      r ∈ rootObjects (fun _ => true) threads globals := by
  rw [mem_rootObjects_true, mem_rootObjects_true]
  constructor
  · rintro (⟨thread, hth, hr⟩ | hr)
    · obtain ⟨t, ht, rfl⟩ := List.mem_map.1 hth
      exact Or.inl ⟨t, ht, hr⟩
    · exact Or.inr hr
  · rintro (⟨thread, hth, hr⟩ | hr)
    · exact Or.inl ⟨_, List.mem_map.2 ⟨thread, hth, rfl⟩, hr⟩
    · exact Or.inr hr

theorem filter_marking_withoutOwnMarking (threads : List mm.ThreadData) :
    (withoutOwnMarking threads).filter (fun thread => thread.marking) = [] := by
  simp [withoutOwnMarking, List.filter_eq_nil_iff]

/-- Claim C10: from a colouring in which every heap object is White, with all
heap objects in the factory and every weak counter of a heap object on the
heap, let the threads with `marking_` raised collect their own root set into
a private queue and run `Mark` on it, in any order, before or after the
collector thread drains the queue that holds the other root sets, and let the
statistics be merged with `MarkStats::merge`. All these runs return once the
fuel exceeds the size of the factory, and they leave the same colours and the
same merged `aliveHeapSet` and `aliveHeapSetBytes` as the collection in which
no thread marks its own root set, where all roots go to one queue and `Mark`
runs once. -/
theorem parallel_marking_matches_serial (G : ObjectGraph) (fuel epoch : Nat) (c : CollectorState)
    (threads : List mm.ThreadData) (globals : List mm.GlobalRootValue)
    (before after : List mm.ThreadData) (factory : List ObjHeader)
    (hwhite : ∀ o, G.heap o = true → c.color o = Color.kWhite)
    (hfactory : ∀ o, G.heap o = true → o ∈ factory)
    (hweak : WeakCountersOnHeap G) (hfuel : factory.length < fuel)
    (hsched : (before ++ after).Perm (threads.filter (fun thread => thread.marking))) :
    ∃ (own serial : CollectorState),
      performMarking G fuel epoch c threads globals before after = some own ∧
      performMarking G fuel epoch c (withoutOwnMarking threads) globals [] [] = some serial ∧
      (∀ o, own.color o = serial.color o) ∧
      own.lastGCMarkStats = serial.lastGCMarkStats ∧
      own.markQueue = [] ∧ serial.markQueue = [] := by
  obtain ⟨own, D, hown, hq, hnd, hD, hcol, ha, hb⟩ :=
    performMarking_spec G fuel epoch c threads globals before after factory hwhite hfactory hweak
      hfuel hsched
  obtain ⟨serial, D', hserial, hq', hnd', hD', hcol', ha', hb'⟩ :=
    performMarking_spec G fuel epoch c (withoutOwnMarking threads) globals [] [] factory hwhite
      hfactory hweak hfuel (by rw [filter_marking_withoutOwnMarking]; exact List.Perm.refl _)
  have hreach : ∀ o, HeapReachable G (rootObjects (fun _ => true) (withoutOwnMarking threads) globals) o
      ↔ HeapReachable G (rootObjects (fun _ => true) threads globals) o := fun o =>
    ⟨heapReachable_mono (fun r hr => (rootObjects_withoutOwnMarking threads globals r).1 hr),
      heapReachable_mono (fun r hr => (rootObjects_withoutOwnMarking threads globals r).2 hr)⟩
  have hperm : D.Perm D' := by
    rw [List.perm_ext_iff_of_nodup hnd hnd']
    intro o
    rw [hD o, hD' o, hreach o]
  refine ⟨own, serial, hown, hserial, ?_, ?_, hq, hq'⟩
  · intro o
    have h1 : own.color o = Color.kBlack ↔ serial.color o = Color.kBlack := by
      rw [hcol o, hcol' o, hperm.mem_iff]
    rcases color_cases (own.color o) with ho | ho <;>
      rcases color_cases (serial.color o) with hs | hs
    · rw [ho, hs]
    · rw [h1.2 hs] at ho; exact absurd ho (by decide)
    · rw [h1.1 ho] at hs; exact absurd hs (by decide)
    · rw [ho, hs]
  · have hA : own.lastGCMarkStats.aliveHeapSet = serial.lastGCMarkStats.aliveHeapSet := by
      rw [ha, ha', hperm.length_eq]
    have hB : own.lastGCMarkStats.aliveHeapSetBytes = serial.lastGCMarkStats.aliveHeapSetBytes := by
      rw [hb, hb', (hperm.map G.allocatedHeapSize).sum_eq]
    rcases hos : own.lastGCMarkStats with ⟨a1, b1⟩
    rcases hss : serial.lastGCMarkStats with ⟨a2, b2⟩
    rw [hos, hss] at hA hB
    simp only [] at hA hB
    rw [hA, hB]

/-- Claim C10 on the example heap with one thread that marks its own root set. -/
theorem parallel_marking_matches_serial_witness :
    ∃ (own serial : CollectorState),
      performMarking exampleGraph 7 1 exampleCollector [exampleThread, exampleMutator]
        exampleGlobals [exampleMutator] [] = some own ∧
      performMarking exampleGraph 7 1 exampleCollector
        (withoutOwnMarking [exampleThread, exampleMutator]) exampleGlobals [] [] = some serial ∧
      (∀ o, own.color o = serial.color o) ∧
      own.lastGCMarkStats = serial.lastGCMarkStats ∧
      own.markQueue = [] ∧ serial.markQueue = [] :=
  parallel_marking_matches_serial exampleGraph 7 1 exampleCollector [exampleThread, exampleMutator]
    exampleGlobals [exampleMutator] [] exampleFactory (fun _ _ => rfl)
    (fun o ho => (example_factory o).1 ho) example_weak (by decide) (by decide)

theorem enqueueAll_markQueue (l : List ObjHeader) :
    ∀ m : MarkState, ∃ pushed, (enqueueAll m l).markQueue = pushed ++ m.markQueue ∧
      ∀ x, x ∈ pushed → x ∈ l ∧ m.color x = Color.kWhite := by
  induction l with
  | nil => intro m; exact ⟨[], rfl, fun x hx => by simp at hx⟩
  | cons o rest ih =>
    intro m
    rw [enqueueAll_cons]
    obtain ⟨pushed, hq, hp⟩ := ih (MarkTraits.enqueue m o)
    rcases color_cases (m.color o) with hw | hb
    · rw [enqueue_of_white m o hw] at hq hp ⊢
      refine ⟨pushed ++ [o], by simpa using hq, ?_⟩
      intro x hx
      rw [List.mem_append, List.mem_singleton] at hx
      rcases hx with hx | hx
      · have := hp x hx
        by_cases hxo : x = o
        · subst hxo; exact ⟨List.mem_cons_self _ _, hw⟩
        · exact ⟨List.mem_cons_of_mem _ this.1, by simpa [Function.update_noteq hxo] using this.2⟩
      · subst hx; exact ⟨List.mem_cons_self _ _, hw⟩
    · rw [enqueue_of_black m o hb] at hq hp ⊢
      exact ⟨pushed, hq, fun x hx => ⟨List.mem_cons_of_mem _ (hp x hx).1, (hp x hx).2⟩⟩

theorem foldl_skip_filter {α β : Type} (f : β → α → β) (p : α → Bool)
    (hskip : ∀ acc a, p a = false → f acc a = acc) (l : List α) :
    ∀ acc, l.foldl f acc = (l.filter p).foldl f acc := by
  induction l with
  | nil => intro acc; rfl
  | cons a rest ih =>
    intro acc
    cases hp : p a
    · rw [List.foldl_cons, hskip acc a hp, List.filter_cons_of_neg (by simp [hp])]
      exact ih acc
    · rw [List.foldl_cons, List.filter_cons_of_pos hp, List.foldl_cons]
      exact ih _

theorem collectThreadRootValue_skip (G : ObjectGraph) (acc : ThreadRootScan)
    (value : mm.ThreadRootValue) (h : (!isNullOrMarker value.object) = false) :
    collectThreadRootValue G acc value = acc := by
  unfold collectThreadRootValue
  simp only [h, Bool.false_eq_true, if_false]

theorem collectGlobalRootValue_skip (G : ObjectGraph) (acc : GlobalRootScan)
    (value : mm.GlobalRootValue) (h : (!isNullOrMarker value.object) = false) :
    collectGlobalRootValue G acc value = acc := by
  unfold collectGlobalRootValue
  simp only [h, Bool.false_eq_true, if_false]

/-- Claim C11: for every thread root set and for the global root set, after
`collectRootSetForThread` or `collectRootSetGlobals` the Black objects are the
objects that were Black before together with the heap roots of that root set:
every root that is neither null nor the marker and is a heap object, and every
heap object held in a field of a root that is not a heap object. The mark queue
is the old queue with objects pushed in front of it, each of them a heap object
that was White and is such a heap root, so a root that is not a heap object is
never put in the queue. Null and marker roots contribute nothing: the result is
that of the root set without them. -/
theorem root_enqueue_logic (G : ObjectGraph) (handle : GCHandle) (s : RuntimeState) :
    (∀ thread : mm.ThreadData,
      (∀ x, (collectRootSetForThread G handle s thread).color x = Color.kBlack ↔
        (s.color x = Color.kBlack ∨ HeapRoot G (threadRootObjects thread) x)) ∧
      (∃ pushed, (collectRootSetForThread G handle s thread).markQueue = pushed ++ s.markQueue ∧
        ∀ x, x ∈ pushed → G.heap x = true ∧ isNullOrMarker x = false ∧
          s.color x = Color.kWhite ∧ HeapRoot G (threadRootObjects thread) x) ∧
      collectRootSetForThread G handle s thread
        = collectRootSetForThread G handle s
            { thread with rootSet := thread.rootSet.filter (fun value => !isNullOrMarker value.object) }) ∧
    (∀ globals : List mm.GlobalRootValue,
      (∀ x, (collectRootSetGlobals G handle s globals).color x = Color.kBlack ↔
        (s.color x = Color.kBlack ∨ HeapRoot G (globals.map (fun value => value.object)) x)) ∧
      (∃ pushed, (collectRootSetGlobals G handle s globals).markQueue = pushed ++ s.markQueue ∧
        ∀ x, x ∈ pushed → G.heap x = true ∧ isNullOrMarker x = false ∧
          s.color x = Color.kWhite ∧ HeapRoot G (globals.map (fun value => value.object)) x) ∧
      collectRootSetGlobals G handle s globals
        = collectRootSetGlobals G handle s
            (globals.filter (fun value => !isNullOrMarker value.object))) := by
  have hnn : ∀ roots x, HeapRoot G roots x → isNullOrMarker x = false := by
    intro roots x hx
    cases hx with
    | root _ hn _ => exact hn
    | fieldOfRoot _ _ _ _ hpn _ => exact hpn
  constructor
  · intro thread
    refine ⟨?_, ?_, ?_⟩
    · intro x
      show (collectRootSetForThread G handle s thread).toMarkState.color x = Color.kBlack ↔ _
      rw [collectRootSetForThread_toMarkState, enqueueAll_color_black_iff,
        heapRoot_iff_mem_rootTargets]
    · obtain ⟨pushed, hq, hp⟩ := enqueueAll_markQueue
        ((threadRootObjects thread).flatMap (rootTargets G)) s.toMarkState
      refine ⟨pushed, ?_, ?_⟩
      · show (collectRootSetForThread G handle s thread).toMarkState.markQueue = _
        rw [collectRootSetForThread_toMarkState]; exact hq
      · intro x hx
        have hroot := (heapRoot_iff_mem_rootTargets G _ x).2 (hp x hx).1
        exact ⟨heapRoot_heap hroot, hnn _ x hroot, (hp x hx).2, hroot⟩
    · unfold collectRootSetForThread
      simp only []
      rw [foldl_skip_filter (collectThreadRootValue G) (fun value => !isNullOrMarker value.object)
        (fun acc a h => collectThreadRootValue_skip G acc a h)]
  · intro globals
    refine ⟨?_, ?_, ?_⟩
    · intro x
      show (collectRootSetGlobals G handle s globals).toMarkState.color x = Color.kBlack ↔ _
      rw [collectRootSetGlobals_toMarkState, enqueueAll_color_black_iff,
        heapRoot_iff_mem_rootTargets]
    · obtain ⟨pushed, hq, hp⟩ := enqueueAll_markQueue
        ((globals.map (fun value => value.object)).flatMap (rootTargets G)) s.toMarkState
      refine ⟨pushed, ?_, ?_⟩
      · show (collectRootSetGlobals G handle s globals).toMarkState.markQueue = _
        rw [collectRootSetGlobals_toMarkState]; exact hq
      · intro x hx
        have hroot := (heapRoot_iff_mem_rootTargets G _ x).2 (hp x hx).1
        exact ⟨heapRoot_heap hroot, hnn _ x hroot, (hp x hx).2, hroot⟩
    · unfold collectRootSetGlobals
      simp only []
      rw [foldl_skip_filter (collectGlobalRootValue G) (fun value => !isNullOrMarker value.object)
        (fun acc a h => collectGlobalRootValue_skip G acc a h)]

theorem statByEpoch_current {st : GCStatistics} {epoch : Nat} (h : st.current.epoch = some epoch) :
    statByEpoch st epoch = some StatRef.current := by
  simp [statByEpoch, h]

theorem foldl_collectThreadRootValue_counts (G : ObjectGraph) (values : List mm.ThreadRootValue) :
    ∀ acc : ThreadRootScan,
      (values.foldl (collectThreadRootValue G) acc).stackRoots
        = acc.stackRoots + countThreadRoots mm.ThreadRootSource.kStack values ∧
      (values.foldl (collectThreadRootValue G) acc).threadLocalRoots
        = acc.threadLocalRoots + countThreadRoots mm.ThreadRootSource.kTLS values := by
  induction values with
  | nil => intro acc; simp [countThreadRoots]
  | cons v rest ih =>
    intro acc
    rw [List.foldl_cons]
    obtain ⟨h1, h2⟩ := ih (collectThreadRootValue G acc v)
    rw [h1, h2]
    unfold collectThreadRootValue countThreadRoots
    cases hn : isNullOrMarker v.object <;> cases hs : v.source <;>
      simp [hn, hs, List.countP_cons] <;> omega

theorem foldl_collectGlobalRootValue_counts (G : ObjectGraph) (values : List mm.GlobalRootValue) :
    ∀ acc : GlobalRootScan,
      (values.foldl (collectGlobalRootValue G) acc).globalRoots
        = acc.globalRoots + countGlobalRoots mm.GlobalRootSource.kGlobal values ∧
      (values.foldl (collectGlobalRootValue G) acc).stableRoots
        = acc.stableRoots + countGlobalRoots mm.GlobalRootSource.kStableRef values := by
  induction values with
  | nil => intro acc; simp [countGlobalRoots]
  | cons v rest ih =>
    intro acc
    rw [List.foldl_cons]
    obtain ⟨h1, h2⟩ := ih (collectGlobalRootValue G acc v)
    rw [h1, h2]
    unfold collectGlobalRootValue countGlobalRoots
    cases hn : isNullOrMarker v.object <;> cases hs : v.source <;>
      simp [hn, hs, List.countP_cons] <;> omega

theorem collectRootSetForThread_gcInfo (G : ObjectGraph) (handle : GCHandle) (s : RuntimeState)
    (thread : mm.ThreadData) :
    (collectRootSetForThread G handle s thread).gcInfo
      = handle.threadRootSet thread.threadId
          (countThreadRoots mm.ThreadRootSource.kTLS thread.rootSet)
          (countThreadRoots mm.ThreadRootSource.kStack thread.rootSet) s.gcInfo := by
  unfold collectRootSetForThread
  simp only []
  obtain ⟨h1, h2⟩ := foldl_collectThreadRootValue_counts G thread.rootSet { state := s.toMarkState }
  rw [h1, h2]
  simp

theorem collectRootSetGlobals_gcInfo (G : ObjectGraph) (handle : GCHandle) (s : RuntimeState)
    (globals : List mm.GlobalRootValue) :
    (collectRootSetGlobals G handle s globals).gcInfo
      = handle.globalRootSet (countGlobalRoots mm.GlobalRootSource.kGlobal globals)
          (countGlobalRoots mm.GlobalRootSource.kStableRef globals) s.gcInfo := by
  unfold collectRootSetGlobals
  simp only []
  obtain ⟨h1, h2⟩ := foldl_collectGlobalRootValue_counts G globals { state := s.toMarkState }
  rw [h1, h2]
  simp

/-- The root set of the current record, counted from zero when it has none. -/
theorem threadRootSet_current (h : GCHandle) (id : Int) (tls stack : Nat) (st : GCStatistics)
    (hcur : st.current.epoch = some h.epoch) :
    (h.threadRootSet id tls stack st).current.epoch = some h.epoch ∧
    (h.threadRootSet id tls stack st).current.rootSetOrZero
      = { st.current.rootSetOrZero with
          stackReferences := st.current.rootSetOrZero.stackReferences + (stack : Int),
          threadLocalReferences := st.current.rootSetOrZero.threadLocalReferences + (tls : Int) } ∧
    (h.threadRootSet id tls stack st).current.rootSet
      = some (h.threadRootSet id tls stack st).current.rootSetOrZero := by
  simp [GCHandle.threadRootSet, statByEpoch_current hcur, GCStatistics.get, GCStatistics.set,
    GCInfo.rootSetOrZero, hcur]

theorem globalRootSet_current (h : GCHandle) (g stable : Nat) (st : GCStatistics)
    (hcur : st.current.epoch = some h.epoch) :
    (h.globalRootSet g stable st).current.epoch = some h.epoch ∧
    (h.globalRootSet g stable st).current.rootSetOrZero
      = { st.current.rootSetOrZero with
          globalReferences := st.current.rootSetOrZero.globalReferences + (g : Int),
          stableReferences := st.current.rootSetOrZero.stableReferences + (stable : Int) } ∧
    (h.globalRootSet g stable st).current.rootSet
      = some (h.globalRootSet g stable st).current.rootSetOrZero := by
  simp [GCHandle.globalRootSet, statByEpoch_current hcur, GCStatistics.get, GCStatistics.set,
    GCInfo.rootSetOrZero, hcur]

theorem foldl_collectRootSetForThread_rootSet (G : ObjectGraph) (handle : GCHandle)
    (threads : List mm.ThreadData) :
    ∀ s : RuntimeState, s.gcInfo.current.epoch = some handle.epoch →
      (threads.foldl (collectRootSetForThread G handle) s).gcInfo.current.epoch
        = some handle.epoch ∧
      (threads.foldl (collectRootSetForThread G handle) s).gcInfo.current.rootSetOrZero
        = { s.gcInfo.current.rootSetOrZero with
            stackReferences := s.gcInfo.current.rootSetOrZero.stackReferences
              + ((threads.map (fun t => countThreadRoots mm.ThreadRootSource.kStack t.rootSet)).sum : Nat),
            threadLocalReferences := s.gcInfo.current.rootSetOrZero.threadLocalReferences
              + ((threads.map (fun t => countThreadRoots mm.ThreadRootSource.kTLS t.rootSet)).sum : Nat) } := by
  induction threads with
  | nil => intro s hs; exact ⟨hs, by simp⟩
  | cons t rest ih =>
    intro s hs
    rw [List.foldl_cons]
    have hstep := threadRootSet_current handle t.threadId
      (countThreadRoots mm.ThreadRootSource.kTLS t.rootSet)
      (countThreadRoots mm.ThreadRootSource.kStack t.rootSet) s.gcInfo hs
    rw [← collectRootSetForThread_gcInfo G handle s t] at hstep
    obtain ⟨h1, h2⟩ := ih (collectRootSetForThread G handle s t) hstep.1
    refine ⟨h1, ?_⟩
    rw [h2, hstep.2.1]
    simp only [List.map_cons, List.sum_cons, Nat.cast_add]
    congr 1 <;> ring

theorem countThreadRoots_flatMap (source : mm.ThreadRootSource) (threads : List mm.ThreadData) :
    countThreadRoots source (threads.flatMap (fun thread => thread.rootSet))
      = (threads.map (fun t => countThreadRoots source t.rootSet)).sum := by
  induction threads with
  | nil => rfl
  | cons t rest ih =>
    rw [List.flatMap_cons, List.map_cons, List.sum_cons, ← ih]
    unfold countThreadRoots
    rw [List.countP_append]

/-- Claim C12: starting from `GCHandle::create(epoch)` on statistics whose
current record holds no root-set counts yet, after `collectRootSetForThread`
has run for the threads of a list and `collectRootSetGlobals` has run once, all
with the handle of that epoch, the root set of the current record holds the
number of stack roots and of thread-local roots that are neither null nor the
marker, summed over the threads, and the number of such global roots and of
such stable-reference roots. -/
theorem root_set_counts (G : ObjectGraph) (epoch : Nat) (now : KLong) (st : GCStatistics)
    (m : MarkState) (threads : List mm.ThreadData) (globals : List mm.GlobalRootValue)
    (hfresh : st.current.rootSet = none) :
    (collectRootSetGlobals G (GCHandle.create epoch now st).1
        (threads.foldl (collectRootSetForThread G (GCHandle.create epoch now st).1)
          { toMarkState := m, gcInfo := (GCHandle.create epoch now st).2 })
        globals).gcInfo.current.rootSet
      = some {
          threadLocalReferences :=
            (countThreadRoots mm.ThreadRootSource.kTLS
              (threads.flatMap (fun thread => thread.rootSet)) : Nat),
          stackReferences :=
            (countThreadRoots mm.ThreadRootSource.kStack
              (threads.flatMap (fun thread => thread.rootSet)) : Nat),
          globalReferences := (countGlobalRoots mm.GlobalRootSource.kGlobal globals : Nat),
          stableReferences := (countGlobalRoots mm.GlobalRootSource.kStableRef globals : Nat) } := by
  have hepoch : (GCHandle.create epoch now st).2.current.epoch
      = some (GCHandle.create epoch now st).1.epoch := rfl
  have hzero : (GCHandle.create epoch now st).2.current.rootSetOrZero
      = { threadLocalReferences := 0, stackReferences := 0, globalReferences := 0,
          stableReferences := 0 } := by
    simp [GCHandle.create, GCInfo.rootSetOrZero, hfresh]
  obtain ⟨h1, h2⟩ := foldl_collectRootSetForThread_rootSet G (GCHandle.create epoch now st).1
    threads { toMarkState := m, gcInfo := (GCHandle.create epoch now st).2 } hepoch
  have h3 := globalRootSet_current (GCHandle.create epoch now st).1
    (countGlobalRoots mm.GlobalRootSource.kGlobal globals)
    (countGlobalRoots mm.GlobalRootSource.kStableRef globals) _ h1
  rw [collectRootSetGlobals_gcInfo, h3.2.2, h3.2.1, h2, hzero,
    countThreadRoots_flatMap, countThreadRoots_flatMap]
  simp

/-- Claim C12 on the example heap with two threads: one thread-local root and
three stack roots over both threads, one global root, no stable reference. -/
theorem root_set_counts_witness :
    (collectRootSetGlobals exampleGraph (GCHandle.create 7 100 {}).1
        ([exampleThread, exampleWorker].foldl
          (collectRootSetForThread exampleGraph (GCHandle.create 7 100 {}).1)
          { toMarkState := allWhite.toMarkState, gcInfo := (GCHandle.create 7 100 {}).2 })
        exampleGlobals).gcInfo.current.rootSet
      = some { threadLocalReferences := 1, stackReferences := 3, globalReferences := 1,
               stableReferences := 0 } :=
  root_set_counts exampleGraph 7 100 {} allWhite.toMarkState [exampleThread, exampleWorker]
    exampleGlobals rfl

theorem markLoop_eq_markLoopWith (G : ObjectGraph) :
    ∀ (fuel : Nat) (stats : MarkStats) (s : MarkState),
      markLoop G fuel stats s = markLoopWith MarkTraits.dequeue G fuel stats s := by
  intro fuel
  induction fuel with
  | zero => intro stats s; rfl
  | succ n ih =>
    intro stats s
    rcases s with ⟨q, c⟩
    cases q with
    | nil => simp [markLoop, markLoopWith, MarkTraits.isEmpty]
    | cons top rest =>
      simp only [markLoop, markLoopWith, MarkTraits.isEmpty, List.isEmpty, MarkTraits.dequeue,
        Bool.false_eq_true, if_false]
      exact ih _ _

theorem dequeue_discipline : DequeueDiscipline MarkTraits.dequeue := by
  intro queue hne
  cases queue with
  | nil => exact absurd rfl hne
  | cons top rest => exact ⟨top, rest, rfl, List.Perm.refl _⟩

theorem dequeueBack_discipline : DequeueDiscipline dequeueBack := by
  intro queue hne
  cases queue with
  | nil => exact absurd rfl hne
  | cons top rest =>
    refine ⟨_, _, rfl, ?_⟩
    have h := List.dropLast_append_getLast (List.cons_ne_nil top rest)
    calc (top :: rest).Perm ((top :: rest).dropLast ++ [(top :: rest).getLast (List.cons_ne_nil top rest)]) := by
          rw [h]
      _ |>.Perm _ := List.perm_append_comm

theorem markLoopWith_invariant (dequeue : MarkQueue → Option (ObjHeader × MarkQueue))
    (G : ObjectGraph) (Inv : List ObjHeader → MarkState → Prop)
    (hstep : ∀ D q c top rest, q ≠ [] → dequeue q = some (top, rest) →
      Inv D { markQueue := q, color := c } →
      Inv (D ++ [top]) (markObject G { markQueue := rest, color := c } top)) :
    ∀ (fuel : Nat) (stats : MarkStats) (m : MarkState) (D : List ObjHeader)
      (r : MarkStats × MarkState),
      Inv D m → markLoopWith dequeue G fuel stats m = some r →
      ∃ E, Inv (D ++ E) r.2 ∧ r.2.markQueue = [] ∧
        r.1.aliveHeapSet = stats.aliveHeapSet + E.length ∧
        r.1.aliveHeapSetBytes = stats.aliveHeapSetBytes + (E.map G.allocatedHeapSize).sum := by
  intro fuel
  induction fuel with
  | zero => intro stats m D r _ h; simp [markLoopWith] at h
  | succ n ih =>
    intro stats m D r hinv h
    rcases m with ⟨q, c⟩
    cases q with
    | nil =>
      simp only [markLoopWith, MarkTraits.isEmpty, List.isEmpty, if_true, Option.some.injEq] at h
      subst h
      exact ⟨[], by simpa using hinv, rfl, by simp, by simp⟩
    | cons x xs =>
      simp only [markLoopWith, MarkTraits.isEmpty, List.isEmpty, Bool.false_eq_true, if_false] at h
      cases hd : dequeue (x :: xs) with
      | none => rw [hd] at h; simp at h
      | some pr =>
        obtain ⟨top, rest⟩ := pr
        rw [hd] at h
        simp only at h
        obtain ⟨E, hE, hq, ha, hb⟩ := ih _ _ (D ++ [top]) r (hstep D _ c top rest (List.cons_ne_nil x xs) hd hinv) h
        dsimp only at ha hb
        refine ⟨top :: E, by simpa using hE, hq, ?_, ?_⟩
        · rw [ha]; simp; omega
        · rw [hb]; simp; omega

theorem markLoopWith_terminates (dequeue : MarkQueue → Option (ObjHeader × MarkQueue))
    (hd : DequeueDiscipline dequeue)
    (G : ObjectGraph) (Inv : List ObjHeader → MarkState → Prop)
    (hstep : ∀ D q c top rest, q ≠ [] → dequeue q = some (top, rest) →
      Inv D { markQueue := q, color := c } →
      Inv (D ++ [top]) (markObject G { markQueue := rest, color := c } top))
    (bound : Nat) (hbound : ∀ D m, Inv D m → (D ++ m.markQueue).length ≤ bound) :
    ∀ (fuel : Nat) (stats : MarkStats) (m : MarkState) (D : List ObjHeader),
      Inv D m → bound < fuel + D.length → ∃ r, markLoopWith dequeue G fuel stats m = some r := by
  intro fuel
  induction fuel with
  | zero =>
    intro stats m D hinv hlt
    have := hbound D m hinv
    simp at this hlt
    omega
  | succ n ih =>
    intro stats m D hinv hlt
    rcases m with ⟨q, c⟩
    cases q with
    | nil =>
      exact ⟨(stats, { markQueue := [], color := c }), by simp [markLoopWith, MarkTraits.isEmpty]⟩
    | cons x xs =>
      obtain ⟨top, rest, hdq, _⟩ := hd (x :: xs) (List.cons_ne_nil x xs)
      simp only [markLoopWith, MarkTraits.isEmpty, List.isEmpty, Bool.false_eq_true, if_false, hdq]
      apply ih _ _ (D ++ [top]) (hstep D _ c top rest (List.cons_ne_nil x xs) hdq hinv)
      simp; omega

theorem pushed_enqueueAll {G : ObjectGraph} {c0 : Colors} {Q0 D : List ObjHeader}
    (l : List ObjHeader) :
    ∀ (N : List ObjHeader) (m : MarkState), Pushed G c0 Q0 D N m →
      (∀ p, p ∈ l → c0 p = Color.kWhite → WhiteReach G c0 Q0 p) →
      ∃ N', Pushed G c0 Q0 D N' (enqueueAll m l) := by
  induction l with
  | nil => intro N m h _; exact ⟨N, h⟩
  | cons p rest ih =>
    intro N m h hr
    rw [enqueueAll_cons]
    have hrest : ∀ x, x ∈ rest → c0 x = Color.kWhite → WhiteReach G c0 Q0 x :=
      fun x hx => hr x (List.mem_cons_of_mem _ hx)
    rcases color_cases (m.color p) with hw | hb
    · have hc0 : c0 p = Color.kWhite := by
        rcases color_cases (c0 p) with h0 | h0
        · exact h0
        · have := h.mono p h0
          rw [hw] at this
          exact absurd this (by simp)
      have hnot : p ∉ N := by
        intro hp
        have := ((h.mem_iff p).1 hp).2
        rw [hw] at this
        exact absurd this (by simp)
      apply ih (p :: N) _ ?_ hrest
      rw [enqueue_of_white m p hw]
      refine ⟨?_, List.nodup_cons.2 ⟨hnot, h.nodup⟩, ?_, ?_, ?_⟩
      · show (D ++ p :: m.markQueue).Perm (Q0 ++ p :: N)
        exact (List.perm_middle.trans (List.Perm.cons p h.perm)).trans List.perm_middle.symm
      · intro o
        show o ∈ p :: N ↔ (c0 o = Color.kWhite ∧ Function.update m.color p Color.kBlack o = Color.kBlack)
        by_cases hop : o = p
        · subst hop; simp [hc0]
        · simp only [List.mem_cons, hop, false_or, Function.update_noteq hop]
          exact h.mem_iff o
      · intro o ho
        show Function.update m.color p Color.kBlack o = Color.kBlack
        by_cases hop : o = p
        · subst hop; simp
        · rw [Function.update_noteq hop]; exact h.mono o ho
      · intro o ho
        rcases List.mem_cons.1 ho with rfl | ho
        · exact hr _ (List.mem_cons_self _ _) hc0
        · exact h.reach o ho
    · rw [enqueue_of_black m p hb]
      exact ih N m h hrest

theorem pushedClosed_step {G : ObjectGraph} {c0 : Colors} {Q0 : List ObjHeader}
    (dequeue : MarkQueue → Option (ObjHeader × MarkQueue)) (hd : DequeueDiscipline dequeue)
    (D : List ObjHeader) (q : MarkQueue) (c : Colors) (top : ObjHeader) (rest : MarkQueue)
    (hne : q ≠ []) (hdq : dequeue q = some (top, rest))
    (h : PushedClosed G c0 Q0 D { markQueue := q, color := c }) :
    PushedClosed G c0 Q0 (D ++ [top]) (markObject G { markQueue := rest, color := c } top) := by
  obtain ⟨N, hp, hc⟩ := h
  have hperm : q.Perm (top :: rest) := by
    obtain ⟨t, r, e, p⟩ := hd q hne
    rw [hdq] at e
    simp only [Option.some.injEq, Prod.mk.injEq] at e
    rw [e.1, e.2]; exact p
  have hp1 : Pushed G c0 Q0 (D ++ [top]) N { markQueue := rest, color := c } := by
    refine ⟨?_, hp.nodup, hp.mem_iff, hp.mono, hp.reach⟩
    show ((D ++ [top]) ++ rest).Perm (Q0 ++ N)
    have h1 : ((D ++ [top]) ++ rest).Perm (D ++ q) := by
      rw [List.append_assoc]
      exact List.Perm.append_left D hperm.symm
    exact h1.trans hp.perm
  have htop : top ∈ Q0 ++ N := by
    apply hp.perm.subset
    exact List.mem_append_right _ (hperm.symm.subset (List.mem_cons_self _ _))
  have hreach : ∀ p, p ∈ markTargets G top → c0 p = Color.kWhite → WhiteReach G c0 Q0 p := by
    intro p hpt hw
    rcases List.mem_append.1 htop with hq | hn
    · exact ⟨top, hq, Relation.TransGen.single ⟨hpt, hw⟩⟩
    · obtain ⟨q0, hq0, ht⟩ := hp.reach top hn
      exact ⟨q0, hq0, Relation.TransGen.tail ht ⟨hpt, hw⟩⟩
  rw [markObject_eq]
  obtain ⟨N', hN'⟩ := pushed_enqueueAll (markTargets G top) N _ hp1 hreach
  refine ⟨N', hN', ?_⟩
  intro o ho p hpt
  rcases List.mem_append.1 ho with ho | ho
  · exact enqueueAll_color_mono _ _ _ (hc o ho p hpt)
  · rw [List.mem_singleton] at ho
    subst ho
    exact (enqueueAll_color_black_iff _ _ _).2 (Or.inr hpt)

theorem pushedClosed_init (G : ObjectGraph) (s : MarkState) :
    PushedClosed G s.color s.markQueue [] s := by
  refine ⟨[], ⟨by simp, List.nodup_nil, ?_, fun _ h => h, fun o ho => by simp at ho⟩, ?_⟩
  · intro o
    simp only [List.not_mem_nil, false_iff, not_and]
    intro hw hb
    rw [hw] at hb
    exact absurd hb (by simp)
  · intro o ho; simp at ho

theorem whiteReach_target {G : ObjectGraph} {c0 : Colors} {Q0 : List ObjHeader} {o : ObjHeader}
    (h : WhiteReach G c0 Q0 o) : c0 o = Color.kWhite ∧ ∃ a, o ∈ markTargets G a := by
  obtain ⟨q, _, ht⟩ := h
  cases ht with
  | single h1 => exact ⟨h1.2, _, h1.1⟩
  | tail _ h1 => exact ⟨h1.2, _, h1.1⟩

theorem pushed_final {G : ObjectGraph} {c0 : Colors} {Q0 D N : List ObjHeader} {m : MarkState}
    (hp : Pushed G c0 Q0 D N m) (hc : Closed G D m) (hq : m.markQueue = []) :
    ∀ o, o ∈ N ↔ WhiteReach G c0 Q0 o := by
  have hD : ∀ x, x ∈ Q0 ++ N → x ∈ D := by
    intro x hx
    have := hp.perm.symm.subset hx
    rw [hq, List.append_nil] at this
    exact this
  intro o
  constructor
  · exact hp.reach o
  · rintro ⟨q, hq0, ht⟩
    have key : ∀ a b, a ∈ D → b ∈ markTargets G a → c0 b = Color.kWhite → b ∈ N :=
      fun a b ha hb hw => (hp.mem_iff b).2 ⟨hw, hc a ha b hb⟩
    induction ht with
    | single h1 => exact key _ _ (hD _ (List.mem_append_left _ hq0)) h1.1 h1.2
    | tail _ h1 ih => exact key _ _ (hD _ (List.mem_append_right _ ih)) h1.1 h1.2

theorem pushed_color {G : ObjectGraph} {c0 : Colors} {Q0 D N : List ObjHeader} {m : MarkState}
    (hp : Pushed G c0 Q0 D N m) (o : ObjHeader) :
    m.color o = Color.kBlack ↔ (c0 o = Color.kBlack ∨ o ∈ N) := by
  constructor
  · intro hb
    rcases color_cases (c0 o) with hw | h0
    · exact Or.inr ((hp.mem_iff o).2 ⟨hw, hb⟩)
    · exact Or.inl h0
  · rintro (h0 | hn)
    · exact hp.mono o h0
    · exact ((hp.mem_iff o).1 hn).2

theorem pushed_length_le {G : ObjectGraph} {c0 : Colors} {Q0 D N : List ObjHeader} {m : MarkState}
    (hp : Pushed G c0 Q0 D N m) (objects : List ObjHeader)
    (hfin : ∀ o p, p ∈ markTargets G o → p ∈ objects) :
    (D ++ m.markQueue).length ≤ Q0.length + objects.length := by
  rw [hp.perm.length_eq, List.length_append]
  have : N.length ≤ objects.length := by
    apply (List.subperm_of_subset hp.nodup ?_).length_le
    intro o ho
    obtain ⟨_, a, ha⟩ := whiteReach_target (hp.reach o ho)
    exact hfin a o ha
  omega

/-- One run of `Mark` under a queue discipline: with enough fuel it returns with
an empty queue, the objects it turned Black are those reached from the queue
through White objects, and its statistics count the queue and those objects. -/
theorem markWith_run (dequeue : MarkQueue → Option (ObjHeader × MarkQueue))
    (hd : DequeueDiscipline dequeue) (G : ObjectGraph) (objects : List ObjHeader)
    (hfin : ∀ o p, p ∈ markTargets G o → p ∈ objects) (s : MarkState) (fuel : Nat)
    (hfuel : s.markQueue.length + objects.length < fuel) :
    ∃ (r : MarkStats × MarkState) (E N : List ObjHeader), MarkWith dequeue G fuel s = some r ∧ r.2.markQueue = [] ∧
      E.Perm (s.markQueue ++ N) ∧ N.Nodup ∧
      (∀ o, o ∈ N ↔ WhiteReach G s.color s.markQueue o) ∧
      (∀ o, r.2.color o = Color.kBlack ↔ (s.color o = Color.kBlack ∨ o ∈ N)) ∧
      r.1.aliveHeapSet = E.length ∧
      r.1.aliveHeapSetBytes = (E.map G.allocatedHeapSize).sum := by
  have hstep := fun D q c top rest hne hdq h =>
    @pushedClosed_step G s.color s.markQueue dequeue hd D q c top rest hne hdq h
  obtain ⟨r, hr⟩ := markLoopWith_terminates dequeue hd G (PushedClosed G s.color s.markQueue)
    hstep (s.markQueue.length + objects.length)
    (fun D m ⟨N, hp, _⟩ => pushed_length_le hp objects hfin)
    fuel {} s [] (pushedClosed_init G s) (by simpa using hfuel)
  obtain ⟨E, ⟨N, hp, hc⟩, hq, ha, hb⟩ := markLoopWith_invariant dequeue G
    (PushedClosed G s.color s.markQueue) hstep fuel {} s [] r (pushedClosed_init G s) hr
  refine ⟨r, E, N, hr, hq, ?_, hp.nodup, pushed_final hp hc hq, pushed_color hp, ?_, ?_⟩
  · have := hp.perm
    rw [hq] at this
    simpa using this
  · simpa using ha
  · simpa using hb

theorem example_targets : ∀ o p, p ∈ markTargets exampleGraph o → p ∈ exampleFactory := by
  intro o p hp
  rcases (mem_markTargets_iff exampleGraph o p).1 hp with ⟨_, _, hh⟩ | ⟨e, he, hw, _⟩
  · exact (example_factory p).1 hh
  · simp only [exampleGraph] at he
    split at he
    · simp only [Option.some.injEq] at he
      subst he
      subst hw
      decide
    · exact absurd he (by simp)

/-- Claim C13: for an object graph whose marking targets lie in a finite list,
every colouring and every initial queue, `Mark` returns under any two queue
disciplines once the fuel exceeds the length of the queue plus that of the
list, with the same statistics, the same colour of every object and an empty
queue. The loop of the source is the one with `MarkTraits::dequeue`, which is
such a discipline, as is first-in-first-out; and after `enqueue` of a White
object `MarkTraits::dequeue` returns that object and the queue as it was. -/
theorem mark_insensitive_to_queue_order (G : ObjectGraph) (objects : List ObjHeader)
    (s : MarkState) (fuel : Nat)
    (dequeue1 dequeue2 : MarkQueue → Option (ObjHeader × MarkQueue))
    (h1 : DequeueDiscipline dequeue1) (h2 : DequeueDiscipline dequeue2)
    (hfin : ∀ o p, p ∈ markTargets G o → p ∈ objects)
    (hfuel : s.markQueue.length + objects.length < fuel) :
    (∃ (stats : MarkStats) (m1 m2 : MarkState),
      MarkWith dequeue1 G fuel s = some (stats, m1) ∧
      MarkWith dequeue2 G fuel s = some (stats, m2) ∧
      (∀ o, m1.color o = m2.color o) ∧ m1.markQueue = [] ∧ m2.markQueue = []) ∧
    (∀ (fuel0 : Nat) (s0 : MarkState), Mark G fuel0 s0 = MarkWith MarkTraits.dequeue G fuel0 s0) ∧
    DequeueDiscipline MarkTraits.dequeue ∧ DequeueDiscipline dequeueBack ∧
    (∀ (t : MarkState) (o : ObjHeader), t.color o = Color.kWhite →
      MarkTraits.dequeue (MarkTraits.enqueue t o).markQueue = some (o, t.markQueue)) := by
  refine ⟨?_, fun fuel0 s0 => markLoop_eq_markLoopWith G fuel0 {} s0, dequeue_discipline,
    dequeueBack_discipline, ?_⟩
  · obtain ⟨r1, E1, N1, hr1, hq1, hp1, hn1, hm1, hc1, ha1, hb1⟩ :=
      markWith_run dequeue1 h1 G objects hfin s fuel hfuel
    obtain ⟨r2, E2, N2, hr2, hq2, hp2, hn2, hm2, hc2, ha2, hb2⟩ :=
      markWith_run dequeue2 h2 G objects hfin s fuel hfuel
    have hN : N1.Perm N2 :=
      (List.perm_ext_iff_of_nodup hn1 hn2).2 (fun o => (hm1 o).trans (hm2 o).symm)
    have hE : E1.Perm E2 := (hp1.trans (List.Perm.append_left _ hN)).trans hp2.symm
    have hstats : r1.1 = r2.1 := by
      have ha : r1.1.aliveHeapSet = r2.1.aliveHeapSet := by
        rw [ha1, ha2, hE.length_eq]
      have hb : r1.1.aliveHeapSetBytes = r2.1.aliveHeapSetBytes := by
        rw [hb1, hb2]
        exact (hE.map G.allocatedHeapSize).sum_eq
      rcases r1 with ⟨⟨a1, b1⟩, m1⟩
      rcases r2 with ⟨⟨a2, b2⟩, m2⟩
      simp only at ha hb
      rw [ha, hb]
    refine ⟨r1.1, r1.2, r2.2, hr1, ?_, ?_, hq1, hq2⟩
    · rw [hr2, hstats]
    · intro o
      have e1 := hc1 o
      have e2 := hc2 o
      have hmem : o ∈ N1 ↔ o ∈ N2 := (hm1 o).trans (hm2 o).symm
      rcases color_cases (r1.2.color o) with w1 | b1
      · rcases color_cases (r2.2.color o) with w2 | b2
        · rw [w1, w2]
        · have := e1.2 (by rcases e2.1 b2 with h | h; exact Or.inl h; exact Or.inr (hmem.2 h))
          rw [this, b2]
      · have := e2.2 (by rcases e1.1 b1 with h | h; exact Or.inl h; exact Or.inr (hmem.1 h))
        rw [this, b1]
  · intro t o hw
    rw [enqueue_of_white t o hw]
    rfl

/-- Claim C13 on the example heap: last-in-first-out and first-in-first-out
from the queue of 13 and 11 with every node White. -/
theorem mark_insensitive_to_queue_order_witness :
    (∃ (stats : MarkStats) (m1 m2 : MarkState),
      MarkWith MarkTraits.dequeue exampleGraph 9 exampleQueued = some (stats, m1) ∧
      MarkWith dequeueBack exampleGraph 9 exampleQueued = some (stats, m2) ∧
      (∀ o, m1.color o = m2.color o) ∧ m1.markQueue = [] ∧ m2.markQueue = []) ∧
    (∀ (fuel0 : Nat) (s0 : MarkState),
      Mark exampleGraph fuel0 s0 = MarkWith MarkTraits.dequeue exampleGraph fuel0 s0) ∧
    DequeueDiscipline MarkTraits.dequeue ∧ DequeueDiscipline dequeueBack ∧
    (∀ (t : MarkState) (o : ObjHeader), t.color o = Color.kWhite →
      MarkTraits.dequeue (MarkTraits.enqueue t o).markQueue = some (o, t.markQueue)) :=
  mark_insensitive_to_queue_order exampleGraph exampleFactory exampleQueued 9
    MarkTraits.dequeue dequeueBack dequeue_discipline dequeueBack_discipline example_targets
    (by decide)

theorem statByEpoch_last {st : GCStatistics} {epoch : Nat} (hc : st.current.epoch ≠ some epoch)
    (hl : st.last.epoch = some epoch) : statByEpoch st epoch = some StatRef.last := by
  simp [statByEpoch, hc, hl]

theorem statByEpoch_none {st : GCStatistics} {epoch : Nat} (hc : st.current.epoch ≠ some epoch)
    (hl : st.last.epoch ≠ some epoch) : statByEpoch st epoch = none := by
  simp [statByEpoch, hc, hl]

/-- An update on the handle of the current epoch changes neither the epoch nor
the start time of the current record, and leaves the last record alone. -/
theorem update_current (h : GCHandle) (call : GCHandleUpdate) (st : GCStatistics)
    (hcur : st.current.epoch = some h.epoch) :
    (h.update call st).current.epoch = st.current.epoch ∧
    (h.update call st).current.startTime = st.current.startTime ∧
    (h.update call st).last = st.last := by
  cases call <;>
    simp [GCHandle.update, GCHandle.suspensionRequested, GCHandle.threadsAreSuspended,
      GCHandle.threadsAreResumed, GCHandle.finalizersDone, GCHandle.finalizersScheduled,
      GCHandle.threadRootSet, GCHandle.globalRootSet, GCHandle.heapUsageBefore,
      GCHandle.heapUsageAfter, GCHandle.extraObjectsUsageBefore, GCHandle.extraObjectsUsageAfter,
      statByEpoch_current hcur, GCStatistics.get, GCStatistics.set]

/-- An update on a handle whose epoch is not that of the last record leaves
the last record alone. -/
theorem update_last_of_ne (h : GCHandle) (call : GCHandleUpdate) (st : GCStatistics)
    (hl : st.last.epoch ≠ some h.epoch) : (h.update call st).last = st.last := by
  by_cases hc : st.current.epoch = some h.epoch
  · exact (update_current h call st hc).2.2
  · cases call <;>
      simp [GCHandle.update, GCHandle.suspensionRequested, GCHandle.threadsAreSuspended,
        GCHandle.threadsAreResumed, GCHandle.finalizersDone, GCHandle.finalizersScheduled,
        GCHandle.threadRootSet, GCHandle.globalRootSet, GCHandle.heapUsageBefore,
        GCHandle.heapUsageAfter, GCHandle.extraObjectsUsageBefore,
        GCHandle.extraObjectsUsageAfter, statByEpoch_none hc hl]

theorem foldl_update_current (h : GCHandle) (updates : List GCHandleUpdate) :
    ∀ st : GCStatistics, st.current.epoch = some h.epoch →
      (updates.foldl (fun s call => h.update call s) st).current.epoch = some h.epoch ∧
      (updates.foldl (fun s call => h.update call s) st).current.startTime
        = st.current.startTime ∧
      (updates.foldl (fun s call => h.update call s) st).last = st.last := by
  induction updates with
  | nil => intro st hst; exact ⟨hst, rfl, rfl⟩
  | cons c rest ih =>
    intro st hst
    rw [List.foldl_cons]
    obtain ⟨h1, h2, h3⟩ := update_current h c st hst
    obtain ⟨g1, g2, g3⟩ := ih (h.update c st) (h1.trans hst)
    exact ⟨g1, g2.trans h2, g3.trans h3⟩

theorem finish_current (h : GCHandle) (now : KLong) (st : GCStatistics)
    (hcur : st.current.epoch = some h.epoch) :
    h.finish now st = { last := { st.current with endTime := some now }, current := {} } := by
  simp [GCHandle.finish, statByEpoch_current hcur, GCStatistics.get, GCStatistics.set]

theorem run_last_of_ne (call : StatisticsCall) (st : GCStatistics) (epoch : Nat)
    (hl : st.last.epoch = some epoch) (hne : call.epoch ≠ epoch) : (call.run st).last = st.last := by
  cases call with
  | create e now => rfl
  | update e c =>
    apply update_last_of_ne
    rw [hl]
    intro h
    exact hne (Option.some.inj h).symm

theorem foldl_run_last_of_ne (epoch : Nat) (calls : List StatisticsCall) :
    ∀ st : GCStatistics, st.last.epoch = some epoch → (∀ call, call ∈ calls → call.epoch ≠ epoch) →
      (calls.foldl (fun s call => call.run s) st).last = st.last := by
  induction calls with
  | nil => intro st _ _; rfl
  | cons c rest ih =>
    intro st hl hne
    rw [List.foldl_cons]
    have h1 := run_last_of_ne c st epoch hl (hne c (List.mem_cons_self _ _))
    rw [ih (c.run st) (by rw [h1]; exact hl) (fun call hc => hne call (List.mem_cons_of_mem _ hc)), h1]

/-- Claim C14: for every statistics state and epoch `e`, after
`GCHandle::create(e)` the current record has epoch `e` and its start time is
populated, and they stay so through any update calls on the handle. After
`finish` on the handle the last record is the current record as it was, with
its end time populated, and the current record has no populated field. From
then on the last record is unchanged by `create` and update calls for other
epochs, and a `finish` for another epoch replaces it exactly when that epoch
is the current one. -/
theorem gcInfo_lifecycle (st : GCStatistics) (e : Nat) (now : KLong) :
    ((GCHandle.create e now st).1 = GCHandle.getByEpoch e ∧
      (GCHandle.create e now st).2.current.epoch = some e ∧
      (GCHandle.create e now st).2.current.startTime = some now) ∧
    (∀ (updates : List GCHandleUpdate) (finishTime : KLong),
      (updates.foldl (fun s call => (GCHandle.getByEpoch e).update call s)
          (GCHandle.create e now st).2).current.epoch = some e ∧
      (updates.foldl (fun s call => (GCHandle.getByEpoch e).update call s)
          (GCHandle.create e now st).2).current.startTime = some now ∧
      (GCHandle.getByEpoch e).finish finishTime
          (updates.foldl (fun s call => (GCHandle.getByEpoch e).update call s)
            (GCHandle.create e now st).2)
        = { last := { (updates.foldl (fun s call => (GCHandle.getByEpoch e).update call s)
                        (GCHandle.create e now st).2).current with endTime := some finishTime },
            current := {} }) ∧
    (∀ (after : GCStatistics) (calls : List StatisticsCall), after.last.epoch = some e →
      (∀ call, call ∈ calls → call.epoch ≠ e) →
      (calls.foldl (fun s call => call.run s) after).last = after.last) ∧
    (∀ (after : GCStatistics) (e' : Nat) (finishTime : KLong), after.last.epoch = some e →
      e' ≠ e →
      ((GCHandle.getByEpoch e').finish finishTime after).last
        = if after.current.epoch = some e' then
            { after.current with endTime := some finishTime }
          else after.last) := by
  refine ⟨⟨rfl, rfl, rfl⟩, ?_, ?_, ?_⟩
  · intro updates finishTime
    obtain ⟨h1, h2, _⟩ := foldl_update_current (GCHandle.getByEpoch e) updates
      (GCHandle.create e now st).2 rfl
    exact ⟨h1, h2, finish_current (GCHandle.getByEpoch e) finishTime _ h1⟩
  · intro after calls hl hne
    exact foldl_run_last_of_ne e calls after hl hne
  · intro after e' finishTime hl hne
    by_cases hc : after.current.epoch = some e'
    · rw [finish_current (GCHandle.getByEpoch e') finishTime after hc, if_pos hc]
    · have hl' : after.last.epoch ≠ some (GCHandle.getByEpoch e').epoch := by
        rw [hl]; intro h; exact hne (Option.some.inj h).symm
      have hnone : statByEpoch after (GCHandle.getByEpoch e').epoch = none :=
        statByEpoch_none hc hl'
      rw [if_neg hc]
      simp [GCHandle.finish, hnone]

/-- Claim C16: for every statistics state and epoch `e`, after
`GCHandle::create(e)`, `finish` on that handle and `finalizersDone` on
`GCHandle::getByEpoch(e)`, the record of epoch `e` is the last record and its
finalizers-done time is populated with the time of the call; the other fields
are those the record had at `finish`. -/
theorem finalizers_done_time_recorded (st : GCStatistics) (e : Nat)
    (now finishTime doneTime : KLong) :
    statByEpoch ((GCHandle.create e now st).1.finish finishTime (GCHandle.create e now st).2) e
      = some StatRef.last ∧
    ((GCHandle.getByEpoch e).finalizersDone doneTime
      ((GCHandle.create e now st).1.finish finishTime (GCHandle.create e now st).2)).last.epoch
      = some e ∧
    ((GCHandle.getByEpoch e).finalizersDone doneTime
      ((GCHandle.create e now st).1.finish finishTime (GCHandle.create e now st).2)).last.finalizersDoneTime
      = some doneTime ∧
    ((GCHandle.getByEpoch e).finalizersDone doneTime
      ((GCHandle.create e now st).1.finish finishTime (GCHandle.create e now st).2)).last
      = { { st.current with epoch := some e, startTime := some now } with
          endTime := some finishTime, finalizersDoneTime := some doneTime } := by
  have hfin : (GCHandle.create e now st).1.finish finishTime (GCHandle.create e now st).2
      = { last := { (GCHandle.create e now st).2.current with endTime := some finishTime },
          current := {} } :=
    finish_current _ finishTime _ rfl
  rw [hfin]
  simp [GCHandle.finalizersDone, statByEpoch, GCHandle.getByEpoch, GCHandle.create,
    GCStatistics.get, GCStatistics.set]

theorem mem_callIfPopulated {α : Type} (field : Option α) (call : α → BuilderCall)
    (c : BuilderCall) : c ∈ callIfPopulated field call ↔ ∃ v, field = some v ∧ c = call v := by
  cases field <;> simp [callIfPopulated]

theorem length_callIfPopulated {α : Type} (field : Option α) (call : α → BuilderCall) :
    (callIfPopulated field call).length = field.toList.length := by
  cases field <;> simp [callIfPopulated]

/-- Claim C15: `Kotlin_Internal_GC_GCInfoBuilder_Fill` with id 0 makes the
setter calls of the last record, with id 1 those of the current record, and
with any other id none. A record whose epoch is not populated makes no call.
A record with a populated epoch calls `setEpoch` first and once, and calls each
other setter exactly for a populated field, with the stored value: the five
times, the four root-set counts in one call, and the heap and meta pools before
and after, the heap pool before the meta pool; the number of calls is one plus
the number of populated fields. -/
theorem fill_reports_populated_fields (st : GCStatistics) (info : GCInfo) :
    (Kotlin_Internal_GC_GCInfoBuilder_Fill st 0 = st.last.build ∧
      Kotlin_Internal_GC_GCInfoBuilder_Fill st 1 = st.current.build ∧
      ∀ id : Int, id ≠ 0 → id ≠ 1 → Kotlin_Internal_GC_GCInfoBuilder_Fill st id = []) ∧
    (info.epoch = none → info.build = []) ∧
    (∀ e, info.epoch = some e →
      (∃ rest, info.build = BuilderCall.setEpoch (e : Int) :: rest ∧
        ∀ v, BuilderCall.setEpoch v ∉ rest) ∧
      (∀ v, BuilderCall.setStartTime v ∈ info.build ↔ info.startTime = some v) ∧
      (∀ v, BuilderCall.setEndTime v ∈ info.build ↔ info.endTime = some v) ∧
      (∀ v, BuilderCall.setPauseStartTime v ∈ info.build ↔ info.pauseStartTime = some v) ∧
      (∀ v, BuilderCall.setPauseEndTime v ∈ info.build ↔ info.pauseEndTime = some v) ∧
      (∀ v, BuilderCall.setFinalizersDoneTime v ∈ info.build ↔
        info.finalizersDoneTime = some v) ∧
      (∀ a b c d, BuilderCall.setRootSet a b c d ∈ info.build ↔
        info.rootSet = some { threadLocalReferences := a, stackReferences := b,
                              globalReferences := c, stableReferences := d }) ∧
      (∀ name n size, BuilderCall.setMemoryUsageBefore name n size ∈ info.build ↔
        (name = "heap" ∧ info.memoryUsageBefore.heap
            = some { objectsCount := n, totalObjectsSize := size }) ∨
        (name = "meta" ∧ info.memoryUsageBefore.metaPool
            = some { objectsCount := n, totalObjectsSize := size })) ∧
      (∀ name n size, BuilderCall.setMemoryUsageAfter name n size ∈ info.build ↔
        (name = "heap" ∧ info.memoryUsageAfter.heap
            = some { objectsCount := n, totalObjectsSize := size }) ∨
        (name = "meta" ∧ info.memoryUsageAfter.metaPool
            = some { objectsCount := n, totalObjectsSize := size })) ∧
      info.build.length = 1 + info.startTime.toList.length + info.endTime.toList.length
        + info.pauseStartTime.toList.length + info.pauseEndTime.toList.length
        + info.finalizersDoneTime.toList.length + info.rootSet.toList.length
        + info.memoryUsageBefore.heap.toList.length + info.memoryUsageBefore.metaPool.toList.length
        + info.memoryUsageAfter.heap.toList.length + info.memoryUsageAfter.metaPool.toList.length ∧
      (∀ h m, info.memoryUsageBefore.heap = some h → info.memoryUsageBefore.metaPool = some m →
        List.Sublist
          [BuilderCall.setMemoryUsageBefore "heap" h.objectsCount h.totalObjectsSize,
           BuilderCall.setMemoryUsageBefore "meta" m.objectsCount m.totalObjectsSize]
          info.build) ∧
      (∀ h m, info.memoryUsageAfter.heap = some h → info.memoryUsageAfter.metaPool = some m →
        List.Sublist
          [BuilderCall.setMemoryUsageAfter "heap" h.objectsCount h.totalObjectsSize,
           BuilderCall.setMemoryUsageAfter "meta" m.objectsCount m.totalObjectsSize]
          info.build)) := by
  refine ⟨⟨by simp [Kotlin_Internal_GC_GCInfoBuilder_Fill],
    by simp [Kotlin_Internal_GC_GCInfoBuilder_Fill], ?_⟩, ?_, ?_⟩
  · intro id h0 h1
    simp [Kotlin_Internal_GC_GCInfoBuilder_Fill, h0, h1]
  · intro h
    simp [GCInfo.build, h]
  · intro e he
    refine ⟨?_, ?_, ?_, ?_, ?_, ?_, ?_, ?_, ?_, ?_, ?_, ?_⟩
    · refine ⟨_, by simp only [GCInfo.build, he, List.singleton_append, List.cons_append,
        List.append_assoc, List.nil_append]; rfl, ?_⟩
      intro v
      simp [mem_callIfPopulated, MemoryUsageMap.build]
    · intro v
      simp [GCInfo.build, he, mem_callIfPopulated, MemoryUsageMap.build, eq_comm]
    · intro v
      simp [GCInfo.build, he, mem_callIfPopulated, MemoryUsageMap.build, eq_comm]
    · intro v
      simp [GCInfo.build, he, mem_callIfPopulated, MemoryUsageMap.build, eq_comm]
    · intro v
      simp [GCInfo.build, he, mem_callIfPopulated, MemoryUsageMap.build, eq_comm]
    · intro v
      simp [GCInfo.build, he, mem_callIfPopulated, MemoryUsageMap.build, eq_comm]
    · intro a b c d
      simp only [GCInfo.build, he, mem_callIfPopulated, MemoryUsageMap.build, List.mem_append,
        List.mem_singleton]
      simp only [reduceCtorEq, and_false, exists_false, or_false, false_or,
        BuilderCall.setRootSet.injEq]
      constructor
      · rintro ⟨r, hr, rfl, rfl, rfl, rfl⟩
        exact hr
      · intro hr
        exact ⟨_, hr, rfl, rfl, rfl, rfl⟩
    · intro name n size
      simp only [GCInfo.build, he, mem_callIfPopulated, MemoryUsageMap.build, List.mem_append,
        List.mem_singleton]
      simp only [reduceCtorEq, and_false, exists_false, or_false, false_or,
        BuilderCall.setMemoryUsageBefore.injEq]
      constructor
      · rintro (⟨u, hu, rfl, rfl, rfl⟩ | ⟨u, hu, rfl, rfl, rfl⟩)
        · exact Or.inl ⟨rfl, hu⟩
        · exact Or.inr ⟨rfl, hu⟩
      · rintro (⟨rfl, hu⟩ | ⟨rfl, hu⟩)
        · exact Or.inl ⟨_, hu, rfl, rfl, rfl⟩
        · exact Or.inr ⟨_, hu, rfl, rfl, rfl⟩
    · intro name n size
      simp only [GCInfo.build, he, mem_callIfPopulated, MemoryUsageMap.build, List.mem_append,
        List.mem_singleton]
      simp only [reduceCtorEq, and_false, exists_false, or_false, false_or,
        BuilderCall.setMemoryUsageAfter.injEq]
      constructor
      · rintro (⟨u, hu, rfl, rfl, rfl⟩ | ⟨u, hu, rfl, rfl, rfl⟩)
        · exact Or.inl ⟨rfl, hu⟩
        · exact Or.inr ⟨rfl, hu⟩
      · rintro (⟨rfl, hu⟩ | ⟨rfl, hu⟩)
        · exact Or.inl ⟨_, hu, rfl, rfl, rfl⟩
        · exact Or.inr ⟨_, hu, rfl, rfl, rfl⟩
    · simp only [GCInfo.build, he, MemoryUsageMap.build, List.length_append, List.length_singleton,
        length_callIfPopulated]
      omega
    · intro h m hh hm
      simp only [GCInfo.build, he, MemoryUsageMap.build, hh, hm, callIfPopulated]
      refine List.Sublist.trans ?_ (List.sublist_append_left _ _)
      exact List.sublist_append_right _ _
    · intro h m hh hm
      simp only [GCInfo.build, he, MemoryUsageMap.build, hh, hm, callIfPopulated]
      exact List.sublist_append_right _ _

theorem milestones_append (a b : List DriverCall) :
    milestones (a ++ b) = milestones a ++ milestones b := by
  simp [milestones, List.filterMap_append]

theorem milestones_PerformFullGC (epoch : Nat) :
    milestones (PerformFullGC.calls epoch)
      = [Milestone.started epoch, Milestone.finished epoch] := by
  simp [milestones, PerformFullGC.calls, DriverCall.milestone, List.filterMap_cons]

theorem milestones_gcThread (scheduled : List (Option Nat)) :
    milestones (gcThread scheduled)
      = (scheduledEpochs scheduled).flatMap
          (fun epoch => [Milestone.started epoch, Milestone.finished epoch]) := by
  induction scheduled with
  | nil => simp [gcThread, scheduledEpochs, milestones]
  | cons r rest ih =>
    cases r with
    | none => simp [gcThread, scheduledEpochs, milestones, DriverCall.milestone]
    | some epoch =>
      have h : gcThread (some epoch :: rest)
          = [DriverCall.waitScheduled (some epoch)] ++ (PerformFullGC.calls epoch ++ gcThread rest) := rfl
      rw [h, milestones_append, milestones_append, milestones_PerformFullGC, ih]
      simp [milestones, DriverCall.milestone, scheduledEpochs, List.flatMap_cons]

theorem inFlightFrom_take_pairs (epochs : List Nat) :
    ∀ n : Nat, (inFlightFrom []
      (((epochs.flatMap (fun epoch => [Milestone.started epoch, Milestone.finished epoch]))).take n)).length ≤ 1 := by
  induction epochs with
  | nil => intro n; simp [inFlightFrom]
  | cons e rest ih =>
    intro n
    rcases n with _ | _ | n
    · simp [inFlightFrom]
    · simp [inFlightFrom, List.flatMap_cons]
    · have h := ih n
      simpa [inFlightFrom, List.flatMap_cons] using h

theorem getElem_pairs (epochs : List Nat) :
    ∀ i : Nat,
      (epochs.flatMap (fun epoch => [Milestone.started epoch, Milestone.finished epoch]))[2 * i]?
        = (epochs[i]?).map Milestone.started ∧
      (epochs.flatMap (fun epoch => [Milestone.started epoch, Milestone.finished epoch]))[2 * i + 1]?
        = (epochs[i]?).map Milestone.finished := by
  induction epochs with
  | nil => intro i; simp
  | cons e rest ih =>
    intro i
    cases i with
    | zero => simp [List.flatMap_cons]
    | succ i =>
      have h := ih i
      have e1 : 2 * (i + 1) = (2 * i) + 1 + 1 := by ring
      rw [e1]
      simpa [List.flatMap_cons] using h

theorem gcThread_stops (pre post : List (Option Nat)) :
    gcThread (pre ++ none :: post) = gcThread (pre ++ [none]) := by
  induction pre with
  | nil => simp [gcThread]
  | cons r rest ih =>
    cases r with
    | none => simp [gcThread]
    | some epoch => simp [gcThread, ih]

theorem scheduledEpochs_stops (pre post : List (Option Nat)) :
    ∀ e, e ∈ scheduledEpochs (pre ++ none :: post) → some e ∈ pre := by
  induction pre with
  | nil => intro e he; simp [scheduledEpochs] at he
  | cons r rest ih =>
    intro e he
    cases r with
    | none => simp [scheduledEpochs] at he
    | some epoch =>
      simp only [List.cons_append, scheduledEpochs, List.mem_cons] at he
      rcases he with rfl | he
      · simp
      · exact List.mem_cons_of_mem _ (ih e he)

/-- Claim C17: for every sequence of values returned by `waitScheduled`, the
milestone calls of the GC thread are `start(e)` then `finish(e)` for each
returned epoch in turn, up to the first absent value. So after any number of
its calls at most one epoch is started and not finished, the `finish` of an
epoch comes before the `start` of every epoch returned later, and at an absent
value the thread stops: its last call is that `waitScheduled`, it runs as if
nothing came after, and it starts only epochs returned before. -/
theorem single_collection_in_flight (scheduled : List (Option Nat)) :
    milestones (gcThread scheduled)
      = (scheduledEpochs scheduled).flatMap
          (fun epoch => [Milestone.started epoch, Milestone.finished epoch]) ∧
    (∀ n : Nat, (inFlight (milestones ((gcThread scheduled).take n))).length ≤ 1) ∧
    (∀ (i j e1 e2 : Nat), i < j →
      (scheduledEpochs scheduled)[i]? = some e1 → (scheduledEpochs scheduled)[j]? = some e2 →
      ∃ a b : Nat, a < b ∧
        (milestones (gcThread scheduled))[a]? = some (Milestone.finished e1) ∧
        (milestones (gcThread scheduled))[b]? = some (Milestone.started e2)) ∧
    (∀ (pre post : List (Option Nat)), scheduled = pre ++ none :: post →
      gcThread scheduled = gcThread (pre ++ [none]) ∧
      (gcThread scheduled).getLast? = some (DriverCall.waitScheduled none) ∧
      ∀ e, Milestone.started e ∈ milestones (gcThread scheduled) → some e ∈ pre) := by
  refine ⟨milestones_gcThread scheduled, ?_, ?_, ?_⟩
  · intro n
    have hp : milestones ((gcThread scheduled).take n) <+: milestones (gcThread scheduled) :=
      List.IsPrefix.filterMap _ (List.take_prefix n _)
    rw [List.prefix_iff_eq_take] at hp
    rw [hp, milestones_gcThread]
    exact inFlightFrom_take_pairs _ _
  · intro i j e1 e2 hij h1 h2
    refine ⟨2 * i + 1, 2 * j, by omega, ?_, ?_⟩
    · rw [milestones_gcThread, (getElem_pairs _ i).2, h1]; rfl
    · rw [milestones_gcThread, (getElem_pairs _ j).1, h2]; rfl
  · intro pre post hs
    subst hs
    refine ⟨gcThread_stops pre post, ?_, ?_⟩
    · clear * -
      induction pre with
      | nil => simp [gcThread]
      | cons r rest ih =>
        cases r with
        | none => simp [gcThread]
        | some epoch =>
          have h : gcThread (some epoch :: rest ++ none :: post)
              = (DriverCall.waitScheduled (some epoch) :: PerformFullGC.calls epoch)
                ++ gcThread (rest ++ none :: post) := rfl
          rw [h, List.getLast?_append, ih]
          rfl
    · intro e he
      rw [milestones_gcThread] at he
      simp only [List.mem_flatMap, List.mem_cons, Milestone.started.injEq, reduceCtorEq,
        List.mem_singleton, or_false, List.not_mem_nil] at he
      obtain ⟨x, hx, rfl⟩ := he
      exact scheduledEpochs_stops pre post _ hx

theorem sameRequest_schedule_fst {before state : GCStateHolder} (h : SameRequest before state) :
    state.schedule.1 = before.schedule.1 := by
  unfold GCStateHolder.schedule
  rcases h with ⟨h1, h2⟩ | ⟨h0, h1, h2⟩
  · rw [h2, h1]
    cases before.pending <;> rfl
  · rw [h2, h0]

theorem sameRequest_schedule {before state : GCStateHolder} (h : SameRequest before state) :
    SameRequest before state.schedule.2 := by
  unfold GCStateHolder.schedule
  rcases h with ⟨h1, h2⟩ | ⟨h0, h1, h2⟩
  · cases hp : before.pending with
    | none =>
      rw [hp] at h2
      rw [h2]
      exact Or.inr ⟨hp, by simp [h1], by simp [h1]⟩
    | some e =>
      rw [hp] at h2
      rw [h2]
      exact Or.inl ⟨h1, by rw [h2, hp]⟩
  · rw [h2]
    exact Or.inr ⟨h0, h1, h2⟩

theorem sameRequest_other {before state after : GCStateHolder} (call : StateCall)
    (h : SameRequest before state) (hcall : ∀ e, call ≠ StateCall.finish e)
    (hrun : call.run state = some after) : SameRequest before after := by
  have key : after.epoch = state.epoch ∧ after.pending = state.pending := by
    cases call with
    | waitScheduled =>
      simp only [StateCall.run] at hrun
      split at hrun
      · simp only [Option.some.injEq] at hrun; subst hrun; exact ⟨rfl, rfl⟩
      · exact absurd hrun (by simp)
    | start e => simp only [StateCall.run, Option.some.injEq] at hrun; subst hrun; exact ⟨rfl, rfl⟩
    | finish e => exact absurd rfl (hcall e)
    | finalized e =>
      simp only [StateCall.run, Option.some.injEq] at hrun; subst hrun; exact ⟨rfl, rfl⟩
    | shutdown => simp only [StateCall.run, Option.some.injEq] at hrun; subst hrun; exact ⟨rfl, rfl⟩
  unfold SameRequest
  rw [key.1, key.2]
  exact h

theorem run_cons (users : StateUsers) (s : StateStep) (steps : List StateStep) :
    users.run (s :: steps) = (users.step s).bind (fun next => next.run steps) := by
  simp [StateUsers.run, List.foldlM_cons]

/-- Along steps without a `finish` at most one epoch is allocated, and every
caller that schedules holds the epoch that `schedule` returned first. -/
theorem run_without_finish (before : GCStateHolder) (steps : List StateStep) :
    ∀ (users final : StateUsers),
      (∀ e, StateStep.other (StateCall.finish e) ∉ steps) →
      users.run steps = some final →
      SameRequest before users.state →
      SameRequest before final.state ∧
      ∀ c, (StateStep.callerSchedules c ∈ steps ∨
            users.scheduled_epoch c = some before.schedule.1) →
        final.scheduled_epoch c = some before.schedule.1 := by
  induction steps with
  | nil =>
    intro users final _ hrun hsame
    simp only [StateUsers.run, List.foldlM_nil] at hrun
    have : users = final := by simpa using hrun
    subst this
    exact ⟨hsame, fun c hc => by simpa using hc⟩
  | cons s rest ih =>
    intro users final hno hrun hsame
    rw [run_cons] at hrun
    have hno' : ∀ e, StateStep.other (StateCall.finish e) ∉ rest :=
      fun e he => hno e (List.mem_cons_of_mem _ he)
    cases hs : users.step s with
    | none => rw [hs] at hrun; simp at hrun
    | some next =>
      rw [hs] at hrun
      change next.run rest = some final at hrun
      cases s with
      | callerSchedules caller =>
        simp only [StateUsers.step, Option.some.injEq] at hs
        subst hs
        obtain ⟨h1, h2⟩ := ih _ final hno' hrun (sameRequest_schedule hsame)
        refine ⟨h1, ?_⟩
        intro c hc
        apply h2
        by_cases hcc : c = caller
        · right
          subst hcc
          simp [sameRequest_schedule_fst hsame]
        · rcases hc with hc | hc
          · rcases List.mem_cons.1 hc with hc | hc
            · exact absurd (by simpa using hc) hcc
            · exact Or.inl hc
          · right
            simp only [Function.update_noteq hcc]
            exact hc
      | callerReturns caller =>
        have hnext : next = users := by
          simp only [StateUsers.step] at hs
          split at hs
          · split at hs
            · simpa using hs.symm
            · exact absurd hs (by simp)
          · exact absurd hs (by simp)
        subst hnext
        obtain ⟨h1, h2⟩ := ih _ final hno' hrun hsame
        refine ⟨h1, ?_⟩
        intro c hc
        apply h2
        rcases hc with hc | hc
        · rcases List.mem_cons.1 hc with hc | hc
          · exact absurd hc (by simp)
          · exact Or.inl hc
        · exact Or.inr hc
      | other call =>
        simp only [StateUsers.step] at hs
        cases hcall : call.run users.state with
        | none => rw [hcall] at hs; simp at hs
        | some state =>
          rw [hcall] at hs
          simp only [Option.some.injEq] at hs
          subst hs
          have hne : ∀ e, call ≠ StateCall.finish e := by
            intro e he
            subst he
            exact hno e (List.mem_cons_self _ _)
          obtain ⟨h1, h2⟩ := ih _ final hno' hrun (sameRequest_other call hsame hne hcall)
          refine ⟨h1, ?_⟩
          intro c hc
          apply h2
          rcases hc with hc | hc
          · rcases List.mem_cons.1 hc with hc | hc
            · exact absurd hc (by simp)
            · exact Or.inl hc
          · exact Or.inr hc

theorem run_schedules (callers : List Nat) :
    ∀ users : StateUsers, ∃ final,
      users.run (callers.map StateStep.callerSchedules) = some final := by
  induction callers with
  | nil => intro users; exact ⟨users, rfl⟩
  | cons c rest ih =>
    intro users
    rw [List.map_cons, run_cons]
    exact ih _

theorem sameRequest_epoch_le {before state : GCStateHolder} (h : SameRequest before state) :
    state.epoch ≤ before.epoch + 1 := by
  rcases h with ⟨h1, _⟩ | ⟨_, h1, _⟩ <;> omega

theorem schedule_fst_pos (state : GCStateHolder) (h : ∀ e, state.pending = some e → 1 ≤ e) :
    1 ≤ state.schedule.1 ∧ ∀ e, state.schedule.2.pending = some e → 1 ≤ e := by
  unfold GCStateHolder.schedule
  cases hp : state.pending with
  | none => simp
  | some e => simpa [hp] using h e hp

theorem finishRecorded_step (done : List StateStep) (users next : StateUsers) (s : StateStep)
    (h : FinishRecorded done users) (hs : users.step s = some next) :
    FinishRecorded (done ++ [s]) next := by
  obtain ⟨hf, hp, hc⟩ := h
  have hf' : users.state.finishedEpoch = 0 ∨
      StateStep.other (StateCall.finish users.state.finishedEpoch) ∈ done ++ [s] :=
    hf.imp id (fun h => List.mem_append_left _ h)
  cases s with
  | callerSchedules caller =>
    simp only [StateUsers.step, Option.some.injEq] at hs
    subst hs
    obtain ⟨h1, h2⟩ := schedule_fst_pos users.state hp
    refine ⟨?_, h2, ?_⟩
    · have : users.state.schedule.2.finishedEpoch = users.state.finishedEpoch := by
        unfold GCStateHolder.schedule
        cases users.state.pending <;> rfl
      simp only [this]
      exact hf'
    · intro c e he
      by_cases hcc : c = caller
      · subst hcc
        simp only [Function.update_same, Option.some.injEq] at he
        omega
      · simp only [Function.update_noteq hcc] at he
        exact hc c e he
  | callerReturns caller =>
    have hnext : next = users := by
      simp only [StateUsers.step] at hs
      split at hs
      · split at hs
        · simpa using hs.symm
        · exact absurd hs (by simp)
      · exact absurd hs (by simp)
    subst hnext
    exact ⟨hf', hp, hc⟩
  | other call =>
    simp only [StateUsers.step] at hs
    cases hcall : call.run users.state with
    | none => rw [hcall] at hs; simp at hs
    | some state =>
      rw [hcall] at hs
      simp only [Option.some.injEq] at hs
      subst hs
      refine ⟨?_, ?_, hc⟩
      · cases call with
        | waitScheduled =>
          simp only [StateCall.run] at hcall
          split at hcall
          · simp only [Option.some.injEq] at hcall; subst hcall; exact hf'
          · exact absurd hcall (by simp)
        | start e =>
          simp only [StateCall.run, Option.some.injEq] at hcall; subst hcall; exact hf'
        | finish e =>
          simp only [StateCall.run, Option.some.injEq] at hcall; subst hcall
          right
          simp [GCStateHolder.finish]
        | finalized e =>
          simp only [StateCall.run, Option.some.injEq] at hcall; subst hcall; exact hf'
        | shutdown =>
          simp only [StateCall.run, Option.some.injEq] at hcall; subst hcall; exact hf'
      · intro e he
        cases call with
        | waitScheduled =>
          simp only [StateCall.run] at hcall
          split at hcall
          · simp only [Option.some.injEq] at hcall; subst hcall; exact hp e he
          · exact absurd hcall (by simp)
        | start e1 =>
          simp only [StateCall.run, Option.some.injEq] at hcall; subst hcall; exact hp e he
        | finish e1 =>
          simp only [StateCall.run, Option.some.injEq] at hcall; subst hcall
          simp only [GCStateHolder.finish] at he
          split at he
          · exact absurd he (by simp)
          · exact hp e he
        | finalized e1 =>
          simp only [StateCall.run, Option.some.injEq] at hcall; subst hcall; exact hp e he
        | shutdown =>
          simp only [StateCall.run, Option.some.injEq] at hcall; subst hcall; exact hp e he

theorem finishRecorded_run (steps : List StateStep) :
    ∀ (done : List StateStep) (users final : StateUsers),
      FinishRecorded done users → users.run steps = some final →
      FinishRecorded (done ++ steps) final := by
  induction steps with
  | nil =>
    intro done users final h hrun
    simp only [StateUsers.run, List.foldlM_nil] at hrun
    have : users = final := by simpa using hrun
    subst this
    simpa using h
  | cons s rest ih =>
    intro done users final h hrun
    rw [run_cons] at hrun
    cases hs : users.step s with
    | none => rw [hs] at hrun; simp at hrun
    | some next =>
      rw [hs] at hrun
      change next.run rest = some final at hrun
      have := ih (done ++ [s]) next final (finishRecorded_step done users next s h hs) hrun
      simpa using this

theorem callerReturns_enabled (users final : StateUsers) (c : Nat)
    (h : users.step (StateStep.callerReturns c) = some final) :
    final = users ∧ ∃ e, users.scheduled_epoch c = some e ∧ e ≤ users.state.finishedEpoch := by
  simp only [StateUsers.step] at h
  cases he : users.scheduled_epoch c with
  | none => rw [he] at h; simp at h
  | some e =>
    rw [he] at h
    simp only at h
    split at h
    · rename_i hw
      simp only [GCStateHolder.waitEpochFinished, decide_eq_true_eq] at hw
      exact ⟨by simpa using h.symm, e, rfl, hw⟩
    · exact absurd h (by simp)

/-- Claim C18, on the epoch state modelled from the spec, for any interleaving
of the steps of mutators inside `ScheduleAndWaitFullGC` and of the calls of the
other threads. The `schedule` calls of any callers, with nothing in between,
all return the same epoch and allocate at most one. More generally, along steps
with no `finish` among them every caller that schedules receives the epoch
that the first `schedule` returns, and at most one epoch is allocated. A caller
returns only in a state whose finished epoch is at least the epoch it
scheduled, and from start-up only after a `finish` of such an epoch. -/
theorem schedule_requests_coalesce (users : StateUsers) :
    (∀ callers : List Nat, ∃ final,
      users.run (callers.map StateStep.callerSchedules) = some final ∧
      final.state.epoch ≤ users.state.epoch + 1 ∧
      ∀ c, c ∈ callers → final.scheduled_epoch c = some users.state.schedule.1) ∧
    (∀ (steps : List StateStep) (final : StateUsers),
      (∀ e, StateStep.other (StateCall.finish e) ∉ steps) → users.run steps = some final →
      final.state.epoch ≤ users.state.epoch + 1 ∧
      ∀ c, StateStep.callerSchedules c ∈ steps →
        final.scheduled_epoch c = some users.state.schedule.1) ∧
    (∀ (c : Nat) (final : StateUsers), users.step (StateStep.callerReturns c) = some final →
      ∃ e, users.scheduled_epoch c = some e ∧ e ≤ users.state.finishedEpoch) ∧
    (∀ (steps : List StateStep) (c : Nat) (final : StateUsers),
      StateUsers.initial.run (steps ++ [StateStep.callerReturns c]) = some final →
      ∃ e finished, final.scheduled_epoch c = some e ∧ e ≤ finished ∧
        StateStep.other (StateCall.finish finished) ∈ steps) := by
  have hsame : SameRequest users.state users.state := Or.inl ⟨rfl, rfl⟩
  refine ⟨?_, ?_, ?_, ?_⟩
  · intro callers
    obtain ⟨final, hfinal⟩ := run_schedules callers users
    have hno : ∀ e, StateStep.other (StateCall.finish e) ∉ callers.map StateStep.callerSchedules := by
      intro e he
      simp at he
    obtain ⟨h1, h2⟩ := run_without_finish users.state _ users final hno hfinal hsame
    refine ⟨final, hfinal, sameRequest_epoch_le h1, ?_⟩
    intro c hc
    exact h2 c (Or.inl (List.mem_map.2 ⟨c, hc, rfl⟩))
  · intro steps final hno hrun
    obtain ⟨h1, h2⟩ := run_without_finish users.state steps users final hno hrun hsame
    exact ⟨sameRequest_epoch_le h1, fun c hc => h2 c (Or.inl hc)⟩
  · intro c final h
    exact (callerReturns_enabled users final c h).2
  · intro steps c final hrun
    have happ : StateUsers.initial.run (steps ++ [StateStep.callerReturns c])
        = (StateUsers.initial.run steps).bind (fun u => u.step (StateStep.callerReturns c)) := by
      simp [StateUsers.run, List.foldlM_append]
    rw [happ] at hrun
    cases hmid : StateUsers.initial.run steps with
    | none => rw [hmid] at hrun; simp at hrun
    | some mid =>
      rw [hmid] at hrun
      change mid.step (StateStep.callerReturns c) = some final at hrun
      obtain ⟨hfm, e, he, hle⟩ := callerReturns_enabled mid final c hrun
      subst hfm
      have hinit : FinishRecorded [] StateUsers.initial :=
        ⟨Or.inl rfl, fun e he => by simp [StateUsers.initial] at he,
          fun c e he => by simp [StateUsers.initial] at he⟩
      obtain ⟨hf, _, hc⟩ := finishRecorded_run steps [] StateUsers.initial final hinit hmid
      have hpos := hc c e he
      rcases hf with hf | hf
      · omega
      · exact ⟨e, _, he, hle, by simpa using hf⟩

theorem sweepExtraObjectsLoop_append (G : ObjectGraph) (color : Colors)
    (a b : ExtraObjectsFactory) :
    sweepExtraObjectsLoop G color (a ++ b)
      = sweepExtraObjectsLoop G color a ++ sweepExtraObjectsLoop G color b := by
  induction a with
  | nil => simp [sweepExtraObjectsLoop]
  | cons e rest ih =>
    simp only [List.cons_append, sweepExtraObjectsLoop]
    split
    · split <;> simp [ih]
    · simp [ih]

theorem sweepExtraObjectsUninstalls_append (G : ObjectGraph) (color : Colors)
    (a b : ExtraObjectsFactory) :
    sweepExtraObjectsUninstalls G color (a ++ b)
      = sweepExtraObjectsUninstalls G color a ++ sweepExtraObjectsUninstalls G color b := by
  induction a with
  | nil => simp [sweepExtraObjectsUninstalls]
  | cons e rest ih =>
    simp only [List.cons_append, sweepExtraObjectsUninstalls]
    split
    · split <;> simp [ih]
    · simp [ih]

/-- Claim C19: the effect of `SweepExtraObjects` on one record `e` of the
factory, with the records `before` and `after` it. When the base object of `e`
is a White heap object and the finalizer-queue flag of `e` is clear: if `e` has
an associated object the record is kept with its weak counter cleared, its
associated object detached and the flag set, and `Uninstall` is not called for
it; otherwise the record is erased and `Uninstall` is called for it. When the
base object is not a heap object, or is Black, or the flag is set, the record
is kept as it is. The other records are swept as they are without `e`. -/
theorem sweepExtraObjects_per_record
    (ProcessDeletions : ExtraObjectsFactory → ExtraObjectsFactory)
    (G : ObjectGraph) (color : Colors) (objectFactory before after : ExtraObjectsFactory)
    (e : mm.ExtraObjectData) :
    ProcessDeletions objectFactory = before ++ e :: after →
    (G.heap e.GetBaseObject = true → color e.GetBaseObject = Color.kWhite →
      e.getFlagInFinalizerQueue = false → e.HasAssociatedObject = true →
      SweepExtraObjects ProcessDeletions G color objectFactory
        = sweepExtraObjectsLoop G color before
          ++ { e with weakReferenceCounter := 0, associatedObject := none,
                      flagInFinalizerQueue := true }
          :: sweepExtraObjectsLoop G color after ∧
      sweepExtraObjectsUninstalls G color (ProcessDeletions objectFactory)
        = sweepExtraObjectsUninstalls G color before
          ++ sweepExtraObjectsUninstalls G color after) ∧
    (G.heap e.GetBaseObject = true → color e.GetBaseObject = Color.kWhite →
      e.getFlagInFinalizerQueue = false → e.HasAssociatedObject = false →
      SweepExtraObjects ProcessDeletions G color objectFactory
        = sweepExtraObjectsLoop G color before ++ sweepExtraObjectsLoop G color after ∧
      sweepExtraObjectsUninstalls G color (ProcessDeletions objectFactory)
        = sweepExtraObjectsUninstalls G color before
          ++ e.GetBaseObject :: sweepExtraObjectsUninstalls G color after) ∧
    ((G.heap e.GetBaseObject = false ∨ color e.GetBaseObject = Color.kBlack ∨
        e.getFlagInFinalizerQueue = true) →
      SweepExtraObjects ProcessDeletions G color objectFactory
        = sweepExtraObjectsLoop G color before ++ e :: sweepExtraObjectsLoop G color after ∧
      sweepExtraObjectsUninstalls G color (ProcessDeletions objectFactory)
        = sweepExtraObjectsUninstalls G color before
          ++ sweepExtraObjectsUninstalls G color after) := by
  intro hpd
  simp only [SweepExtraObjects, hpd, sweepExtraObjectsLoop_append,
    sweepExtraObjectsUninstalls_append]
  refine ⟨?_, ?_, ?_⟩
  · intro hh hc hf ha
    simp only [mm.ExtraObjectData.GetBaseObject, mm.ExtraObjectData.getFlagInFinalizerQueue,
      mm.ExtraObjectData.HasAssociatedObject] at hh hc hf ha
    simp [sweepExtraObjectsLoop, sweepExtraObjectsUninstalls, SweepTraits.IsMarkedByExtraObject,
      mm.ExtraObjectData.GetBaseObject, mm.ExtraObjectData.getFlagInFinalizerQueue,
      mm.ExtraObjectData.HasAssociatedObject, mm.ExtraObjectData.ClearWeakReferenceCounter,
      mm.ExtraObjectData.DetachAssociatedObject, mm.ExtraObjectData.setFlagInFinalizerQueue,
      hh, hc, hf, ha]
  · intro hh hc hf ha
    simp only [mm.ExtraObjectData.GetBaseObject, mm.ExtraObjectData.getFlagInFinalizerQueue,
      mm.ExtraObjectData.HasAssociatedObject] at hh hc hf ha
    simp [sweepExtraObjectsLoop, sweepExtraObjectsUninstalls, SweepTraits.IsMarkedByExtraObject,
      mm.ExtraObjectData.GetBaseObject, mm.ExtraObjectData.getFlagInFinalizerQueue,
      mm.ExtraObjectData.HasAssociatedObject, mm.ExtraObjectData.ClearWeakReferenceCounter,
      hh, hc, hf, ha]
  · intro h
    simp only [mm.ExtraObjectData.GetBaseObject, mm.ExtraObjectData.getFlagInFinalizerQueue] at h
    rcases h with h | h | h <;>
      simp [sweepExtraObjectsLoop, sweepExtraObjectsUninstalls, SweepTraits.IsMarkedByExtraObject,
        mm.ExtraObjectData.GetBaseObject, mm.ExtraObjectData.getFlagInFinalizerQueue, h]

/-- Claim C19 on the example heap with 10 and 12 Black: the record of the White
object 13, which has an associated object, is kept with its weak counter
cleared, the object detached and the flag set; the record of the Black object
12 before it is kept as it is and the record of the White object 15 after it,
which has no associated object, is erased and uninstalled. -/
theorem sweepExtraObjects_per_record_witness :
    (SweepExtraObjects id exampleGraph exampleColors
        [exampleRecord 12 none, exampleRecord 13 (some 7), exampleRecord 15 none]
      = sweepExtraObjectsLoop exampleGraph exampleColors [exampleRecord 12 none]
        ++ { exampleRecord 13 (some 7) with weakReferenceCounter := 0, associatedObject := none,
                                             flagInFinalizerQueue := true }
        :: sweepExtraObjectsLoop exampleGraph exampleColors [exampleRecord 15 none] ∧
      sweepExtraObjectsUninstalls exampleGraph exampleColors
          (id [exampleRecord 12 none, exampleRecord 13 (some 7), exampleRecord 15 none])
        = sweepExtraObjectsUninstalls exampleGraph exampleColors [exampleRecord 12 none]
          ++ sweepExtraObjectsUninstalls exampleGraph exampleColors [exampleRecord 15 none]) ∧
    sweepExtraObjectsLoop exampleGraph exampleColors [exampleRecord 12 none]
      = [exampleRecord 12 none] ∧
    sweepExtraObjectsLoop exampleGraph exampleColors [exampleRecord 15 none] = [] ∧
    sweepExtraObjectsUninstalls exampleGraph exampleColors
        [exampleRecord 12 none, exampleRecord 13 (some 7), exampleRecord 15 none] = [15] :=
  ⟨(sweepExtraObjects_per_record id exampleGraph exampleColors
      [exampleRecord 12 none, exampleRecord 13 (some 7), exampleRecord 15 none]
      [exampleRecord 12 none] [exampleRecord 15 none] (exampleRecord 13 (some 7)) rfl).1
      (by decide) (by decide) rfl rfl,
    by decide, by decide, by decide⟩

theorem markLoop_dequeued (G : ObjectGraph) :
    ∀ (fuel : Nat) (stats : MarkStats) (s : MarkState) (r : MarkStats × MarkState),
      markLoop G fuel stats s = some r →
      r.1.aliveHeapSet = stats.aliveHeapSet + (markDequeued G fuel s).length ∧
      r.1.aliveHeapSetBytes
        = stats.aliveHeapSetBytes + ((markDequeued G fuel s).map G.allocatedHeapSize).sum := by
  intro fuel
  induction fuel with
  | zero => intro stats s r h; simp [markLoop] at h
  | succ n ih =>
    intro stats s r h
    rcases s with ⟨q, c⟩
    cases q with
    | nil =>
      simp only [markLoop, MarkTraits.isEmpty, List.isEmpty, if_true, Option.some.injEq] at h
      subst h
      simp [markDequeued, MarkTraits.isEmpty]
    | cons top rest =>
      simp only [markLoop, MarkTraits.isEmpty, List.isEmpty, MarkTraits.dequeue,
        Bool.false_eq_true, if_false] at h
      obtain ⟨h1, h2⟩ := ih _ _ r h
      dsimp only at h1 h2
      simp only [markDequeued, MarkTraits.isEmpty, List.isEmpty, MarkTraits.dequeue,
        Bool.false_eq_true, if_false, List.length_cons, List.map_cons, List.sum_cons]
      constructor
      · rw [h1]; omega
      · rw [h2]; omega

theorem markAssertions_of_heap {G : ObjectGraph} (hweak : WeakCountersOnHeap G) (top : ObjHeader)
    (hn : isNullOrMarker top = false) (hh : G.heap top = true) : markAssertions G top = true := by
  unfold markAssertions
  cases he : G.extraObjectData top with
  | none => simp [hn, hh]
  | some e =>
    cases hw : isNullOrMarker e.GetWeakReferenceCounter
    · have := hweak top e hh he hw
      simp only [mm.ExtraObjectData.GetWeakReferenceCounter] at hw ⊢
      simp [hn, hh, hw, this]
    · simp [hn, hh, hw]

theorem markTargets_valid {G : ObjectGraph} (hweak : WeakCountersOnHeap G) (top p : ObjHeader)
    (hh : G.heap top = true) (hp : p ∈ markTargets G top) :
    isNullOrMarker p = false ∧ G.heap p = true := by
  rcases (mem_markTargets_iff G top p).1 hp with ⟨_, hn, hph⟩ | ⟨e, he, hw, hn⟩
  · exact ⟨hn, hph⟩
  · subst hw; exact ⟨hn, hweak top e hh he hn⟩

theorem rootTargets_valid (G : ObjectGraph) (roots : List ObjHeader) (p : ObjHeader)
    (hp : p ∈ roots.flatMap (rootTargets G)) : isNullOrMarker p = false ∧ G.heap p = true := by
  have hroot := (heapRoot_iff_mem_rootTargets G roots p).2 hp
  refine ⟨?_, heapRoot_heap hroot⟩
  cases hroot with
  | root _ hn _ => exact hn
  | fieldOfRoot _ _ _ _ hpn _ => exact hpn

theorem markDequeued_valid {G : ObjectGraph} (hweak : WeakCountersOnHeap G) :
    ∀ (fuel : Nat) (s : MarkState),
      (∀ x, x ∈ s.markQueue → isNullOrMarker x = false ∧ G.heap x = true) →
      ∀ top, top ∈ markDequeued G fuel s → isNullOrMarker top = false ∧ G.heap top = true := by
  intro fuel
  induction fuel with
  | zero => intro s _ top ht; simp [markDequeued] at ht
  | succ n ih =>
    intro s hq top ht
    rcases s with ⟨q, c⟩
    cases q with
    | nil => simp [markDequeued, MarkTraits.isEmpty] at ht
    | cons x rest =>
      simp only [markDequeued, MarkTraits.isEmpty, List.isEmpty, MarkTraits.dequeue,
        Bool.false_eq_true, if_false, List.mem_cons] at ht
      have hx := hq x (List.mem_cons_self _ _)
      rcases ht with rfl | ht
      · exact hx
      · apply ih _ ?_ top ht
        intro y hy
        rw [markObject_eq] at hy
        obtain ⟨pushed, hpq, hp⟩ := enqueueAll_markQueue (markTargets G x)
          { markQueue := rest, color := c }
        rw [hpq, List.mem_append] at hy
        rcases hy with hy | hy
        · exact markTargets_valid hweak x y hx.2 (hp y hy).1
        · exact hq y (List.mem_cons_of_mem _ hy)

/-- Claim C20: when every weak counter of a heap object that is neither null
nor the marker is a heap object, and every object in the initial queue is a
heap object that is neither null nor the marker, every object that `Mark`
dequeues is neither null nor the marker and is a heap object, and the weak
counter it enqueues is a heap object: the conditions of the assertions of the
iteration hold. A queue produced by `collectRootSet` is such a queue. The
dequeued objects are the iterations of `Mark`: the statistics count them. -/
theorem mark_assertions_hold (G : ObjectGraph) (hweak : WeakCountersOnHeap G) :
    (∀ (s : MarkState) (fuel : Nat),
      (∀ x, x ∈ s.markQueue → isNullOrMarker x = false ∧ G.heap x = true) →
      ∀ top, top ∈ markDequeued G fuel s →
        isNullOrMarker top = false ∧ G.heap top = true ∧ markAssertions G top = true ∧
        ∀ e, G.extraObjectData top = some e →
          isNullOrMarker e.GetWeakReferenceCounter = false →
          G.heap e.GetWeakReferenceCounter = true) ∧
    (∀ (handle : GCHandle) (s : RuntimeState) (filter : mm.ThreadData → Bool)
      (threads : List mm.ThreadData) (globals : List mm.GlobalRootValue) (fuel : Nat),
      (∀ x, x ∈ (collectRootSet G handle s filter threads globals).markQueue →
        isNullOrMarker x = false ∧ G.heap x = true) ∧
      ∀ top, top ∈ markDequeued G fuel (collectRootSet G handle s filter threads globals).toMarkState →
        markAssertions G top = true) ∧
    (∀ (s : MarkState) (fuel : Nat) (stats : MarkStats) (m : MarkState),
      Mark G fuel s = some (stats, m) →
      stats.aliveHeapSet = (markDequeued G fuel s).length) := by
  refine ⟨?_, ?_, ?_⟩
  · intro s fuel hq top ht
    obtain ⟨hn, hh⟩ := markDequeued_valid hweak fuel s hq top ht
    exact ⟨hn, hh, markAssertions_of_heap hweak top hn hh, fun e he hw => hweak top e hh he hw⟩
  · intro handle s filter threads globals fuel
    have hq : ∀ x, x ∈ (collectRootSet G handle s filter threads globals).toMarkState.markQueue →
        isNullOrMarker x = false ∧ G.heap x = true := by
      intro x hx
      rw [collectRootSet_toMarkState] at hx
      obtain ⟨pushed, hpq, hp⟩ := enqueueAll_markQueue
        ((rootObjects filter threads globals).flatMap (rootTargets G))
        { markQueue := [], color := s.color }
      rw [hpq, List.append_nil] at hx
      exact rootTargets_valid G _ x (hp x hx).1
    refine ⟨hq, ?_⟩
    intro top ht
    obtain ⟨hn, hh⟩ := markDequeued_valid hweak fuel _ hq top ht
    exact markAssertions_of_heap hweak top hn hh
  · intro s fuel stats m h
    have := (markLoop_dequeued G fuel {} s (stats, m) h).1
    simpa using this

/-- Claim C20 on the example heap: the assertions hold for the four objects
that `Mark` dequeues from the queue of `collectRootSet`. -/
theorem mark_assertions_hold_witness :
    (∀ top, top ∈ markDequeued exampleGraph 7
        (collectRootSet exampleGraph (GCHandle.getByEpoch 1) allWhite (fun _ => true)
          [exampleThread] exampleGlobals).toMarkState →
        markAssertions exampleGraph top = true) ∧
    markDequeued exampleGraph 7
        (collectRootSet exampleGraph (GCHandle.getByEpoch 1) allWhite (fun _ => true)
          [exampleThread] exampleGlobals).toMarkState = [11, 12, 14, 10] :=
  ⟨((mark_assertions_hold exampleGraph example_weak).2.1 (GCHandle.getByEpoch 1) allWhite
    (fun _ => true) [exampleThread] exampleGlobals 7).2, by decide⟩

theorem markLoop_fuel_mono (G : ObjectGraph) :
    ∀ (fuel : Nat) (stats : MarkStats) (s : MarkState) (r : MarkStats × MarkState) (more : Nat),
      markLoop G fuel stats s = some r → markLoop G (fuel + more) stats s = some r := by
  intro fuel
  induction fuel with
  | zero => intro stats s r more h; simp [markLoop] at h
  | succ n ih =>
    intro stats s r more h
    have e : n + 1 + more = (n + more) + 1 := by omega
    rw [e]
    rcases s with ⟨q, c⟩
    cases q with
    | nil =>
      simp only [markLoop, MarkTraits.isEmpty, List.isEmpty, if_true] at h ⊢
      exact h
    | cons top rest =>
      simp only [markLoop, MarkTraits.isEmpty, List.isEmpty, MarkTraits.dequeue,
        Bool.false_eq_true, if_false] at h ⊢
      exact ih _ _ r more h

/-- Claim C21: for an object graph whose marking targets lie in a finite list,
cycles included, every colouring and every initial queue, the loop of `Mark`
returns with an empty queue once the fuel exceeds the length of the queue plus
that of the list, and more fuel gives the same result. The number of its
iterations is the length of the initial queue plus the number of objects it
turned from White to Black: each iteration removes one object, and `enqueue`
adds one only when it turns it Black. -/
theorem mark_terminates (G : ObjectGraph) (objects : List ObjHeader) (s : MarkState)
    (fuel : Nat) (hfin : ∀ o p, p ∈ markTargets G o → p ∈ objects)
    (hfuel : s.markQueue.length + objects.length < fuel) :
    ∃ (stats : MarkStats) (m : MarkState),
      Mark G fuel s = some (stats, m) ∧ m.markQueue = [] ∧
      (∀ more : Nat, Mark G (fuel + more) s = some (stats, m)) ∧
      ∃ turned : List ObjHeader, turned.Nodup ∧
        (∀ o, o ∈ turned ↔ (s.color o = Color.kWhite ∧ m.color o = Color.kBlack)) ∧
        (markDequeued G fuel s).length = s.markQueue.length + turned.length ∧
        turned.length ≤ objects.length := by
  obtain ⟨r, E, N, hr, hq, hp, hn, hm, hc, ha, _⟩ :=
    markWith_run MarkTraits.dequeue dequeue_discipline G objects hfin s fuel hfuel
  have hmark : Mark G fuel s = some r := by
    unfold Mark
    rw [markLoop_eq_markLoopWith]
    exact hr
  refine ⟨r.1, r.2, hmark, hq, fun more => markLoop_fuel_mono G fuel {} s r more hmark,
    N, hn, ?_, ?_, ?_⟩
  · intro o
    constructor
    · intro ho
      exact ⟨(whiteReach_target ((hm o).1 ho)).1, (hc o).2 (Or.inr ho)⟩
    · rintro ⟨hw, hb⟩
      rcases (hc o).1 hb with h | h
      · rw [hw] at h; exact absurd h (by simp)
      · exact h
  · have hd := (markLoop_dequeued G fuel {} s r hmark).1
    have hlen := hp.length_eq
    rw [List.length_append] at hlen
    rw [ha] at hd
    simp at hd
    omega
  · apply (List.subperm_of_subset hn ?_).length_le
    intro o ho
    obtain ⟨_, a, ha'⟩ := whiteReach_target ((hm o).1 ho)
    exact hfin a o ha'

/-- Claim C21 on the example heap, in which the objects 10 and 11 refer to each
other: from the queue of 13 and 11 with every node White. -/
theorem mark_terminates_witness :
    ∃ (stats : MarkStats) (m : MarkState),
      Mark exampleGraph 9 exampleQueued = some (stats, m) ∧ m.markQueue = [] ∧
      (∀ more : Nat, Mark exampleGraph (9 + more) exampleQueued = some (stats, m)) ∧
      ∃ turned : List ObjHeader, turned.Nodup ∧
        (∀ o, o ∈ turned ↔
          (exampleQueued.color o = Color.kWhite ∧ m.color o = Color.kBlack)) ∧
        (markDequeued exampleGraph 9 exampleQueued).length
          = exampleQueued.markQueue.length + turned.length ∧
        turned.length ≤ exampleFactory.length :=
  mark_terminates exampleGraph exampleFactory exampleQueued 9 example_targets (by decide)

theorem flatMap_if_filter {α β : Type} (p : α → Bool) (f : α → List β) (l : List α) :
    l.flatMap (fun a => if !p a then [] else f a) = (l.filter p).flatMap f := by
  induction l with
  | nil => rfl
  | cons a rest ih =>
    cases hp : p a
    · rw [List.flatMap_cons, List.filter_cons_of_neg (by simp [hp]), ih]
      simp [hp]
    · rw [List.flatMap_cons, List.filter_cons_of_pos hp, List.flatMap_cons, ih]
      simp [hp]

theorem collectRootSet_filter (G : ObjectGraph) (handle : GCHandle) (s : RuntimeState)
    (filter : mm.ThreadData → Bool) (threads : List mm.ThreadData)
    (globals : List mm.GlobalRootValue) :
    collectRootSet G handle s filter threads globals
      = collectRootSetGlobals G handle
          ((threads.filter filter).foldl (collectRootSetForThread G handle)
            { s with markQueue := [] })
          globals := by
  unfold collectRootSet
  simp only [MarkTraits.clear]
  rw [foldl_skip_filter
    (fun state thread => if !filter thread then state else collectRootSetForThread G handle state thread)
    filter (fun acc a h => by simp [h]) threads]
  congr 1
  apply List.foldl_ext
  intro acc a ha
  have := (List.mem_filter.1 ha).2
  simp [this]

theorem collectedThread_events (threads : List mm.ThreadData) :
    (CollectRootSetAndStartMarking.events threads).filterMap MarkingEvent.collectedThread
      = (threads.filter (fun thread => !thread.marking)).map (fun thread => thread.threadId) := by
  unfold CollectRootSetAndStartMarking.events collectRootSet.events
  rw [flatMap_if_filter]
  simp only [List.filterMap_append, List.filterMap_cons, List.filterMap_nil,
    MarkingEvent.collectedThread, List.nil_append, List.append_nil]
  induction threads.filter (fun thread => !thread.marking) with
  | nil => rfl
  | cons t rest ih =>
    rw [List.flatMap_cons, List.filterMap_append, ih]
    simp [MarkingEvent.collectedThread]

theorem collectedThread_own (threads : List mm.ThreadData) :
    (threads.flatMap OnSuspendForGC.events).filterMap MarkingEvent.collectedThread
      = (threads.filter (fun thread => thread.marking)).map (fun thread => thread.threadId) := by
  induction threads with
  | nil => rfl
  | cons t rest ih =>
    rw [List.flatMap_cons, List.filterMap_append, ih]
    cases hm : t.marking <;> simp [OnSuspendForGC.events, MarkingEvent.collectedThread, hm]

theorem foldl_collectRootSetForThread_gcInfo (G : ObjectGraph) (handle : GCHandle)
    (threads : List mm.ThreadData) :
    ∀ s : RuntimeState,
      (threads.foldl (collectRootSetForThread G handle) s).gcInfo
        = threads.foldl (reportThreadRootSet handle) s.gcInfo := by
  induction threads with
  | nil => intro s; rfl
  | cons t rest ih =>
    intro s
    rw [List.foldl_cons, List.foldl_cons, ih, collectRootSetForThread_gcInfo]
    rfl

theorem onSuspendForGC_gcInfo (G : ObjectGraph) (fuel epoch : Nat) (c next : CollectorState)
    (thread : mm.ThreadData) (hm : thread.marking = true)
    (h : OnSuspendForGC G fuel epoch c thread = some next) :
    next.gcInfo = reportThreadRootSet (GCHandle.getByEpoch epoch) c.gcInfo thread := by
  unfold OnSuspendForGC at h
  simp only [hm, Bool.not_true, Bool.false_eq_true, if_false] at h
  split at h
  · exact absurd h (by simp)
  · simp only [Option.some.injEq] at h
    subst h
    simp only [MergeMarkStats]
    rw [collectRootSetForThread_gcInfo]
    rfl

theorem foldlM_onSuspendForGC_gcInfo (G : ObjectGraph) (fuel epoch : Nat)
    (threads : List mm.ThreadData) :
    ∀ (c final : CollectorState), (∀ t, t ∈ threads → t.marking = true) →
      threads.foldlM (OnSuspendForGC G fuel epoch) c = some final →
      final.gcInfo = threads.foldl (reportThreadRootSet (GCHandle.getByEpoch epoch)) c.gcInfo := by
  induction threads with
  | nil =>
    intro c final _ h
    simp only [List.foldlM_nil] at h
    have : c = final := by simpa using h
    subst this
    rfl
  | cons t rest ih =>
    intro c final hm h
    rw [List.foldlM_cons] at h
    cases hs : OnSuspendForGC G fuel epoch c t with
    | none => rw [hs] at h; simp at h
    | some next =>
      rw [hs] at h
      change rest.foldlM (OnSuspendForGC G fuel epoch) next = some final at h
      rw [ih next final (fun x hx => hm x (List.mem_cons_of_mem _ hx)) h, List.foldl_cons,
        onSuspendForGC_gcInfo G fuel epoch c next t (hm t (List.mem_cons_self _ _)) hs]

theorem performMarking_gcInfo (G : ObjectGraph) (fuel epoch : Nat) (c final : CollectorState)
    (threads : List mm.ThreadData) (globals : List mm.GlobalRootValue)
    (before after : List mm.ThreadData)
    (hm : ∀ t, t ∈ before ++ after → t.marking = true)
    (h : performMarking G fuel epoch c threads globals before after = some final) :
    final.gcInfo
      = (before ++ after).foldl (reportThreadRootSet (GCHandle.getByEpoch epoch))
          ((GCHandle.getByEpoch epoch).globalRootSet
            (countGlobalRoots mm.GlobalRootSource.kGlobal globals)
            (countGlobalRoots mm.GlobalRootSource.kStableRef globals)
            ((threads.filter (fun thread => !thread.marking)).foldl
              (reportThreadRootSet (GCHandle.getByEpoch epoch)) c.gcInfo)) := by
  unfold performMarking at h
  simp only [] at h
  have hcollected : (CollectRootSetAndStartMarking G (GCHandle.getByEpoch epoch)
        { c with lastGCMarkStats := {} } threads globals).gcInfo
      = (GCHandle.getByEpoch epoch).globalRootSet
          (countGlobalRoots mm.GlobalRootSource.kGlobal globals)
          (countGlobalRoots mm.GlobalRootSource.kStableRef globals)
          ((threads.filter (fun thread => !thread.marking)).foldl
            (reportThreadRootSet (GCHandle.getByEpoch epoch)) c.gcInfo) := by
    unfold CollectRootSetAndStartMarking
    simp only []
    rw [collectRootSet_filter, collectRootSetGlobals_gcInfo, foldl_collectRootSetForThread_gcInfo]
  cases h1 : before.foldlM (OnSuspendForGC G fuel epoch)
      (CollectRootSetAndStartMarking G (GCHandle.getByEpoch epoch)
        { c with lastGCMarkStats := {} } threads globals) with
  | none => rw [h1] at h; simp at h
  | some c1 =>
    rw [h1] at h
    simp only at h
    have g1 := foldlM_onSuspendForGC_gcInfo G fuel epoch before _ c1
      (fun t ht => hm t (List.mem_append_left _ ht)) h1
    cases h2 : Mark G fuel c1.toMarkState with
    | none => rw [h2] at h; simp at h
    | some r =>
      obtain ⟨markStats, m⟩ := r
      rw [h2] at h
      simp only at h
      have g2 := foldlM_onSuspendForGC_gcInfo G fuel epoch after _ final
        (fun t ht => hm t (List.mem_append_right _ ht)) h
      rw [g2, List.foldl_append]
      simp only [MergeMarkStats]
      rw [g1, hcollected]

theorem foldl_report_rootSet (h : GCHandle) (threads : List mm.ThreadData) :
    ∀ st : GCStatistics, st.current.epoch = some h.epoch →
      (threads.foldl (reportThreadRootSet h) st).current.epoch = some h.epoch ∧
      (threads.foldl (reportThreadRootSet h) st).current.rootSetOrZero
        = { st.current.rootSetOrZero with
            stackReferences := st.current.rootSetOrZero.stackReferences
              + ((threads.map (fun t => countThreadRoots mm.ThreadRootSource.kStack t.rootSet)).sum : Nat),
            threadLocalReferences := st.current.rootSetOrZero.threadLocalReferences
              + ((threads.map (fun t => countThreadRoots mm.ThreadRootSource.kTLS t.rootSet)).sum : Nat) } ∧
      (st.current.rootSet = some st.current.rootSetOrZero →
        (threads.foldl (reportThreadRootSet h) st).current.rootSet
          = some (threads.foldl (reportThreadRootSet h) st).current.rootSetOrZero) := by
  induction threads with
  | nil => intro st hs; exact ⟨hs, by simp, fun h => h⟩
  | cons t rest ih =>
    intro st hs
    rw [List.foldl_cons]
    have hstep := threadRootSet_current h t.threadId
      (countThreadRoots mm.ThreadRootSource.kTLS t.rootSet)
      (countThreadRoots mm.ThreadRootSource.kStack t.rootSet) st hs
    obtain ⟨h1, h2, h3⟩ := ih (reportThreadRootSet h st t) hstep.1
    refine ⟨h1, ?_, fun _ => h3 hstep.2.2⟩
    rw [h2]
    unfold reportThreadRootSet
    rw [hstep.2.1]
    simp only [List.map_cons, List.sum_cons, Nat.cast_add]
    congr 1 <;> ring

theorem sum_filter_add_sum_filter_not {α : Type} (p : α → Bool) (f : α → Nat) (l : List α) :
    ((l.filter (fun a => !p a)).map f).sum + ((l.filter p).map f).sum = (l.map f).sum := by
  induction l with
  | nil => rfl
  | cons a rest ih =>
    cases hp : p a
    · rw [List.filter_cons_of_pos (by simp [hp]), List.filter_cons_of_neg (by simp [hp])]
      simp only [List.map_cons, List.sum_cons]
      omega
    · rw [List.filter_cons_of_neg (by simp [hp]), List.filter_cons_of_pos hp]
      simp only [List.map_cons, List.sum_cons]
      omega

/-- The root-set counts of the epoch after the marking steps: every thread of
the registry is counted once, whichever threads collect their own root set. -/
theorem performMarking_rootSet (G : ObjectGraph) (fuel epoch : Nat) (c final : CollectorState)
    (threads : List mm.ThreadData) (globals : List mm.GlobalRootValue)
    (before after : List mm.ThreadData)
    (hepoch : c.gcInfo.current.epoch = some epoch) (hfresh : c.gcInfo.current.rootSet = none)
    (hsched : (before ++ after).Perm (threads.filter (fun thread => thread.marking)))
    (h : performMarking G fuel epoch c threads globals before after = some final) :
    final.gcInfo.current.rootSet
      = some {
          threadLocalReferences :=
            (countThreadRoots mm.ThreadRootSource.kTLS
              (threads.flatMap (fun thread => thread.rootSet)) : Nat),
          stackReferences :=
            (countThreadRoots mm.ThreadRootSource.kStack
              (threads.flatMap (fun thread => thread.rootSet)) : Nat),
          globalReferences := (countGlobalRoots mm.GlobalRootSource.kGlobal globals : Nat),
          stableReferences := (countGlobalRoots mm.GlobalRootSource.kStableRef globals : Nat) } := by
  have hm : ∀ t, t ∈ before ++ after → t.marking = true := by
    intro t ht
    exact (List.mem_filter.1 (hsched.subset ht)).2
  have hcur : c.gcInfo.current.epoch = some (GCHandle.getByEpoch epoch).epoch := hepoch
  rw [performMarking_gcInfo G fuel epoch c final threads globals before after hm h]
  obtain ⟨a1, a2, _⟩ := foldl_report_rootSet (GCHandle.getByEpoch epoch)
    (threads.filter (fun thread => !thread.marking)) c.gcInfo hcur
  obtain ⟨b1, b2, b3⟩ := globalRootSet_current (GCHandle.getByEpoch epoch)
    (countGlobalRoots mm.GlobalRootSource.kGlobal globals)
    (countGlobalRoots mm.GlobalRootSource.kStableRef globals) _ a1
  obtain ⟨_, c2, c3⟩ := foldl_report_rootSet (GCHandle.getByEpoch epoch) (before ++ after) _ b1
  have hzero : c.gcInfo.current.rootSetOrZero
      = { threadLocalReferences := 0, stackReferences := 0, globalReferences := 0,
          stableReferences := 0 } := by
    simp [GCInfo.rootSetOrZero, hfresh]
  have hstack := sum_filter_add_sum_filter_not (fun t : mm.ThreadData => t.marking)
    (fun t => countThreadRoots mm.ThreadRootSource.kStack t.rootSet) threads
  have htls := sum_filter_add_sum_filter_not (fun t : mm.ThreadData => t.marking)
    (fun t => countThreadRoots mm.ThreadRootSource.kTLS t.rootSet) threads
  have pstack := (hsched.map
    (fun t : mm.ThreadData => countThreadRoots mm.ThreadRootSource.kStack t.rootSet)).sum_eq
  have ptls := (hsched.map
    (fun t : mm.ThreadData => countThreadRoots mm.ThreadRootSource.kTLS t.rootSet)).sum_eq
  rw [c3 b3, c2, b2, a2, hzero, countThreadRoots_flatMap, countThreadRoots_flatMap,
    ← hstack, ← htls, pstack, ptls]
  simp only [Nat.cast_add, zero_add]

/-- Claim C22: for every thread registry and every assignment of the `marking_`
flags, `CollectRootSetAndStartMarking` stores false in `markingRequested` and
empties the queue of the GC thread, then publishes and collects the root set of
exactly the threads whose flag is false, in registry order, then collects the
global root set once and notifies the waiting threads; its result is that of
collecting those thread root sets and the global root set from an empty queue.
A thread whose flag is false returns from `OnSuspendForGC` at once, a thread
whose flag is true collects its own root set there. So the threads whose root
set is collected, by the GC thread or by themselves, are the threads of the
registry, each once, and after the marking steps of an epoch the root-set
counts of its record count every thread of the registry once. -/
theorem root_sets_divided (G : ObjectGraph) (gcHandle : GCHandle) (c : CollectorState)
    (threads : List mm.ThreadData) (globals : List mm.GlobalRootValue) :
    CollectRootSetAndStartMarking.events threads
      = [MarkingEvent.storeMarkingRequested false, MarkingEvent.clear]
        ++ (threads.filter (fun thread => !thread.marking)).flatMap
            (fun thread => [MarkingEvent.Publish thread.threadId,
                            MarkingEvent.collectRootSetForThread thread.threadId])
        ++ [MarkingEvent.collectRootSetGlobals, MarkingEvent.notify_all] ∧
    (CollectRootSetAndStartMarking G gcHandle c threads globals).toRuntimeState
      = collectRootSetGlobals G gcHandle
          ((threads.filter (fun thread => !thread.marking)).foldl
            (collectRootSetForThread G gcHandle) { c.toRuntimeState with markQueue := [] })
          globals ∧
    (CollectRootSetAndStartMarking G gcHandle c threads globals).lastGCMarkStats
      = c.lastGCMarkStats ∧
    (∀ thread : mm.ThreadData, thread.marking = false →
      OnSuspendForGC.events thread = [] ∧
      ∀ (fuel epoch : Nat) (state : CollectorState),
        OnSuspendForGC G fuel epoch state thread = some state) ∧
    (∀ thread : mm.ThreadData, thread.marking = true →
      OnSuspendForGC.events thread = [MarkingEvent.collectRootSetForThread thread.threadId] ∧
      ∀ (fuel epoch : Nat) (state next : CollectorState),
        OnSuspendForGC G fuel epoch state thread = some next →
        next.gcInfo = reportThreadRootSet (GCHandle.getByEpoch epoch) state.gcInfo thread) ∧
    ((CollectRootSetAndStartMarking.events threads
        ++ threads.flatMap OnSuspendForGC.events).filterMap MarkingEvent.collectedThread).Perm
      (threads.map (fun thread => thread.threadId)) ∧
    (CollectRootSetAndStartMarking.events threads
        ++ threads.flatMap OnSuspendForGC.events).count MarkingEvent.collectRootSetGlobals = 1 ∧
    (∀ (fuel epoch : Nat) (before after : List mm.ThreadData) (final : CollectorState),
      c.gcInfo.current.epoch = some epoch → c.gcInfo.current.rootSet = none →
      (before ++ after).Perm (threads.filter (fun thread => thread.marking)) →
      performMarking G fuel epoch c threads globals before after = some final →
      final.gcInfo.current.rootSet
        = some {
            threadLocalReferences :=
              (countThreadRoots mm.ThreadRootSource.kTLS
                (threads.flatMap (fun thread => thread.rootSet)) : Nat),
            stackReferences :=
              (countThreadRoots mm.ThreadRootSource.kStack
                (threads.flatMap (fun thread => thread.rootSet)) : Nat),
            globalReferences := (countGlobalRoots mm.GlobalRootSource.kGlobal globals : Nat),
            stableReferences :=
              (countGlobalRoots mm.GlobalRootSource.kStableRef globals : Nat) }) := by
  refine ⟨?_, ?_, rfl, ?_, ?_, ?_, ?_, ?_⟩
  · unfold CollectRootSetAndStartMarking.events collectRootSet.events
    rw [flatMap_if_filter]
    simp
  · unfold CollectRootSetAndStartMarking
    simp only []
    rw [collectRootSet_filter]
  · intro thread hm
    refine ⟨by simp [OnSuspendForGC.events, hm], ?_⟩
    intro fuel epoch state
    simp [OnSuspendForGC, hm]
  · intro thread hm
    refine ⟨by simp [OnSuspendForGC.events, hm], ?_⟩
    intro fuel epoch state next h
    exact onSuspendForGC_gcInfo G fuel epoch state next thread hm h
  · rw [List.filterMap_append, collectedThread_events, collectedThread_own, ← List.map_append]
    apply List.Perm.map
    have h := List.filter_append_perm (fun thread : mm.ThreadData => thread.marking) threads
    exact (List.perm_append_comm.trans h)
  · rw [List.count_append]
    have h1 : (threads.flatMap OnSuspendForGC.events).count MarkingEvent.collectRootSetGlobals
        = 0 := by
      rw [List.count_eq_zero]
      intro hmem
      obtain ⟨t, _, ht⟩ := List.mem_flatMap.1 hmem
      unfold OnSuspendForGC.events at ht
      split at ht <;> simp at ht
    have h2 : ((threads.filter (fun thread => !thread.marking)).flatMap
        (fun thread => [MarkingEvent.Publish thread.threadId,
                        MarkingEvent.collectRootSetForThread thread.threadId])).count
          MarkingEvent.collectRootSetGlobals = 0 := by
      rw [List.count_eq_zero]
      intro hmem
      obtain ⟨t, _, ht⟩ := List.mem_flatMap.1 hmem
      simp at ht
    unfold CollectRootSetAndStartMarking.events collectRootSet.events
    rw [flatMap_if_filter, h1]
    simp only [List.count_append, h2]
    decide
  · intro fuel epoch before after final hepoch hfresh hsched h
    exact performMarking_rootSet G fuel epoch c final threads globals before after hepoch hfresh
      hsched h

/-- Claim C22 on the example heap with the thread 1, whose flag is false, and
the thread 2, which marks its own root set. -/
theorem root_sets_divided_witness :
    CollectRootSetAndStartMarking.events [exampleThread, exampleMutator]
      = [MarkingEvent.storeMarkingRequested false, MarkingEvent.clear,
         MarkingEvent.Publish 1, MarkingEvent.collectRootSetForThread 1,
         MarkingEvent.collectRootSetGlobals, MarkingEvent.notify_all] ∧
    (performMarking exampleGraph 7 1 exampleStarted [exampleThread, exampleMutator]
        exampleGlobals [exampleMutator] []).isSome = true ∧
    ∀ final : CollectorState,
      performMarking exampleGraph 7 1 exampleStarted [exampleThread, exampleMutator]
        exampleGlobals [exampleMutator] [] = some final →
      final.gcInfo.current.rootSet
        = some { threadLocalReferences := 0, stackReferences := 2, globalReferences := 1,
                 stableReferences := 0 } :=
  ⟨(root_sets_divided exampleGraph (GCHandle.getByEpoch 1) exampleStarted
      [exampleThread, exampleMutator] exampleGlobals).1,
    by decide,
    fun final h =>
      (root_sets_divided exampleGraph (GCHandle.getByEpoch 1) exampleStarted
        [exampleThread, exampleMutator] exampleGlobals).2.2.2.2.2.2.2 7 1 [exampleMutator] []
        final rfl rfl (by decide) h⟩

/-- Claim C23: for every record, `RootSetStatistics::total()` is the
thread-local count plus the global count plus twice the stable-reference
count; the stack count does not contribute, and `total()` differs from the sum
of the four counts exactly when the stack count differs from the
stable-reference count. -/
theorem total_sums_stable_references_twice (r : RootSetStatistics) :
    r.total = r.threadLocalReferences + r.globalReferences + 2 * r.stableReferences ∧
    (∀ stack : KLong, ({ r with stackReferences := stack } : RootSetStatistics).total = r.total) ∧
    (r.total ≠ r.threadLocalReferences + r.stackReferences + r.globalReferences
        + r.stableReferences ↔ r.stackReferences ≠ r.stableReferences) := by
  refine ⟨?_, fun _ => rfl, ?_⟩
  · simp only [RootSetStatistics.total]; ring
  · simp only [RootSetStatistics.total, ne_eq]
    constructor
    · intro h hs
      apply h
      rw [hs]
    · intro h hs
      apply h
      linarith

/-- Claim C24: the duration that `GCHandle::finish` logs is computed from the end
time and the start time of the current record whichever record `statByEpoch`
matched. When it matched the last record, whose start time is populated, the
end time is stored in the last record and the fields read are those of the
current record as they were. After `create(e)`, `finish()` and `finish()` again
on the same handle, for every statistics state, the epoch matches the last
record only, the second `finish` changes the end time of the last record and
nothing else, and both fields read are unpopulated; with a `create` for another
epoch in between, the start time read is that of the other epoch and the end
time read is unpopulated. -/
theorem finish_reads_current_record (st : GCStatistics) (e : Nat) (t0 t1 t2 : KLong) :
    (∀ (s : GCStatistics) (g : GCHandle) (now : KLong),
      statByEpoch s g.epoch = some StatRef.current → s.current.startTime.isSome = true →
      g.finishDurationOperands now s = some (some now, s.current.startTime)) ∧
    (∀ (s : GCStatistics) (g : GCHandle) (now : KLong),
      statByEpoch s g.epoch = some StatRef.last → s.last.startTime.isSome = true →
      g.finishDurationOperands now s = some (s.current.endTime, s.current.startTime) ∧
      g.finish now s = { s with last := { s.last with endTime := some now } }) ∧
    (statByEpoch ((GCHandle.create e t0 st).1.finish t1 (GCHandle.create e t0 st).2) e
        = some StatRef.last ∧
      ((GCHandle.create e t0 st).1.finish t1 (GCHandle.create e t0 st).2).current = {} ∧
      ((GCHandle.create e t0 st).1.finish t1 (GCHandle.create e t0 st).2).last.startTime
        = some t0 ∧
      (GCHandle.create e t0 st).1.finishDurationOperands t2
          ((GCHandle.create e t0 st).1.finish t1 (GCHandle.create e t0 st).2)
        = some (none, none) ∧
      ((GCHandle.create e t0 st).1.finish t2
          ((GCHandle.create e t0 st).1.finish t1 (GCHandle.create e t0 st).2)).last.endTime
        = some t2 ∧
      ((GCHandle.create e t0 st).1.finish t2
          ((GCHandle.create e t0 st).1.finish t1 (GCHandle.create e t0 st).2)).last.startTime
        = some t0) ∧
    (∀ (e2 : Nat) (t3 : KLong), e2 ≠ e →
      (GCHandle.getByEpoch e).finishDurationOperands t2
          (GCHandle.create e2 t3
            ((GCHandle.create e t0 st).1.finish t1 (GCHandle.create e t0 st).2)).2
        = some (none, some t3)) := by
  have hcur : statByEpoch (GCHandle.create e t0 st).2 (GCHandle.create e t0 st).1.epoch
      = some StatRef.current := by
    simp [statByEpoch, GCHandle.create, GCHandle.getByEpoch]
  have hfin : (GCHandle.create e t0 st).1.finish t1 (GCHandle.create e t0 st).2
      = { last := { { st.current with epoch := some e, startTime := some t0 } with
                    endTime := some t1 },
          current := {} } := by
    simp [GCHandle.finish, hcur, GCStatistics.set, GCStatistics.get]
    simp [GCHandle.create]
  refine ⟨?_, ?_, ?_, ?_⟩
  · intro s g now href hstart
    simp [GCHandle.finishDurationOperands, href, GCStatistics.set, GCStatistics.get, hstart]
  · intro s g now href hstart
    simp [GCHandle.finishDurationOperands, GCHandle.finish, href, GCStatistics.set,
      GCStatistics.get, hstart]
  · rw [hfin]
    simp [statByEpoch, GCHandle.finishDurationOperands, GCHandle.finish, GCHandle.create,
      GCHandle.getByEpoch, GCStatistics.set, GCStatistics.get]
  · intro e2 t3 hne
    rw [hfin]
    have hne2 : ¬ e2 = e := hne
    simp [statByEpoch, GCHandle.finishDurationOperands, GCHandle.create,
      GCHandle.getByEpoch, GCStatistics.set, GCStatistics.get, hne2]

theorem update_of_none (h : GCHandle) (st : GCStatistics)
    (hnone : statByEpoch st h.epoch = none) (call : GCHandleUpdate) : h.update call st = st := by
  cases call <;>
    simp [GCHandle.update, GCHandle.suspensionRequested, GCHandle.threadsAreSuspended,
      GCHandle.threadsAreResumed, GCHandle.finalizersDone, GCHandle.finalizersScheduled,
      GCHandle.threadRootSet, GCHandle.globalRootSet, GCHandle.heapUsageBefore,
      GCHandle.heapUsageAfter, GCHandle.extraObjectsUsageBefore,
      GCHandle.extraObjectsUsageAfter, hnone]

theorem update_of_current (h : GCHandle) (st : GCStatistics)
    (hcur : st.current.epoch = some h.epoch) (call : GCHandleUpdate) :
    (h.update call st).last = st.last ∧
    (h.update call st).current
      = (h.update call { last := {}, current := st.current }).current := by
  have h1 : statByEpoch st h.epoch = some StatRef.current := by simp [statByEpoch, hcur]
  have h2 : statByEpoch { last := {}, current := st.current } h.epoch = some StatRef.current := by
    simp [statByEpoch, hcur]
  cases call <;>
    simp [GCHandle.update, GCHandle.suspensionRequested, GCHandle.threadsAreSuspended,
      GCHandle.threadsAreResumed, GCHandle.finalizersDone, GCHandle.finalizersScheduled,
      GCHandle.threadRootSet, GCHandle.globalRootSet, GCHandle.heapUsageBefore,
      GCHandle.heapUsageAfter, GCHandle.extraObjectsUsageBefore,
      GCHandle.extraObjectsUsageAfter, h1, h2, GCStatistics.set, GCStatistics.get]

/-- Claim C25: for every statistics state and every handle whose epoch is
neither that of the current record nor that of the last record, `finish` and
every other update call on the handle leave both records as they are. When the
epoch is that of both records, `statByEpoch` finds the current record: every
update call but `finish` leaves the last record as it is and changes the
current record as it would without the last one, and `finish` stores the end
time in the current record, which then becomes the last record. -/
theorem unknown_epoch_updates_change_nothing (st : GCStatistics) (h : GCHandle) :
    (st.current.epoch ≠ some h.epoch → st.last.epoch ≠ some h.epoch →
      statByEpoch st h.epoch = none ∧
      (∀ now : KLong, h.finish now st = st) ∧
      (∀ call : GCHandleUpdate, h.update call st = st)) ∧
    (st.current.epoch = some h.epoch → st.last.epoch = some h.epoch →
      statByEpoch st h.epoch = some StatRef.current ∧
      (∀ call : GCHandleUpdate,
        (h.update call st).last = st.last ∧
        (h.update call st).current
          = (h.update call { last := {}, current := st.current }).current) ∧
      (∀ now : KLong, (h.suspensionRequested now st).current.pauseStartTime = some now ∧
        (h.threadsAreResumed now st).current.pauseEndTime = some now ∧
        (h.finalizersDone now st).current.finalizersDoneTime = some now) ∧
      (∀ now : KLong,
        h.finish now st = { last := { st.current with endTime := some now }, current := {} })) := by
  constructor
  · intro hc hl
    have hnone : statByEpoch st h.epoch = none := by simp [statByEpoch, hc, hl]
    exact ⟨hnone, fun now => by simp [GCHandle.finish, hnone], update_of_none h st hnone⟩
  · intro hc _
    have h1 : statByEpoch st h.epoch = some StatRef.current := by simp [statByEpoch, hc]
    refine ⟨h1, update_of_current h st hc, ?_, ?_⟩
    · intro now
      simp [GCHandle.suspensionRequested, GCHandle.threadsAreResumed, GCHandle.finalizersDone,
        h1, GCStatistics.set, GCStatistics.get]
    · intro now
      simp [GCHandle.finish, h1, GCStatistics.set, GCStatistics.get]

theorem sweepExtraObjectsLoop_kept (G : ObjectGraph) (color : Colors)
    (records : ExtraObjectsFactory) :
    ∀ e, e ∈ sweepExtraObjectsLoop G color records →
      e.getFlagInFinalizerQueue = true ∨ G.heap e.GetBaseObject = false ∨
        color e.GetBaseObject = Color.kBlack := by
  induction records with
  | nil => intro e he; simp [sweepExtraObjectsLoop] at he
  | cons x rest ih =>
    intro e he
    rw [sweepExtraObjectsLoop] at he
    split at he
    · rename_i hcond
      simp only at he
      split at he
      · rcases List.mem_cons.1 he with rfl | he
        · left; rfl
        · exact ih e he
      · exact ih e he
    · rename_i hcond
      rcases List.mem_cons.1 he with rfl | he
      · simp only [Bool.and_eq_true, Bool.not_eq_true', not_and, Bool.not_eq_false] at hcond
        cases hf : e.getFlagInFinalizerQueue
        · have hm := hcond hf
          right
          simp only [SweepTraits.IsMarkedByExtraObject] at hm
          cases hh : G.heap e.GetBaseObject
          · left; rfl
          · right
            simpa [hh] using hm
        · left; rfl
      · exact ih e he

theorem sweep_keeps_black (G : ObjectGraph) (factory : List ObjHeader) :
    ∀ (color : Colors) (x : ObjHeader), x ∈ factory → color x = Color.kBlack →
      x ∈ (Sweep G factory color).objectFactory := by
  induction factory with
  | nil => intro color x hx; simp at hx
  | cons node rest ih =>
    intro color x hx hb
    by_cases hxn : x = node
    · subst hxn
      simp [Sweep, SweepTraits.TryResetMark, hb]
    · have hx' : x ∈ rest := by
        rcases List.mem_cons.1 hx with h | h
        · exact absurd h hxn
        · exact h
      rcases color_cases (color node) with hw | hbn
      · have := ih color x hx' hb
        simp only [Sweep, SweepTraits.TryResetMark, hw, if_true]
        split <;> simpa using this
      · have := ih (Function.update color node Color.kWhite) x hx'
          (by rw [Function.update_noteq hxn]; exact hb)
        simp only [Sweep, SweepTraits.TryResetMark, hbn]
        simp [this]

/-- Claim C26: when the object factory holds every heap object, after
`SweepExtraObjects` and then `Sweep` over the same colouring, the order in which
`PerformFullGC` calls them, every record still in the extra-object factory has
its finalizer-queue flag set, or its base object is not a heap object, or its
base object is still in the object factory. -/
theorem no_dangling_extra_object_record
    (ProcessDeletions : ExtraObjectsFactory → ExtraObjectsFactory) (G : ObjectGraph)
    (color : Colors) (extraObjects : ExtraObjectsFactory) (factory : List ObjHeader)
    (hfactory : ∀ o, G.heap o = true → o ∈ factory) :
    (∀ e, e ∈ SweepExtraObjects ProcessDeletions G color extraObjects →
      e.getFlagInFinalizerQueue = true ∨ G.heap e.GetBaseObject = false ∨
        e.GetBaseObject ∈ (Sweep G factory color).objectFactory) ∧
    (∀ e, e ∈ SweepExtraObjects ProcessDeletions G color extraObjects →
      e.getFlagInFinalizerQueue = false → G.heap e.GetBaseObject = true →
      color e.GetBaseObject = Color.kBlack ∧
        e.GetBaseObject ∈ (Sweep G factory color).objectFactory) ∧
    (∀ epoch : Nat,
      (PerformFullGC.calls epoch).filter
          (fun call => decide (call = DriverCall.SweepExtraObjects ∨ call = DriverCall.Sweep))
        = [DriverCall.SweepExtraObjects, DriverCall.Sweep]) := by
  have key : ∀ e, e ∈ SweepExtraObjects ProcessDeletions G color extraObjects →
      e.getFlagInFinalizerQueue = false → G.heap e.GetBaseObject = true →
      color e.GetBaseObject = Color.kBlack ∧
        e.GetBaseObject ∈ (Sweep G factory color).objectFactory := by
    intro e he hf hh
    rcases sweepExtraObjectsLoop_kept G color _ e he with h | h | h
    · rw [hf] at h; exact absurd h (by simp)
    · rw [hh] at h; exact absurd h (by simp)
    · exact ⟨h, sweep_keeps_black G factory color _ (hfactory _ hh) h⟩
  refine ⟨?_, key, ?_⟩
  · intro e he
    cases hf : e.getFlagInFinalizerQueue
    · cases hh : G.heap e.GetBaseObject
      · right; left; rfl
      · right; right; exact (key e he hf hh).2
    · left; rfl
  · intro epoch
    simp [PerformFullGC.calls, List.filter]

/-- Claim C26 on the example heap with 10 and 12 Black: of the records of 12, 13
and 15 the sweep keeps that of the Black object 12, which stays in the object
factory, and that of the White object 13, whose flag it sets. -/
theorem no_dangling_extra_object_record_witness :
    ((∀ e, e ∈ SweepExtraObjects id exampleGraph exampleColors
          [exampleRecord 12 none, exampleRecord 13 (some 7), exampleRecord 15 none] →
        e.getFlagInFinalizerQueue = true ∨ exampleGraph.heap e.GetBaseObject = false ∨
          e.GetBaseObject ∈ (Sweep exampleGraph exampleFactory exampleColors).objectFactory) ∧
      (SweepExtraObjects id exampleGraph exampleColors
          [exampleRecord 12 none, exampleRecord 13 (some 7), exampleRecord 15 none]).map
          (fun e => (e.GetBaseObject, e.getFlagInFinalizerQueue))
        = [(12, false), (13, true)]) ∧
    (Sweep exampleGraph exampleFactory exampleColors).objectFactory = [10, 12] :=
  ⟨⟨(no_dangling_extra_object_record id exampleGraph exampleColors
      [exampleRecord 12 none, exampleRecord 13 (some 7), exampleRecord 15 none] exampleFactory
      (fun o ho => (example_factory o).1 ho)).1, by decide⟩, by decide⟩

end gc

end kotlin
